import Mathlib

/-!
Verification of the flow-graph optimization layer (`fgopt.cpp`).

The development shallow-embeds the data model and the operations of the
source file: basic blocks with a tagged jump kind, predecessor edge lists,
flags, weights, the EH descriptor table, and the compiler-level analysis
state (reverse postorder, dominator numbers, reachability bit sets).
C++ loops that iterate to a fixpoint are rendered as fueled recursions
returning `Option`; a `none` result corresponds to the hard iteration caps
(`noway_assert`) of the source, and every theorem about such an operation
hypothesizes successful termination.

Block weights (`weight_t`, a floating-point type in the source) are
modelled as `Nat`: the verified operations use weights only through
comparison with zero and `max`, which agree with the floating-point
behavior on the nonnegative values the compiler uses.

Functions of the repository that are not part of the provided source
(`fgRemoveBlockAsPred`, `fgRemoveBlock`, edge bookkeeping helpers, ...)
are modelled from the specification; each such definition carries a doc
comment starting with `Modelled from the spec:`.
-/

namespace FgOpt

/-- A basic block jump kind: the closed variant describing the control
transfer at the end of a block, mirroring `BBjumpKinds` as used in
fgopt.cpp. `cond` and `callFinally` fall through to the lexical
successor in addition to their explicit target; `swtch` carries the
ordered jump table (the last entry is the default case). -/
inductive BBKind where
  | always (target : Nat)
  | cond (target : Nat)
  | swtch (table : List Nat)
  | ret
  | bthrow
  | callFinally (target : Nat)
  | ehFinallyRet (targets : List Nat)
  | ehFaultRet
  | ehFilterRet (target : Nat)
  | ehCatchRet (target : Nat)
  deriving DecidableEq

/-- An IR expression tree, kept minimal: opaque subtrees summarize their
side-effect classification in a flag, and the operators that
`fgOptimizeSwitchBranches` builds or inspects are explicit. -/
inductive GenTree where
  | leafOp (opid : Nat) (sideEffect : Bool)
  | switchOp (op1 : GenTree)
  | jtrueOp (op1 : GenTree)
  | eqOp (op1 op2 : GenTree)
  | zeroCon
  | commaOp (op1 op2 : GenTree)
  deriving DecidableEq

/-- Whether a tree contains a side-effecting subexpression
(the `GTF_SIDE_EFFECT` summary flag of the source IR). -/
def GenTree.hasSideEffects : GenTree → Bool
  | .leafOp _ se => se
  | .switchOp t => t.hasSideEffects
  | .jtrueOp t => t.hasSideEffects
  | .eqOp a b => a.hasSideEffects || b.hasSideEffects
  | .zeroCon => false
  | .commaOp a b => a.hasSideEffects || b.hasSideEffects

/-- Modelled from the spec: `gtExtractSideEffList` ("extraction of
side-effecting subexpressions from a discarded root", external interface
(a)/(c)); returns the side-effecting subexpressions of a discarded tree,
or `none` when there are none. -/
def gtExtractSideEffList : GenTree → Option GenTree
  | .leafOp i se => if se then some (.leafOp i se) else none
  | .switchOp t => gtExtractSideEffList t
  | .jtrueOp t => gtExtractSideEffList t
  | .eqOp a b =>
    match gtExtractSideEffList a, gtExtractSideEffList b with
    | some x, some y => some (.commaOp x y)
    | some x, none => some x
    | none, some y => some y
    | none, none => none
  | .zeroCon => none
  | .commaOp a b =>
    match gtExtractSideEffList a, gtExtractSideEffList b with
    | some x, some y => some (.commaOp x y)
    | some x, none => some x
    | none, some y => some y
    | none, none => none

/-- A statement of a block: an opaque identity, whether it is a phi
definition (`FirstNonPhiDef` distinguishes the phi prefix of a block's
statement list), and its root expression tree. -/
structure Statement where
  sid : Nat
  isPhiDef : Bool
  rootNode : GenTree
  deriving DecidableEq

/-- The block flags read or written by the verified operations
(a subset of `BasicBlockFlags`). -/
structure BBFlags where
  removed : Bool := false
  dontRemove : Bool := false
  runRarely : Bool := false
  profWeight : Bool := false
  internalFlag : Bool := false
  importedFlag : Bool := false
  keepBbjAlways : Bool := false
  gcSafePoint : Bool := false
  funcletBeg : Bool := false
  loopPreheader : Bool := false
  loopAlign : Bool := false
  retlessCall : Bool := false
  noneQuirk : Bool := false
  clonedFinallyBegin : Bool := false
  cold : Bool := false
  deriving DecidableEq

/-- A basic block. Blocks live in the compiler's ordered block list;
the lexical successor (`bbNext`) is the following list element.
`bbPreds` is the predecessor edge list (source block numbers, one entry
per flow edge, duplicates representing duplicate switch edges) and
`bbRefs` the incoming reference count. `bbReach` is the reachability
bit set, `bbIDom`/`bbPreorderNum`/`bbPostorderNum` the dominance and
DFS fields (block number 0 denotes the imaginary super-root). -/
structure BasicBlock where
  bbNum : Nat
  kind : BBKind
  stmts : List Statement
  bbPreds : List Nat
  bbRefs : Nat
  bbWeight : Nat
  flags : BBFlags := {}
  bbTryIndex : Option Nat := none
  bbHndIndex : Option Nat := none
  bbCatchTyp : Bool := false
  bbIDom : Option Nat := none
  bbPreorderNum : Nat := 0
  bbPostorderNum : Nat := 0
  bbNatLoopNum : Option Nat := none
  bbReach : List Nat := []
  bbLiveOut : List Nat := []
  bbCodeOffs : Option Nat := none
  bbCodeOffsEnd : Option Nat := none
  deriving DecidableEq

/-- An EH table entry: try/handler begin blocks, the optional filter
begin, and the enclosing try index used for mutually-protect regions. -/
structure EHblkDsc where
  ebdTryBeg : Nat
  ebdHndBeg : Nat
  ebdFilter : Option Nat := none
  ebdEnclosingTryIndex : Option Nat := none
  deriving DecidableEq

/-- A loop table entry (external data, patched by the verified
operations when referenced blocks are compacted away). -/
structure LoopDsc where
  lpHead : Nat
  lpTop : Nat
  lpEntry : Nat
  lpBottom : Nat
  lpExit : Nat
  lpExitCnt : Nat := 1
  lpRemoved : Bool := false
  deriving DecidableEq

/-- The compiler state: the ordered block list plus the global fields of
`Compiler` that the verified operations consult. `fgBBReversePostorder`
lists block numbers at indices 1..N (index 0 is the super-root slot);
`fgDomTreePreOrder`/`fgDomTreePostOrder` are the dominator tree
numbering arrays, as functions from block number. `edgeWeightMinMap`
models the per-edge minimum profile weight (`FlowEdge::edgeWeightMin`,
queried but whose maintenance is not part of the verified claims). -/
structure Compiler where
  blocks : List BasicBlock
  compHndBBtab : List EHblkDsc := []
  genReturnBB : Option Nat := none
  throwHelperBlocks : List Nat := []
  optLoopTable : List LoopDsc := []
  optLoopsRequirePreHeaders : Bool := false
  fgCanRelocateEHRegions : Bool := false
  fgFirstBBScratch : Option Nat := none
  fgIsUsingProfileWeights : Bool := false
  fgHaveValidEdgeWeights : Bool := false
  edgeWeightMinMap : Nat → Nat → Nat := fun _ _ => 0
  fgDomsComputed : Bool := false
  fgDomBBcount : Nat := 0
  fgBBReversePostorder : List Nat := []
  fgDomTreePreOrder : Nat → Nat := fun _ => 0
  fgDomTreePostOrder : Nat → Nat := fun _ => 0

namespace Compiler

/-- Find the block with the given block number. -/
def findBlock (c : Compiler) (n : Nat) : Option BasicBlock :=
  c.blocks.find? (fun b => b.bbNum = n)

/-- The block number of the lexical successor (`bbNext`) of the block
numbered `n`, if any. -/
def bbNextNum (c : Compiler) (n : Nat) : Option Nat :=
  match c.blocks.dropWhile (fun b => b.bbNum ≠ n) with
  | _ :: nxt :: _ => some nxt.bbNum
  | _ => none

/-- Update the block numbered `n` in place by `f`. -/
def updateBlock (c : Compiler) (n : Nat) (f : BasicBlock → BasicBlock) :
    Compiler :=
  { c with blocks := c.blocks.map (fun b => if b.bbNum = n then f b else b) }

/-- `fgBBcount`: the number of blocks in the list. -/
def fgBBcount (c : Compiler) : Nat := c.blocks.length

end Compiler

/-- The successor block numbers of a block, derived from the block's
kind, its switch table, and its lexical successor (`BasicBlock::Succs`):
a conditional or call-finally block falls through to `bbNext` and also
targets its jump destination. -/
def succsOf (c : Compiler) (b : BasicBlock) : List Nat :=
  match b.kind with
  | .always t => [t]
  | .cond t => (match c.bbNextNum b.bbNum with
      | some nxt => [nxt, t]
      | none => [t])
  | .swtch table => table
  | .ret => []
  | .bthrow => []
  | .callFinally t => (match c.bbNextNum b.bbNum with
      | some nxt => [t, nxt]
      | none => [t])
  | .ehFinallyRet targets => targets
  | .ehFaultRet => []
  | .ehFilterRet t => [t]
  | .ehCatchRet t => [t]

/-- `BasicBlock::NumSucc(Compiler*)`: the number of distinct successors;
for a switch this is the number of unique jump-table targets. -/
def numSuccOf (c : Compiler) (b : BasicBlock) : Nat :=
  (succsOf c b).dedup.length

/-- `BasicBlock::isEmpty`: the block has no statements. -/
def BasicBlock.isEmpty (b : BasicBlock) : Bool := b.stmts.isEmpty

/-- `bbIsTryBeg`: the block is the first block of some try region. -/
def bbIsTryBeg (c : Compiler) (b : BasicBlock) : Bool :=
  c.compHndBBtab.any (fun d => d.ebdTryBeg = b.bbNum)

/-- `bbIsHandlerBeg`: the block is the first block of a handler
(or filter) of some EH table entry. -/
def bbIsHandlerBeg (c : Compiler) (b : BasicBlock) : Bool :=
  c.compHndBBtab.any (fun d => d.ebdHndBeg = b.bbNum ∨ d.ebdFilter = some b.bbNum)

/-- `fgIsThrowHlpBlk`: the block is one of the internal throw helper
blocks. -/
def fgIsThrowHlpBlk (c : Compiler) (b : BasicBlock) : Bool :=
  c.throwHelperBlocks.contains b.bbNum

/-- `BasicBlock::isBBCallAlwaysPair`: a `BBJ_CALLFINALLY` block that is
not a retless call and is followed by its paired `BBJ_ALWAYS`
continuation. -/
def isBBCallAlwaysPair (c : Compiler) (b : BasicBlock) : Bool :=
  (match b.kind with | .callFinally _ => true | _ => false) &&
  !b.flags.retlessCall &&
  (match c.bbNextNum b.bbNum with
   | some nxt => (match c.findBlock nxt with
       | some nb => (match nb.kind with | .always _ => true | _ => false)
       | none => false)
   | none => false)

/-- `bbSetRunRarely`: mark a block rarely run and zero its weight. -/
def BasicBlock.bbSetRunRarely (b : BasicBlock) : BasicBlock :=
  { b with bbWeight := 0, flags := { b.flags with runRarely := true } }

/-- `BasicBlock::isRunRarely`: the rarely-run flag. -/
def BasicBlock.isRunRarely (b : BasicBlock) : Bool := b.flags.runRarely

/-- `BasicBlock::hasProfileWeight`: the profile-weight-present flag. -/
def BasicBlock.hasProfileWeight (b : BasicBlock) : Bool := b.flags.profWeight

/-- `setBBProfileWeight`: install a profile-derived weight, setting the
profile flag and synchronizing the rarely-run flag with the weight. -/
def BasicBlock.setBBProfileWeight (b : BasicBlock) (w : Nat) : BasicBlock :=
  { b with bbWeight := w,
           flags := { b.flags with profWeight := true, runRarely := w = 0 } }

/-!
## Unreachable block elimination (`fgRemoveDeadBlocks`, `fgRemoveUnreachableBlocks`)
-/

/-- The EH successors pushed by the `fgRemoveDeadBlocks` worklist walk for
a visited try-begin block: the handler (and filter) begin of its region,
iterating outward through enclosing mutually-protect regions that share
the same try-begin block (fgopt.cpp:662-679). The recursion is bounded
by the EH table size. -/
def ehWalkSuccsLoop (c : Compiler) (blockNum : Nat) :
    Nat → Nat → List Nat
  | 0, _ => []
  | fuel + 1, tryIndex =>
    match c.compHndBBtab.get? tryIndex with
    | none => []
    | some ehDsc =>
      let base := ehDsc.ebdHndBeg ::
        (match ehDsc.ebdFilter with | some f => [f] | none => [])
      match ehDsc.ebdEnclosingTryIndex with
      | none => base
      | some enclosing =>
        match c.compHndBBtab.get? enclosing with
        | none => base
        | some ehDsc2 =>
          if ehDsc2.ebdTryBeg ≠ blockNum then base
          else base ++ ehWalkSuccsLoop c blockNum fuel enclosing

/-- The EH successors of a block in the dead-block worklist walk:
nonempty only for try-begin blocks (fgopt.cpp:654-680). -/
def ehWalkSuccs (c : Compiler) (b : BasicBlock) : List Nat :=
  if bbIsTryBeg c b then
    match b.bbTryIndex with
    | some tryIndex => ehWalkSuccsLoop c b.bbNum (c.compHndBBtab.length + 1) tryIndex
    | none => []
  else []

/-- The successors a block contributes to the dead-block worklist:
its flow successors plus, for a try-begin block, the handler/filter
begins of its region(s). -/
def augSuccs (c : Compiler) (n : Nat) : List Nat :=
  match c.findBlock n with
  | none => []
  | some b => succsOf c b ++ ehWalkSuccs c b

/-- One block can follow another in the dead-block worklist walk. -/
def AugEdge (c : Compiler) (u v : Nat) : Prop := v ∈ augSuccs c u

/-- Declarative reachability along worklist-walk edges. -/
def AugReach (c : Compiler) (s n : Nat) : Prop :=
  Relation.ReflTransGen (AugEdge c) s n

/-- The worklist traversal of `fgRemoveDeadBlocks` (fgopt.cpp:631-681),
generalized over the pending worklist and the visited set; returns the
visited set, or `none` when the fuel is exhausted. -/
def removeDeadWalkGo (c : Compiler) :
    Nat → List Nat → List Nat → Option (List Nat)
  | 0, _, _ => none
  | _ + 1, [], visited => some visited
  | fuel + 1, n :: rest, visited =>
    if n ∈ visited then removeDeadWalkGo c fuel rest visited
    else removeDeadWalkGo c fuel (rest ++ augSuccs c n) (n :: visited)

/-- The full worklist traversal, seeded with `fgFirstBB`. -/
def removeDeadWalk (c : Compiler) (fuel : Nat) : Option (List Nat) :=
  match c.blocks.head? with
  | none => none
  | some first => removeDeadWalkGo c fuel [first.bbNum] []

/-- The late-mode removability predicate `isBlockRemovable` of
`fgRemoveDeadBlocks` (fgopt.cpp:691-697): unvisited by the worklist
traversal, or no remaining incoming references. -/
def isBlockRemovable (visited : List Nat) (b : BasicBlock) : Bool :=
  let isVisited := visited.contains b.bbNum
  !isVisited || b.bbRefs == 0

/-- Modelled from the spec: detaching a single flow edge from its target
block's predecessor list, decrementing the target's reference count
(spec section 3, "predecessor edge set" / "Sum of predecessor-edge
duplicate counts into a block equals the number of control-flow paths
entering it"). -/
def removeOnePred (c : Compiler) (target srcNum : Nat) : Compiler :=
  c.updateBlock target (fun tb =>
    { tb with bbPreds := tb.bbPreds.erase srcNum, bbRefs := tb.bbRefs - 1 })

/-- Modelled from the spec: `fgRemoveBlockAsPred` — when a block is
retired its outgoing edges are detached from its successors'
predecessor lists (spec section 3, lifecycle: "predecessors detached"). -/
def fgRemoveBlockAsPred (c : Compiler) (n : Nat) : Compiler :=
  match c.findBlock n with
  | none => c
  | some b => (succsOf c b).foldl (fun acc s => removeOnePred acc s n) c

/-- `fgUnreachableBlock` (fgopt.cpp:2494-2556): delete the block's code,
mark it removed, and update `bbRefs`/`bbPreds` of its successors.
The loop-table update `optUpdateLoopsBeforeRemoveBlock` is elided
(the verified claims do not observe the loop table here). -/
def fgUnreachableBlock (c : Compiler) (n : Nat) : Compiler :=
  match c.findBlock n with
  | none => c
  | some b =>
    if b.flags.removed then c
    else
      let c1 := c.updateBlock n (fun blk =>
        { blk with stmts := [], flags := { blk.flags with removed := true } })
      fgRemoveBlockAsPred c1 n

/-- Modelled from the spec: `fgRemoveEhfSuccessor` — remove the paired
continuation block from a `BBJ_EHFINALLYRET` predecessor's successor
list and detach the corresponding flow edge. -/
def fgRemoveEhfSuccessor (c : Compiler) (predNum leaveNum : Nat) : Compiler :=
  let c1 := c.updateBlock predNum (fun pb =>
    match pb.kind with
    | .ehFinallyRet ts => { pb with kind := .ehFinallyRet (ts.erase leaveNum) }
    | _ => pb)
  removeOnePred c1 leaveNum predNum

/-- Modelled from the spec: `fgRemoveBlock` on an unreachable block —
the block is first logically retired (removed flag set, statements
cleared, outgoing edges detached) if it was not already, then
physically unlinked from the block list (spec section 3, lifecycle). -/
def fgRemoveBlock (c : Compiler) (n : Nat) : Compiler :=
  match c.findBlock n with
  | none => c
  | some b =>
    let c1 :=
      if b.flags.removed then c
      else
        fgRemoveBlockAsPred
          (c.updateBlock n (fun blk =>
            { blk with stmts := [], flags := { blk.flags with removed := true } })) n
    { c1 with blocks := c1.blocks.filter (fun blk => blk.bbNum ≠ n) }

/-- The intermediate state of the recording loop of
`fgRemoveUnreachableBlocks`: the compiler state, the `changed` and
`hasUnreachableBlocks` flags, and whether the removability predicate was
ever true (modelling the `hasUnreachableBlock` side effect of the
late-mode predicate's lambda). -/
structure RUBState where
  comp : Compiler
  changed : Bool
  hasUnreach : Bool
  saw : Bool

/-- The body of the recording loop of `fgRemoveUnreachableBlocks`
(fgopt.cpp:404-491) for one block number. -/
def removeUnreachableStep (canRemove : BasicBlock → Bool)
    (st : RUBState) (n : Nat) : RUBState :=
  let c := st.comp
  match c.findBlock n with
  | none => st
  | some block =>
    if fgIsThrowHlpBlk c block then st
    else if c.genReturnBB = some n then st
    else if block.flags.dontRemove && block.isEmpty &&
            (block.kind matches .bthrow) then st
    else if !canRemove block then st
    else
      let saw := true
      let c := fgUnreachableBlock c n
      let bIsBBCallAlwaysPair := isBBCallAlwaysPair c block
      let leaveNum := c.bbNextNum n
      let (c, changed, hasUnreach) :=
        if block.flags.dontRemove then
          (c.updateBlock n (fun blk =>
            ({ blk with
                kind := .bthrow,
                flags := { blk.flags with
                            removed := false, internalFlag := false,
                            importedFlag := true } }).bbSetRunRarely),
           st.changed || decide (numSuccOf c block > 0), st.hasUnreach)
        else (c, true, true)
      if bIsBBCallAlwaysPair then
        match leaveNum with
        | none => ⟨c, changed, hasUnreach, saw⟩
        | some leave =>
          let c := if block.flags.dontRemove then c
                   else c.updateBlock n (fun blk => { blk with kind := .always leave })
          let c := c.updateBlock leave (fun lb =>
            { lb with flags := { lb.flags with dontRemove := false } })
          let leavePreds := (c.findBlock leave).map BasicBlock.bbPreds |>.getD []
          let c := leavePreds.foldl (fun acc p => fgRemoveEhfSuccessor acc p leave) c
          ⟨fgRemoveBlock c leave, changed, hasUnreach, saw⟩
      else ⟨c, changed, hasUnreach, saw⟩

/-- `fgRemoveUnreachableBlocks` (fgopt.cpp:398-519): record (and retire)
the removable blocks in one sweep over the block list; then, when some
block was retired for deletion this pass, physically unlink every block
marked removed. Returns the new state, the `changed` flag, and whether
the predicate was ever true. -/
def fgRemoveUnreachableBlocks (canRemove : BasicBlock → Bool)
    (c : Compiler) : Compiler × Bool × Bool :=
  let ns := c.blocks.map BasicBlock.bbNum
  let st := ns.foldl (removeUnreachableStep canRemove) ⟨c, false, false, false⟩
  let c2 := if st.hasUnreach then
              { st.comp with blocks := st.comp.blocks.filter (fun b => !b.flags.removed) }
            else st.comp
  (c2, st.changed, st.saw)

/-- The retry loop of `fgRemoveDeadBlocks` (fgopt.cpp:699-711): repeat
`fgRemoveUnreachableBlocks` while it reports a change, giving up
(`noway_assert`) after ten iterations. -/
def removeDeadLoop (canRemove : BasicBlock → Bool) :
    Nat → Compiler → Bool → Option (Compiler × Bool)
  | 0, _, _ => none
  | fuel + 1, c, saw =>
    let (c1, changed, saw1) := fgRemoveUnreachableBlocks canRemove c
    if changed then removeDeadLoop canRemove fuel c1 (saw || saw1)
    else some (c1, saw || saw1)

/-- `fgRemoveDeadBlocks` (fgopt.cpp:615-726): run the worklist traversal
from `fgFirstBB` (following flow edges, plus handler/filter edges out
of visited try-begin blocks), then iterate `fgRemoveUnreachableBlocks`
with the late-mode predicate to a fixpoint. Returns the final state and
whether any unreachable block was found. The block-epoch bookkeeping at
fgopt.cpp:619-629 only resets cached-analysis validity flags and is not
modelled. -/
def fgRemoveDeadBlocks (c : Compiler) (walkFuel : Nat) :
    Option (Compiler × Bool) :=
  match removeDeadWalk c walkFuel with
  | none => none
  | some visitedBlocks => removeDeadLoop (isBlockRemovable visitedBlocks) 10 c false

/-!
## Declarative flow reachability and the plain-flow worklist traversal
-/

/-- A flow edge between block numbers. -/
def FlowEdgeRel (c : Compiler) (u v : Nat) : Prop :=
  match c.findBlock u with
  | none => False
  | some b => v ∈ succsOf c b

/-- Declarative reachability along flow edges. -/
def FlowReach (c : Compiler) (s n : Nat) : Prop :=
  Relation.ReflTransGen (FlowEdgeRel c) s n

/-- The flow successors of a block number. -/
def flowSuccs (c : Compiler) (n : Nat) : List Nat :=
  match c.findBlock n with
  | none => []
  | some b => succsOf c b

/-- A worklist traversal that follows plain flow edges only, from a given
root list (used to express the specification's description of the root
set as the entry together with all EH begin blocks, and to evaluate
reachability from a root set on concrete states). -/
def flowWalkGo (c : Compiler) :
    Nat → List Nat → List Nat → Option (List Nat)
  | 0, _, _ => none
  | _ + 1, [], visited => some visited
  | fuel + 1, n :: rest, visited =>
    if n ∈ visited then flowWalkGo c fuel rest visited
    else flowWalkGo c fuel (rest ++ flowSuccs c n) (n :: visited)

/-- The root set named by the specification's post-elimination closure
property: the entry block together with every EH handler and filter
begin block. -/
def rootSetOf (c : Compiler) : List Nat :=
  (match c.blocks.head? with | some b => [b.bbNum] | none => []) ++
  c.compHndBBtab.foldr (fun d acc =>
    d.ebdHndBeg :: (match d.ebdFilter with | some f => [f] | none => []) ++ acc) []

/-- Reachability from the specification's root set via flow edges. -/
def ReachFromRootSet (c : Compiler) (n : Nat) : Prop :=
  ∃ r ∈ rootSetOf c, FlowReach c r n

/-- The root set that claim C8's wording describes for the late-mode
traversal: the entry block together with every EH try, handler, and
filter begin block. This definition follows the specification's words
and is compared against the traversal the source actually performs. -/
def claimRootsC8 (c : Compiler) : List Nat :=
  (match c.blocks.head? with | some b => [b.bbNum] | none => []) ++
  c.compHndBBtab.foldr (fun d acc =>
    d.ebdTryBeg :: d.ebdHndBeg ::
      (match d.ebdFilter with | some f => [f] | none => []) ++ acc) []

/-- Reachability from claim C8's root set via flow edges: membership in
a worklist traversal seeded with the entry and all EH begin blocks.
This definition follows the claim's words, for refinement comparison
with the source's traversal. -/
def ClaimVisitedC8 (c : Compiler) (n : Nat) : Prop :=
  ∃ r ∈ claimRootsC8 c, FlowReach c r n

/-- The removability predicate that claim C8's wording describes:
not visited by a traversal rooted at the entry and all EH begin blocks,
or zero remaining references. Follows the claim's words, for
refinement comparison. -/
def claimRemovableC8 (c : Compiler) (b : BasicBlock) : Prop :=
  ¬ ClaimVisitedC8 c b.bbNum ∨ b.bbRefs = 0

/-!
## Correctness of the worklist traversals
-/

theorem removeDeadWalkGo_sound (c : Compiler) :
    ∀ fuel wl vis out, removeDeadWalkGo c fuel wl vis = some out →
      ∀ v ∈ out, v ∈ vis ∨ ∃ w ∈ wl, AugReach c w v := by
  intro fuel
  induction fuel with
  | zero => intro wl vis out h; simp [removeDeadWalkGo] at h
  | succ k ih =>
    intro wl vis out h v hv
    match wl with
    | [] =>
      simp [removeDeadWalkGo] at h
      subst h; exact Or.inl hv
    | w :: rest =>
      by_cases hw : w ∈ vis
      · rw [removeDeadWalkGo, if_pos hw] at h
        rcases ih rest vis out h v hv with h1 | ⟨u, hu, hr⟩
        · exact Or.inl h1
        · exact Or.inr ⟨u, List.mem_cons_of_mem _ hu, hr⟩
      · rw [removeDeadWalkGo, if_neg hw] at h
        rcases ih _ _ _ h v hv with h1 | ⟨u, hu, hr⟩
        · rcases List.mem_cons.mp h1 with rfl | h2
          · exact Or.inr ⟨v, List.mem_cons_self _ _, Relation.ReflTransGen.refl⟩
          · exact Or.inl h2
        · rcases List.mem_append.mp hu with h2 | h2
          · exact Or.inr ⟨u, List.mem_cons_of_mem _ h2, hr⟩
          · exact Or.inr ⟨w, List.mem_cons_self _ _,
              Relation.ReflTransGen.head h2 hr⟩

theorem removeDeadWalkGo_closed (c : Compiler) :
    ∀ fuel wl vis out, removeDeadWalkGo c fuel wl vis = some out →
      (∀ v ∈ vis, ∀ s ∈ augSuccs c v, s ∈ vis ∨ s ∈ wl) →
      (∀ v ∈ out, ∀ s ∈ augSuccs c v, s ∈ out) ∧
      (∀ v ∈ vis, v ∈ out) ∧ (∀ w ∈ wl, w ∈ out) := by
  intro fuel
  induction fuel with
  | zero => intro wl vis out h; simp [removeDeadWalkGo] at h
  | succ k ih =>
    intro wl vis out h hinv
    match wl with
    | [] =>
      simp [removeDeadWalkGo] at h
      subst h
      refine ⟨fun v hv s hs => ?_, fun v hv => hv, by simp⟩
      rcases hinv v hv s hs with h1 | h1
      · exact h1
      · simp at h1
    | w :: rest =>
      by_cases hw : w ∈ vis
      · rw [removeDeadWalkGo, if_pos hw] at h
        have hinv' : ∀ v ∈ vis, ∀ s ∈ augSuccs c v, s ∈ vis ∨ s ∈ rest := by
          intro v hv s hs
          rcases hinv v hv s hs with h1 | h1
          · exact Or.inl h1
          · rcases List.mem_cons.mp h1 with rfl | h2
            · exact Or.inl hw
            · exact Or.inr h2
        obtain ⟨hcl, hsub, hwl⟩ := ih rest vis out h hinv'
        exact ⟨hcl, hsub, fun u hu => by
          rcases List.mem_cons.mp hu with rfl | h2
          · exact hsub u hw
          · exact hwl u h2⟩
      · rw [removeDeadWalkGo, if_neg hw] at h
        have hinv' : ∀ v ∈ w :: vis, ∀ s ∈ augSuccs c v,
            s ∈ w :: vis ∨ s ∈ rest ++ augSuccs c w := by
          intro v hv s hs
          rcases List.mem_cons.mp hv with rfl | h2
          · exact Or.inr (List.mem_append.mpr (Or.inr hs))
          · rcases hinv v h2 s hs with h1 | h1
            · exact Or.inl (List.mem_cons_of_mem _ h1)
            · rcases List.mem_cons.mp h1 with rfl | h3
              · exact Or.inl (List.mem_cons_self _ _)
              · exact Or.inr (List.mem_append.mpr (Or.inl h3))
        obtain ⟨hcl, hsub, hwl⟩ := ih _ _ _ h hinv'
        refine ⟨hcl, fun v hv => hsub v (List.mem_cons_of_mem _ hv), fun u hu => ?_⟩
        rcases List.mem_cons.mp hu with rfl | h2
        · exact hsub u (List.mem_cons_self _ _)
        · exact hwl u (List.mem_append.mpr (Or.inl h2))

/-- The visited set computed by the dead-block worklist traversal is
exactly the set of blocks reachable from `fgFirstBB` along flow edges
augmented with the try-begin-to-handler edges. -/
theorem removeDeadWalk_spec (c : Compiler) (fuel : Nat) (first : BasicBlock)
    (hf : c.blocks.head? = some first) (out : List Nat)
    (h : removeDeadWalk c fuel = some out) :
    ∀ n, n ∈ out ↔ AugReach c first.bbNum n := by
  unfold removeDeadWalk at h
  rw [hf] at h
  intro n
  constructor
  · intro hn
    rcases removeDeadWalkGo_sound c fuel _ _ _ h n hn with h1 | ⟨w, hw, hr⟩
    · simp at h1
    · simp at hw; subst hw; exact hr
  · intro hr
    obtain ⟨hcl, _, hwl⟩ := removeDeadWalkGo_closed c fuel _ _ _ h (by simp)
    have hstart : first.bbNum ∈ out := hwl _ (by simp)
    induction hr with
    | refl => exact hstart
    | tail _ hedge ih => exact hcl _ ih _ hedge

theorem flowWalkGo_sound (c : Compiler) :
    ∀ fuel wl vis out, flowWalkGo c fuel wl vis = some out →
      ∀ v ∈ out, v ∈ vis ∨ ∃ w ∈ wl, FlowReach c w v := by
  intro fuel
  induction fuel with
  | zero => intro wl vis out h; simp [flowWalkGo] at h
  | succ k ih =>
    intro wl vis out h v hv
    match wl with
    | [] =>
      simp [flowWalkGo] at h
      subst h; exact Or.inl hv
    | w :: rest =>
      by_cases hw : w ∈ vis
      · rw [flowWalkGo, if_pos hw] at h
        rcases ih rest vis out h v hv with h1 | ⟨u, hu, hr⟩
        · exact Or.inl h1
        · exact Or.inr ⟨u, List.mem_cons_of_mem _ hu, hr⟩
      · rw [flowWalkGo, if_neg hw] at h
        rcases ih _ _ _ h v hv with h1 | ⟨u, hu, hr⟩
        · rcases List.mem_cons.mp h1 with rfl | h2
          · exact Or.inr ⟨v, List.mem_cons_self _ _, Relation.ReflTransGen.refl⟩
          · exact Or.inl h2
        · rcases List.mem_append.mp hu with h2 | h2
          · exact Or.inr ⟨u, List.mem_cons_of_mem _ h2, hr⟩
          · refine Or.inr ⟨w, List.mem_cons_self _ _,
              Relation.ReflTransGen.head ?_ hr⟩
            unfold flowSuccs at h2
            unfold FlowEdgeRel
            cases hfw : c.findBlock w with
            | none => rw [hfw] at h2; simp at h2
            | some b => rw [hfw] at h2; exact h2

theorem flowWalkGo_closed (c : Compiler) :
    ∀ fuel wl vis out, flowWalkGo c fuel wl vis = some out →
      (∀ v ∈ vis, ∀ s ∈ flowSuccs c v, s ∈ vis ∨ s ∈ wl) →
      (∀ v ∈ out, ∀ s ∈ flowSuccs c v, s ∈ out) ∧
      (∀ v ∈ vis, v ∈ out) ∧ (∀ w ∈ wl, w ∈ out) := by
  intro fuel
  induction fuel with
  | zero => intro wl vis out h; simp [flowWalkGo] at h
  | succ k ih =>
    intro wl vis out h hinv
    match wl with
    | [] =>
      simp [flowWalkGo] at h
      subst h
      refine ⟨fun v hv s hs => ?_, fun v hv => hv, by simp⟩
      rcases hinv v hv s hs with h1 | h1
      · exact h1
      · simp at h1
    | w :: rest =>
      by_cases hw : w ∈ vis
      · rw [flowWalkGo, if_pos hw] at h
        have hinv' : ∀ v ∈ vis, ∀ s ∈ flowSuccs c v, s ∈ vis ∨ s ∈ rest := by
          intro v hv s hs
          rcases hinv v hv s hs with h1 | h1
          · exact Or.inl h1
          · rcases List.mem_cons.mp h1 with rfl | h2
            · exact Or.inl hw
            · exact Or.inr h2
        obtain ⟨hcl, hsub, hwl⟩ := ih rest vis out h hinv'
        exact ⟨hcl, hsub, fun u hu => by
          rcases List.mem_cons.mp hu with rfl | h2
          · exact hsub u hw
          · exact hwl u h2⟩
      · rw [flowWalkGo, if_neg hw] at h
        have hinv' : ∀ v ∈ w :: vis, ∀ s ∈ flowSuccs c v,
            s ∈ w :: vis ∨ s ∈ rest ++ flowSuccs c w := by
          intro v hv s hs
          rcases List.mem_cons.mp hv with rfl | h2
          · exact Or.inr (List.mem_append.mpr (Or.inr hs))
          · rcases hinv v h2 s hs with h1 | h1
            · exact Or.inl (List.mem_cons_of_mem _ h1)
            · rcases List.mem_cons.mp h1 with rfl | h3
              · exact Or.inl (List.mem_cons_self _ _)
              · exact Or.inr (List.mem_append.mpr (Or.inl h3))
        obtain ⟨hcl, hsub, hwl⟩ := ih _ _ _ h hinv'
        refine ⟨hcl, fun v hv => hsub v (List.mem_cons_of_mem _ hv), fun u hu => ?_⟩
        rcases List.mem_cons.mp hu with rfl | h2
        · exact hsub u (List.mem_cons_self _ _)
        · exact hwl u (List.mem_append.mpr (Or.inl h2))

/-- A flow-edge worklist traversal seeded from a root list computes
exactly the set of blocks flow-reachable from some root. -/
theorem flowWalkGo_spec (c : Compiler) (fuel : Nat) (roots : List Nat)
    (out : List Nat) (h : flowWalkGo c fuel roots [] = some out) :
    ∀ n, n ∈ out ↔ ∃ r ∈ roots, FlowReach c r n := by
  intro n
  constructor
  · intro hn
    rcases flowWalkGo_sound c fuel _ _ _ h n hn with h1 | h1
    · simp at h1
    · exact h1
  · rintro ⟨r, hr, hreach⟩
    obtain ⟨hcl, _, hwl⟩ := flowWalkGo_closed c fuel _ _ _ h (by simp)
    have hstart : r ∈ out := hwl _ hr
    induction hreach with
    | refl => exact hstart
    | tail _ hedge ih =>
      rename_i b cc _
      have hb : b ∈ out := ih
      unfold FlowEdgeRel at hedge
      cases hfb : c.findBlock b with
      | none => rw [hfb] at hedge; exact absurd hedge (by simp)
      | some blk =>
        rw [hfb] at hedge
        refine hcl b hb cc ?_
        unfold flowSuccs
        rw [hfb]; exact hedge

/-!
## Generic congruence helpers for block-field updates
-/

theorem find?_bbNum_map (g : BasicBlock → BasicBlock)
    (hg : ∀ b, (g b).bbNum = b.bbNum) (l : List BasicBlock) (n : Nat) :
    (l.map g).find? (fun b => b.bbNum = n) =
      (l.find? (fun b => b.bbNum = n)).map g := by
  induction l with
  | nil => rfl
  | cons hd tl ih =>
    by_cases h : hd.bbNum = n
    · simp [List.find?, hg, h]
    · simp only [List.map_cons, List.find?]
      rw [hg hd]
      simp [h, ih]

theorem dropWhile_bbNum_map (g : BasicBlock → BasicBlock)
    (hg : ∀ b, (g b).bbNum = b.bbNum) (l : List BasicBlock) (n : Nat) :
    (l.map g).dropWhile (fun b => b.bbNum ≠ n) =
      (l.dropWhile (fun b => b.bbNum ≠ n)).map g := by
  induction l with
  | nil => rfl
  | cons hd tl ih =>
    simp only [List.map_cons]
    rw [List.dropWhile_cons, List.dropWhile_cons, hg hd]
    by_cases h : hd.bbNum ≠ n
    · rw [if_pos (by simpa using h), if_pos (by simpa using h)]
      exact ih
    · rw [if_neg (by simpa using h), if_neg (by simpa using h)]
      rfl

theorem bbNextNum_map (c : Compiler) (g : BasicBlock → BasicBlock)
    (hg : ∀ b, (g b).bbNum = b.bbNum) (n : Nat) :
    Compiler.bbNextNum { c with blocks := c.blocks.map g } n = c.bbNextNum n := by
  unfold Compiler.bbNextNum
  simp only
  rw [dropWhile_bbNum_map g hg]
  cases c.blocks.dropWhile (fun b => b.bbNum ≠ n) with
  | nil => rfl
  | cons hd tl =>
    cases tl with
    | nil => rfl
    | cons hd2 tl2 => simp [hg]

theorem findBlock_map (c : Compiler) (g : BasicBlock → BasicBlock)
    (hg : ∀ b, (g b).bbNum = b.bbNum) (n : Nat) :
    Compiler.findBlock { c with blocks := c.blocks.map g } n =
      (c.findBlock n).map g := by
  unfold Compiler.findBlock
  exact find?_bbNum_map g hg c.blocks n

theorem find?_bbNum_of_mem :
    ∀ (l : List BasicBlock), (l.map BasicBlock.bbNum).Nodup →
      ∀ b ∈ l, l.find? (fun x => x.bbNum = b.bbNum) = some b := by
  intro l
  induction l with
  | nil => intro _ b hb; simp at hb
  | cons hd tl ih =>
    intro hnd b hb
    simp only [List.map_cons, List.nodup_cons] at hnd
    rcases List.mem_cons.mp hb with rfl | hmem
    · simp [List.find?]
    · have hne : hd.bbNum ≠ b.bbNum := by
        intro he
        exact hnd.1 (he ▸ List.mem_map_of_mem BasicBlock.bbNum hmem)
      simp only [List.find?]
      rw [decide_eq_false hne]
      exact ih hnd.2 b hmem

/-- With distinct block numbers, `findBlock` returns exactly the member
block with that number. -/
theorem findBlock_eq_of_mem (c : Compiler)
    (hnd : (c.blocks.map BasicBlock.bbNum).Nodup)
    (b : BasicBlock) (hb : b ∈ c.blocks) : c.findBlock b.bbNum = some b :=
  find?_bbNum_of_mem c.blocks hnd b hb

theorem findBlock_unique (c : Compiler)
    (hnd : (c.blocks.map BasicBlock.bbNum).Nodup)
    (blk b : BasicBlock) (hfind : c.findBlock blk.bbNum = some blk)
    (hb : b ∈ c.blocks) (hn : b.bbNum = blk.bbNum) : b = blk := by
  have := findBlock_eq_of_mem c hnd b hb
  rw [hn, hfind] at this
  exact (Option.some.injEq _ _ ▸ this).symm

/-!
## Claim C8: the late-mode removability predicate
-/

/-- Replace every block's cached reachability bit set. -/
def setAllReach (c : Compiler) (f : Nat → List Nat) : Compiler :=
  { c with blocks := c.blocks.map (fun b => { b with bbReach := f b.bbNum }) }

theorem ehWalkSuccsLoop_congr (c c' : Compiler)
    (h : c.compHndBBtab = c'.compHndBBtab) (bn : Nat) :
    ∀ fuel t, ehWalkSuccsLoop c bn fuel t = ehWalkSuccsLoop c' bn fuel t := by
  intro fuel
  induction fuel with
  | zero => intro t; rfl
  | succ k ih =>
    intro t
    unfold ehWalkSuccsLoop
    rw [h]
    cases c'.compHndBBtab.get? t with
    | none => rfl
    | some d =>
      simp only
      cases d.ebdEnclosingTryIndex with
      | none => rfl
      | some enc =>
        simp only
        cases c'.compHndBBtab.get? enc with
        | none => rfl
        | some d2 =>
          simp only
          by_cases hne : d2.ebdTryBeg ≠ bn
          · simp [hne]
          · simp only [hne, if_false, ih enc]

theorem setAllReach_augSuccs (c : Compiler) (f : Nat → List Nat) (n : Nat) :
    augSuccs (setAllReach c f) n = augSuccs c n := by
  have hg : ∀ b : BasicBlock,
      ({ b with bbReach := f b.bbNum } : BasicBlock).bbNum = b.bbNum :=
    fun _ => rfl
  unfold augSuccs
  rw [show (setAllReach c f).findBlock n =
        (c.findBlock n).map (fun b => { b with bbReach := f b.bbNum }) from
      findBlock_map c _ hg n]
  cases hfb : c.findBlock n with
  | none => rfl
  | some b =>
    show succsOf (setAllReach c f) { b with bbReach := f b.bbNum } ++
        ehWalkSuccs (setAllReach c f) { b with bbReach := f b.bbNum } =
      succsOf c b ++ ehWalkSuccs c b
    have hsucc : succsOf (setAllReach c f) { b with bbReach := f b.bbNum } =
        succsOf c b := by
      unfold succsOf
      have hnext : (setAllReach c f).bbNextNum b.bbNum = c.bbNextNum b.bbNum :=
        bbNextNum_map c _ hg b.bbNum
      cases b.kind <;> simp only [hnext]
    have heh : ehWalkSuccs (setAllReach c f) { b with bbReach := f b.bbNum } =
        ehWalkSuccs c b := by
      unfold ehWalkSuccs
      rw [show bbIsTryBeg (setAllReach c f) { b with bbReach := f b.bbNum } =
            bbIsTryBeg c b from rfl]
      by_cases ht : bbIsTryBeg c b = true
      · simp only [ht, if_true]
        cases b.bbTryIndex with
        | none => rfl
        | some t =>
          show ehWalkSuccsLoop (setAllReach c f) b.bbNum
              (c.compHndBBtab.length + 1) t =
            ehWalkSuccsLoop c b.bbNum (c.compHndBBtab.length + 1) t
          exact ehWalkSuccsLoop_congr (setAllReach c f) c rfl b.bbNum _ t
      · simp [ht]
    rw [hsucc, heh]

theorem setAllReach_walkGo (c : Compiler) (f : Nat → List Nat) :
    ∀ fuel wl vis,
      removeDeadWalkGo (setAllReach c f) fuel wl vis =
        removeDeadWalkGo c fuel wl vis := by
  intro fuel
  induction fuel with
  | zero => intro wl vis; rfl
  | succ k ih =>
    intro wl vis
    match wl with
    | [] => rfl
    | n :: rest =>
      by_cases h : n ∈ vis
      · rw [removeDeadWalkGo, removeDeadWalkGo, if_pos h, if_pos h, ih]
      · rw [removeDeadWalkGo, removeDeadWalkGo, if_neg h, if_neg h,
          setAllReach_augSuccs, ih]

theorem setAllReach_removeDeadWalk (c : Compiler) (f : Nat → List Nat)
    (fuel : Nat) :
    removeDeadWalk (setAllReach c f) fuel = removeDeadWalk c fuel := by
  unfold removeDeadWalk
  have : (setAllReach c f).blocks.head? =
      (c.blocks.head?).map (fun b => { b with bbReach := f b.bbNum }) :=
    List.head?_map _ c.blocks
  rw [this]
  cases c.blocks.head? with
  | none => rfl
  | some b => simp only [Option.map_some]; exact setAllReach_walkGo c f fuel _ _

/-- Claim C8 (amended): in late mode, the removability predicate of
`fgRemoveDeadBlocks` holds for a block exactly when the block was not
visited by the worklist traversal — which marks precisely the blocks
reachable from the entry along flow edges augmented, at each visited
try-begin block, with edges to that region's handler and filter begins
(and those of enclosing mutually-protect regions) — or when the block's
remaining incoming reference count is zero; and neither the traversal
nor the predicate consults the cached reachability bit sets. -/
theorem claimC8_removability (c : Compiler) (fuel : Nat) (first : BasicBlock)
    (hf : c.blocks.head? = some first) (visited : List Nat)
    (h : removeDeadWalk c fuel = some visited) :
    (∀ b : BasicBlock,
       isBlockRemovable visited b = true ↔
         (¬ AugReach c first.bbNum b.bbNum ∨ b.bbRefs = 0)) ∧
    (∀ f, removeDeadWalk (setAllReach c f) fuel = removeDeadWalk c fuel) ∧
    (∀ (b : BasicBlock) (rs : List Nat),
       isBlockRemovable visited { b with bbReach := rs } =
         isBlockRemovable visited b) := by
  refine ⟨fun b => ?_, fun f => setAllReach_removeDeadWalk c f fuel, fun _ _ => rfl⟩
  have hspec := removeDeadWalk_spec c fuel first hf visited h b.bbNum
  unfold isBlockRemovable
  simp only [Bool.or_eq_true, Bool.not_eq_true', beq_iff_eq]
  constructor
  · rintro (h1 | h1)
    · exact Or.inl (fun hr => by
        have hm := hspec.mpr hr
        simp at h1
        exact h1 hm)
    · exact Or.inr h1
  · rintro (h1 | h1)
    · refine Or.inl ?_
      have hmem : b.bbNum ∉ visited := fun hm => h1 (hspec.mp hm)
      simp [hmem]
    · exact Or.inr h1

/-- The concrete state for claim C8: the entry returns immediately; an
unreachable block 2 jumps to block 3, which begins a try region whose
handler is block 4. -/
def cexC8 : Compiler :=
  { blocks :=
      [ { bbNum := 1, kind := .ret, stmts := [], bbPreds := [], bbRefs := 1,
          bbWeight := 1 },
        { bbNum := 2, kind := .always 3, stmts := [], bbPreds := [], bbRefs := 0,
          bbWeight := 1 },
        { bbNum := 3, kind := .ret, stmts := [], bbPreds := [2], bbRefs := 1,
          bbWeight := 1, bbTryIndex := some 0 },
        { bbNum := 4, kind := .ret, stmts := [], bbPreds := [], bbRefs := 0,
          bbWeight := 1, bbHndIndex := some 0 } ],
    compHndBBtab := [ { ebdTryBeg := 3, ebdHndBeg := 4 } ] }

/-- The try-begin block of the C8 counterexample state. -/
def cexC8block3 : BasicBlock :=
  { bbNum := 3, kind := .ret, stmts := [], bbPreds := [2], bbRefs := 1,
    bbWeight := 1, bbTryIndex := some 0 }

/-- Claim C8 counterexample: on `cexC8`, the traversal the source
performs visits only the entry block, so the try-begin block 3 (with
one remaining incoming edge) is removable; but under the claim's
description — a traversal rooted at the entry together with every EH
try/handler/filter begin block — block 3 is a root, hence visited with
nonzero references and not removable. The claimed equivalence is
therefore false at this input. -/
theorem claimC8_counterexample :
    removeDeadWalk cexC8 20 = some [1] ∧
    cexC8.findBlock 3 = some cexC8block3 ∧
    isBlockRemovable [1] cexC8block3 = true ∧
    ¬ claimRemovableC8 cexC8 cexC8block3 := by
  refine ⟨by decide, by decide, by decide, ?_⟩
  rintro (h | h)
  · exact h ⟨3, by decide, Relation.ReflTransGen.refl⟩
  · simp [cexC8block3] at h

/-- Witness for claim C8's theorem at the concrete state `cexC8`. -/
theorem claimC8_removability_witness :
    cexC8.blocks.head? = some
      { bbNum := 1, kind := .ret, stmts := [], bbPreds := [], bbRefs := 1,
        bbWeight := 1 } ∧
    removeDeadWalk cexC8 20 = some [1] ∧
    ((∀ b : BasicBlock,
       isBlockRemovable [1] b = true ↔
         (¬ AugReach cexC8
             ({ bbNum := 1, kind := .ret, stmts := [], bbPreds := [],
                bbRefs := 1, bbWeight := 1 } : BasicBlock).bbNum b.bbNum ∨
          b.bbRefs = 0)) ∧
     (∀ f, removeDeadWalk (setAllReach cexC8 f) 20 = removeDeadWalk cexC8 20) ∧
     (∀ (b : BasicBlock) (rs : List Nat),
       isBlockRemovable [1] { b with bbReach := rs } =
         isBlockRemovable [1] b)) :=
  ⟨by decide, by decide, claimC8_removability cexC8 20 _ (by decide) [1] (by decide)⟩

/-!
## Claim C1: state-preservation lemmas for the elimination pass
-/

/-- The global fields consulted by the skip tests of
`fgRemoveUnreachableBlocks`. -/
def globalsOf (c : Compiler) : List Nat × Option Nat × List EHblkDsc :=
  (c.throwHelperBlocks, c.genReturnBB, c.compHndBBtab)

theorem globalsOf_updateBlock (c : Compiler) (n : Nat) (f) :
    globalsOf (c.updateBlock n f) = globalsOf c := rfl

theorem globalsOf_removeOnePred (c : Compiler) (t s : Nat) :
    globalsOf (removeOnePred c t s) = globalsOf c := rfl

theorem globalsOf_predFold (n : Nat) :
    ∀ (l : List Nat) (c : Compiler),
      globalsOf (l.foldl (fun acc s => removeOnePred acc s n) c) = globalsOf c := by
  intro l
  induction l with
  | nil => intro c; rfl
  | cons hd tl ih => intro c; rw [List.foldl_cons, ih]; rfl

theorem globalsOf_fgRemoveBlockAsPred (c : Compiler) (n : Nat) :
    globalsOf (fgRemoveBlockAsPred c n) = globalsOf c := by
  unfold fgRemoveBlockAsPred
  cases c.findBlock n with
  | none => rfl
  | some b => exact globalsOf_predFold n _ c

theorem globalsOf_fgUnreachableBlock (c : Compiler) (n : Nat) :
    globalsOf (fgUnreachableBlock c n) = globalsOf c := by
  unfold fgUnreachableBlock
  cases c.findBlock n with
  | none => rfl
  | some b =>
    dsimp only
    by_cases h : b.flags.removed = true
    · rw [if_pos h]
    · rw [if_neg h, globalsOf_fgRemoveBlockAsPred, globalsOf_updateBlock]

theorem globalsOf_fgRemoveEhfSuccessor (c : Compiler) (p l : Nat) :
    globalsOf (fgRemoveEhfSuccessor c p l) = globalsOf c := by
  unfold fgRemoveEhfSuccessor
  rw [globalsOf_removeOnePred, globalsOf_updateBlock]

theorem globalsOf_ehfFold (l : Nat) :
    ∀ (ps : List Nat) (c : Compiler),
      globalsOf (ps.foldl (fun acc p => fgRemoveEhfSuccessor acc p l) c) =
        globalsOf c := by
  intro ps
  induction ps with
  | nil => intro c; rfl
  | cons hd tl ih =>
    intro c; rw [List.foldl_cons, ih, globalsOf_fgRemoveEhfSuccessor]

theorem globalsOf_filter (c : Compiler) (p : BasicBlock → Bool) :
    globalsOf { c with blocks := c.blocks.filter p } = globalsOf c := rfl

theorem globalsOf_fgRemoveBlock (c : Compiler) (n : Nat) :
    globalsOf (fgRemoveBlock c n) = globalsOf c := by
  unfold fgRemoveBlock
  cases c.findBlock n with
  | none => rfl
  | some b =>
    dsimp only
    by_cases h : b.flags.removed = true
    · rw [if_pos h]; rfl
    · rw [if_neg h]
      exact show globalsOf (fgRemoveBlockAsPred
            (c.updateBlock n fun blk =>
              { blk with stmts := [],
                         flags := { blk.flags with removed := true } }) n) =
          globalsOf c from by
        rw [globalsOf_fgRemoveBlockAsPred, globalsOf_updateBlock]

/-- `map bbNum` stability and membership elimination for `updateBlock`. -/
theorem updateBlock_map_bbNum (c : Compiler) (n : Nat) (f)
    (hf : ∀ b, (f b).bbNum = b.bbNum) :
    (c.updateBlock n f).blocks.map BasicBlock.bbNum =
      c.blocks.map BasicBlock.bbNum := by
  unfold Compiler.updateBlock
  simp only [List.map_map]
  apply List.map_congr_left
  intro b _
  by_cases h : b.bbNum = n <;> simp [h, hf]

theorem mem_updateBlock_elim (c : Compiler) (n : Nat) (f) (b : BasicBlock)
    (hb : b ∈ (c.updateBlock n f).blocks) :
    (∃ a ∈ c.blocks, a.bbNum ≠ n ∧ b = a) ∨
    (∃ a ∈ c.blocks, a.bbNum = n ∧ b = f a) := by
  unfold Compiler.updateBlock at hb
  simp only [List.mem_map] at hb
  obtain ⟨a, ha, hab⟩ := hb
  by_cases h : a.bbNum = n
  · rw [if_pos h] at hab; exact Or.inr ⟨a, ha, h, hab.symm⟩
  · rw [if_neg h] at hab; exact Or.inl ⟨a, ha, h, hab.symm⟩

theorem mem_updateBlock_of_ne (c : Compiler) (n : Nat) (f)
    (hf : ∀ b, (f b).bbNum = b.bbNum) (b : BasicBlock)
    (hb : b ∈ (c.updateBlock n f).blocks) (hne : b.bbNum ≠ n) :
    b ∈ c.blocks := by
  rcases mem_updateBlock_elim c n f b hb with ⟨a, ha, _, rfl⟩ | ⟨a, ha, han, rfl⟩
  · exact ha
  · exact absurd ((hf a).trans han) hne

theorem removeOnePred_map_bbNum (c : Compiler) (t s : Nat) :
    (removeOnePred c t s).blocks.map BasicBlock.bbNum =
      c.blocks.map BasicBlock.bbNum :=
  updateBlock_map_bbNum c t _ (fun _ => rfl)

theorem predFold_map_bbNum (n : Nat) :
    ∀ (l : List Nat) (c : Compiler),
      ((l.foldl (fun acc s => removeOnePred acc s n) c).blocks.map
        BasicBlock.bbNum) = c.blocks.map BasicBlock.bbNum := by
  intro l
  induction l with
  | nil => intro c; rfl
  | cons hd tl ih =>
    intro c; rw [List.foldl_cons, ih, removeOnePred_map_bbNum]

theorem fgRemoveBlockAsPred_map_bbNum (c : Compiler) (n : Nat) :
    (fgRemoveBlockAsPred c n).blocks.map BasicBlock.bbNum =
      c.blocks.map BasicBlock.bbNum := by
  unfold fgRemoveBlockAsPred
  cases c.findBlock n with
  | none => rfl
  | some b => exact predFold_map_bbNum n _ c

theorem fgUnreachableBlock_map_bbNum (c : Compiler) (n : Nat) :
    (fgUnreachableBlock c n).blocks.map BasicBlock.bbNum =
      c.blocks.map BasicBlock.bbNum := by
  unfold fgUnreachableBlock
  cases c.findBlock n with
  | none => rfl
  | some b =>
    dsimp only
    by_cases h : b.flags.removed = true
    · rw [if_pos h]
    · rw [if_neg h, fgRemoveBlockAsPred_map_bbNum, updateBlock_map_bbNum]
      intro b; rfl

theorem fgRemoveEhfSuccessor_map_bbNum (c : Compiler) (p l : Nat) :
    (fgRemoveEhfSuccessor c p l).blocks.map BasicBlock.bbNum =
      c.blocks.map BasicBlock.bbNum := by
  unfold fgRemoveEhfSuccessor
  rw [removeOnePred_map_bbNum, updateBlock_map_bbNum]
  intro b
  cases b.kind <;> rfl

theorem ehfFold_map_bbNum (l : Nat) :
    ∀ (ps : List Nat) (c : Compiler),
      ((ps.foldl (fun acc p => fgRemoveEhfSuccessor acc p l) c).blocks.map
        BasicBlock.bbNum) = c.blocks.map BasicBlock.bbNum := by
  intro ps
  induction ps with
  | nil => intro c; rfl
  | cons hd tl ih =>
    intro c; rw [List.foldl_cons, ih, fgRemoveEhfSuccessor_map_bbNum]

theorem fgRemoveBlock_map_bbNum (c : Compiler) (n : Nat) :
    List.Sublist ((fgRemoveBlock c n).blocks.map BasicBlock.bbNum)
      (c.blocks.map BasicBlock.bbNum) := by
  unfold fgRemoveBlock
  cases c.findBlock n with
  | none => exact List.Sublist.refl _
  | some b =>
    dsimp only
    by_cases h : b.flags.removed = true
    · rw [if_pos h]
      exact List.Sublist.map _ (List.filter_sublist _)
    · rw [if_neg h]
      have h1 : (fgRemoveBlockAsPred
          (c.updateBlock n fun blk =>
            { blk with stmts := [],
                       flags := { blk.flags with removed := true } }) n).blocks.map
            BasicBlock.bbNum = c.blocks.map BasicBlock.bbNum := by
        rw [fgRemoveBlockAsPred_map_bbNum, updateBlock_map_bbNum]
        intro b; rfl
      rw [← h1]
      exact List.Sublist.map _ (List.filter_sublist _)

theorem findBlock_some_num (c : Compiler) (n : Nat) (b : BasicBlock)
    (h : c.findBlock n = some b) : b.bbNum = n := by
  have := List.find?_some h
  simpa using this

theorem findBlock_mem (c : Compiler) (n : Nat) (b : BasicBlock)
    (h : c.findBlock n = some b) : b ∈ c.blocks :=
  List.mem_of_find?_eq_some h

theorem findBlock_updateBlock (c : Compiler) (n : Nat) (f)
    (hf : ∀ b, (f b).bbNum = b.bbNum) (m : Nat) :
    (c.updateBlock n f).findBlock m =
      (c.findBlock m).map (fun b => if b.bbNum = n then f b else b) := by
  unfold Compiler.updateBlock
  exact findBlock_map c _ (fun b => by by_cases h : b.bbNum = n <;> simp [h, hf]) m

/-- The lexical-successor lookup depends only on the list of block
numbers. -/
theorem bbNextNum_eq_of_map (c c' : Compiler)
    (h : c'.blocks.map BasicBlock.bbNum = c.blocks.map BasicBlock.bbNum)
    (n : Nat) : c'.bbNextNum n = c.bbNextNum n := by
  have key : ∀ d : Compiler,
      d.bbNextNum n =
        (match (d.blocks.map BasicBlock.bbNum).dropWhile (fun m => m ≠ n) with
         | _ :: nxt :: _ => some nxt
         | _ => none) := by
    intro d
    unfold Compiler.bbNextNum
    rw [List.dropWhile_map]
    have hp : ((fun m => decide (m ≠ n)) ∘ BasicBlock.bbNum) =
        (fun b : BasicBlock => decide (b.bbNum ≠ n)) := rfl
    rw [hp]
    cases d.blocks.dropWhile (fun b => b.bbNum ≠ n) with
    | nil => rfl
    | cons hd tl => cases tl with
      | nil => rfl
      | cons hd2 tl2 => rfl
  rw [key c', key c, h]

theorem succsOf_eq_of (c c' : Compiler) (b b' : BasicBlock)
    (hk : b'.kind = b.kind) (hn : b'.bbNum = b.bbNum)
    (hnext : c'.bbNextNum b.bbNum = c.bbNextNum b.bbNum) :
    succsOf c' b' = succsOf c b := by
  unfold succsOf
  rw [hk, hn, hnext]

theorem numSucc_zero_succs_nil (c : Compiler) (b : BasicBlock)
    (h : numSuccOf c b = 0) : succsOf c b = [] := by
  unfold numSuccOf at h
  have := List.length_eq_zero.mp h
  rwa [List.dedup_eq_nil] at this

theorem pair_numSucc_pos (c : Compiler) (b : BasicBlock)
    (h : isBBCallAlwaysPair c b = true) : 0 < numSuccOf c b := by
  unfold isBBCallAlwaysPair at h
  simp only [Bool.and_eq_true] at h
  have hk := h.1.1
  unfold numSuccOf
  cases hkind : b.kind with
  | callFinally t =>
    unfold succsOf
    rw [hkind]
    cases c.bbNextNum b.bbNum with
    | none =>
      have : ([t] : List Nat).dedup = [t] := by simp
      simp [this]
    | some nxt =>
      have hne : ([t, nxt] : List Nat).dedup ≠ [] := by
        rw [ne_eq, List.dedup_eq_nil]; simp
      exact List.length_pos.mpr hne
  | always t => rw [hkind] at hk; simp at hk
  | cond t => rw [hkind] at hk; simp at hk
  | swtch tb => rw [hkind] at hk; simp at hk
  | ret => rw [hkind] at hk; simp at hk
  | bthrow => rw [hkind] at hk; simp at hk
  | ehFinallyRet ts => rw [hkind] at hk; simp at hk
  | ehFaultRet => rw [hkind] at hk; simp at hk
  | ehFilterRet t => rw [hkind] at hk; simp at hk
  | ehCatchRet t => rw [hkind] at hk; simp at hk

/-- The exempt block shapes of `fgRemoveUnreachableBlocks`: internal
throw helpers, the canonical return block, and don't-remove blocks that
have been converted into empty throw blocks. -/
def exemptTriple (thr : List Nat) (gr : Option Nat) (b : BasicBlock) : Prop :=
  thr.contains b.bbNum = true ∨ gr = some b.bbNum ∨
    (b.flags.dontRemove = true ∧ b.isEmpty = true ∧ b.kind = BBKind.bthrow)

/-- When a block has no successors, retiring it detaches nothing: the
effect of `fgUnreachableBlock` is exactly the statement-clearing,
removed-marking update. -/
theorem fgUnreachableBlock_no_succs (c : Compiler) (n : Nat) (block : BasicBlock)
    (hfind : c.findBlock n = some block)
    (hclean : block.flags.removed = false)
    (hns : succsOf c block = []) :
    fgUnreachableBlock c n =
      c.updateBlock n (fun blk =>
        { blk with stmts := [], flags := { blk.flags with removed := true } }) := by
  have hbn : block.bbNum = n := findBlock_some_num _ _ _ hfind
  unfold fgUnreachableBlock
  rw [hfind]
  dsimp only
  rw [if_neg (by simp [hclean])]
  unfold fgRemoveBlockAsPred
  have hfind2 : (c.updateBlock n (fun blk =>
      ({ blk with stmts := [],
                  flags := { blk.flags with removed := true } } : BasicBlock))).findBlock n =
      some { block with stmts := [],
                        flags := { block.flags with removed := true } } := by
    rw [findBlock_updateBlock c n (fun blk =>
      ({ blk with stmts := [],
                  flags := { blk.flags with removed := true } } : BasicBlock))
      (fun _ => rfl) n, hfind]
    simp [hbn]
  rw [hfind2]
  have hnext : (c.updateBlock n (fun blk =>
      ({ blk with stmts := [],
                  flags := { blk.flags with removed := true } } : BasicBlock))).bbNextNum
      block.bbNum = c.bbNextNum block.bbNum :=
    bbNextNum_eq_of_map c _
      (updateBlock_map_bbNum c n (fun blk =>
        ({ blk with stmts := [],
                    flags := { blk.flags with removed := true } } : BasicBlock))
        (fun _ => rfl)) block.bbNum
  have hsucc : succsOf (c.updateBlock n (fun blk =>
      ({ blk with stmts := [],
                  flags := { blk.flags with removed := true } } : BasicBlock)))
      { block with stmts := [],
                   flags := { block.flags with removed := true } } = [] :=
    (succsOf_eq_of c _ block
      { block with stmts := [],
                   flags := { block.flags with removed := true } }
      rfl rfl hnext).trans hns
  dsimp only at hsucc ⊢
  rw [hsucc]
  rfl

/-- Analysis of one body iteration of the recording loop when it reports
no change: the `changed` flag was already false, the retire flag is
untouched, and every block of the resulting state either is unchanged
(when numbered differently from the processed number) or is settled:
exempt or not removable. -/
theorem removeUnreachableStep_silent (canRemove : BasicBlock → Bool)
    (st : RUBState) (n : Nat)
    (hnd : (st.comp.blocks.map BasicBlock.bbNum).Nodup)
    (hcl : ∀ b ∈ st.comp.blocks, b.flags.removed = false)
    (h : (removeUnreachableStep canRemove st n).changed = false) :
    st.changed = false ∧
    (removeUnreachableStep canRemove st n).hasUnreach = st.hasUnreach ∧
    ∀ b ∈ (removeUnreachableStep canRemove st n).comp.blocks,
      (b.bbNum ≠ n → b ∈ st.comp.blocks) ∧
      (b.bbNum = n →
        exemptTriple st.comp.throwHelperBlocks st.comp.genReturnBB b ∨
        canRemove b = false) ∧
      b.flags.removed = false := by
  unfold removeUnreachableStep at h ⊢
  dsimp only at h ⊢
  cases hfind : st.comp.findBlock n with
  | none =>
    rw [hfind] at h
    dsimp only at h ⊢
    refine ⟨h, rfl, fun b hb => ⟨fun _ => hb, fun hbn => ?_, hcl b hb⟩⟩
    exfalso
    have := List.find?_eq_none.mp hfind b hb
    simp [hbn] at this
  | some block =>
    rw [hfind] at h
    simp only at h ⊢
    have hbn : block.bbNum = n := findBlock_some_num _ _ _ hfind
    have hbm : block ∈ st.comp.blocks := findBlock_mem _ _ _ hfind
    have huniq : ∀ b ∈ st.comp.blocks, b.bbNum = n → b = block := by
      intro b hb hn2
      exact findBlock_unique st.comp hnd block b (hbn ▸ hfind) hb (hn2.trans hbn.symm)
    by_cases h1 : fgIsThrowHlpBlk st.comp block = true
    · rw [if_pos h1] at h ⊢
      refine ⟨h, rfl, fun b hb => ⟨fun _ => hb, fun hbn2 => ?_, hcl b hb⟩⟩
      have hbb := huniq b hb hbn2
      subst hbb
      exact Or.inl (Or.inl h1)
    · rw [if_neg h1] at h ⊢
      by_cases h2 : st.comp.genReturnBB = some n
      · rw [if_pos h2] at h ⊢
        refine ⟨h, rfl, fun b hb => ⟨fun _ => hb, fun hbn2 => ?_, hcl b hb⟩⟩
        exact Or.inl (Or.inr (Or.inl (hbn2 ▸ h2)))
      · rw [if_neg h2] at h ⊢
        by_cases h3 : (block.flags.dontRemove && block.isEmpty &&
            (block.kind matches BBKind.bthrow)) = true
        · rw [if_pos h3] at h ⊢
          refine ⟨h, rfl, fun b hb => ⟨fun _ => hb, fun hbn2 => ?_, hcl b hb⟩⟩
          have hbb := huniq b hb hbn2
          subst hbb
          simp only [Bool.and_eq_true] at h3
          refine Or.inl (Or.inr (Or.inr ⟨h3.1.1, h3.1.2, ?_⟩))
          cases hk : b.kind <;> rw [hk] at h3 <;> simp_all
        · rw [if_neg h3] at h ⊢
          by_cases h4 : (!canRemove block) = true
          · rw [if_pos h4] at h ⊢
            refine ⟨h, rfl, fun b hb => ⟨fun _ => hb, fun hbn2 => ?_, hcl b hb⟩⟩
            have hbb := huniq b hb hbn2
            subst hbb
            exact Or.inr (by simpa using h4)
          · rw [if_neg h4] at h ⊢
            by_cases h5 : block.flags.dontRemove = true
            · rw [if_pos h5] at h ⊢
              by_cases h6 : isBBCallAlwaysPair (fgUnreachableBlock st.comp n)
                  block = true
              · exfalso
                have hpos := pair_numSucc_pos _ _ h6
                rw [if_pos h6] at h
                have hch : (st.changed ||
                    decide (numSuccOf (fgUnreachableBlock st.comp n) block > 0)) =
                    false := by
                  cases hleave : (fgUnreachableBlock st.comp n).bbNextNum n with
                  | none => rw [hleave] at h; exact h
                  | some leave => rw [hleave] at h; exact h
                simp only [Bool.or_eq_false_iff, decide_eq_false_iff_not] at hch
                exact hch.2 hpos
              · rw [if_neg h6] at h ⊢
                simp only [Bool.or_eq_false_iff, decide_eq_false_iff_not,
                  Nat.not_lt, Nat.le_zero] at h
                obtain ⟨hch0, hns⟩ := h
                refine ⟨hch0, rfl, ?_⟩
                -- the retire step detaches no edges: the block has no
                -- successors, so `fgUnreachableBlock` is just the
                -- statement-clearing update
                have hclean : block.flags.removed = false := hcl block hbm
                have hsuccnil : succsOf st.comp block = [] := by
                  have h2' : succsOf (fgUnreachableBlock st.comp n) block =
                      succsOf st.comp block :=
                    succsOf_eq_of st.comp _ block block rfl rfl
                      (bbNextNum_eq_of_map _ _
                        (fgUnreachableBlock_map_bbNum st.comp n) _)
                  rw [← h2']
                  exact numSucc_zero_succs_nil _ _ hns
                have hmid :=
                  fgUnreachableBlock_no_succs st.comp n block hfind hclean hsuccnil
                rw [hmid]
                intro b hb
                rcases mem_updateBlock_elim _ _ _ b hb with
                  ⟨a, ha, hanum, heq⟩ | ⟨a, ha, hanum, heq⟩
                · subst heq
                  rcases mem_updateBlock_elim _ _ _ _ ha with
                    ⟨a0, ha0, _, heq0⟩ | ⟨a0, ha0, ha0n, heq0⟩
                  · subst heq0
                    exact ⟨fun _ => ha0, fun hn2 => absurd hn2 hanum, hcl _ ha0⟩
                  · subst heq0
                    exact absurd ha0n hanum
                · subst heq
                  rcases mem_updateBlock_elim _ _ _ _ ha with
                    ⟨a0, ha0, ha0n, heq0⟩ | ⟨a0, ha0, ha0n, heq0⟩
                  · subst heq0
                    exact absurd hanum ha0n
                  · subst heq0
                    have ha0b := huniq a0 ha0 ha0n
                    subst ha0b
                    refine ⟨fun hne => absurd hanum hne, fun _ => ?_, rfl⟩
                    exact Or.inl (Or.inr (Or.inr ⟨h5, rfl, rfl⟩))
            · rw [if_neg h5] at h
              exfalso
              by_cases h6 : isBBCallAlwaysPair (fgUnreachableBlock st.comp n)
                  block = true
              · rw [if_pos h6] at h
                cases hleave : (fgUnreachableBlock st.comp n).bbNextNum n with
                | none => rw [hleave] at h; simp at h
                | some leave => rw [hleave] at h; simp at h
              · rw [if_neg h6] at h
                simp at h


/-- The `changed` flag of the recording loop is monotone: once set by an
earlier block it stays set. -/
theorem removeUnreachableStep_changed_mono (canRemove : BasicBlock → Bool)
    (st : RUBState) (n : Nat) (h : st.changed = true) :
    (removeUnreachableStep canRemove st n).changed = true := by
  unfold removeUnreachableStep
  dsimp only
  cases hfind : st.comp.findBlock n with
  | none => exact h
  | some block =>
    simp only
    by_cases h1 : fgIsThrowHlpBlk st.comp block = true
    · rw [if_pos h1]; exact h
    · rw [if_neg h1]
      by_cases h2 : st.comp.genReturnBB = some n
      · rw [if_pos h2]; exact h
      · rw [if_neg h2]
        by_cases h3 : (block.flags.dontRemove && block.isEmpty &&
            (block.kind matches BBKind.bthrow)) = true
        · rw [if_pos h3]; exact h
        · rw [if_neg h3]
          by_cases h4 : (!canRemove block) = true
          · rw [if_pos h4]; exact h
          · rw [if_neg h4]
            by_cases h5 : block.flags.dontRemove = true
            · rw [if_pos h5]
              by_cases h6 : isBBCallAlwaysPair (fgUnreachableBlock st.comp n)
                  block = true
              · rw [if_pos h6]
                cases hleave : (fgUnreachableBlock st.comp n).bbNextNum n with
                | none => simp [h]
                | some leave => simp [h]
              · rw [if_neg h6]; simp [h]
            · rw [if_neg h5]
              by_cases h6 : isBBCallAlwaysPair (fgUnreachableBlock st.comp n)
                  block = true
              · rw [if_pos h6]
                cases hleave : (fgUnreachableBlock st.comp n).bbNextNum n with
                | none => rfl
                | some leave => rfl
              · rw [if_neg h6]

theorem removeUnreachableFold_changed_mono (canRemove : BasicBlock → Bool) :
    ∀ (ns : List Nat) (st : RUBState), st.changed = true →
      (ns.foldl (removeUnreachableStep canRemove) st).changed = true := by
  intro ns
  induction ns with
  | nil => intro st h; exact h
  | cons n ns ih =>
    intro st h
    rw [List.foldl_cons]
    exact ih _ (removeUnreachableStep_changed_mono canRemove st n h)

/-- One recording-loop step never touches the global compiler fields. -/
theorem removeUnreachableStep_globals (canRemove : BasicBlock → Bool)
    (st : RUBState) (n : Nat) :
    globalsOf (removeUnreachableStep canRemove st n).comp = globalsOf st.comp := by
  unfold removeUnreachableStep
  dsimp only
  cases hfind : st.comp.findBlock n with
  | none => rfl
  | some block =>
    simp only
    by_cases h1 : fgIsThrowHlpBlk st.comp block = true
    · rw [if_pos h1]
    · rw [if_neg h1]
      by_cases h2 : st.comp.genReturnBB = some n
      · rw [if_pos h2]
      · rw [if_neg h2]
        by_cases h3 : (block.flags.dontRemove && block.isEmpty &&
            (block.kind matches BBKind.bthrow)) = true
        · rw [if_pos h3]
        · rw [if_neg h3]
          by_cases h4 : (!canRemove block) = true
          · rw [if_pos h4]
          · rw [if_neg h4]
            by_cases h5 : block.flags.dontRemove = true
            · rw [if_pos h5]
              by_cases h6 : isBBCallAlwaysPair (fgUnreachableBlock st.comp n)
                  block = true
              · rw [if_pos h6]
                cases hleave : (fgUnreachableBlock st.comp n).bbNextNum n with
                | none =>
                  simp only [globalsOf_updateBlock, globalsOf_fgUnreachableBlock]
                | some leave =>
                  simp only [if_pos h5, globalsOf_fgRemoveBlock, globalsOf_ehfFold,
                    globalsOf_updateBlock, globalsOf_fgUnreachableBlock]
              · rw [if_neg h6]
                simp only [globalsOf_updateBlock, globalsOf_fgUnreachableBlock]
            · rw [if_neg h5]
              by_cases h6 : isBBCallAlwaysPair (fgUnreachableBlock st.comp n)
                  block = true
              · rw [if_pos h6]
                cases hleave : (fgUnreachableBlock st.comp n).bbNextNum n with
                | none =>
                  simp only [globalsOf_fgUnreachableBlock]
                | some leave =>
                  simp only [if_neg h5, globalsOf_fgRemoveBlock, globalsOf_ehfFold,
                    globalsOf_updateBlock, globalsOf_fgUnreachableBlock]
              · rw [if_neg h6]
                simp only [globalsOf_fgUnreachableBlock]

theorem bbSetRunRarely_bbNum (b : BasicBlock) :
    b.bbSetRunRarely.bbNum = b.bbNum := rfl

theorem sublist_of_bbNum_eq {l1 l2 : List Nat} (h : l1 = l2) :
    List.Sublist l1 l2 := h ▸ List.Sublist.refl _

/-- One recording-loop step only rewrites blocks in place or unlinks a
paired continuation block: the block-number sequence of the result is a
sublist of the input's. -/
theorem removeUnreachableStep_numsSublist (canRemove : BasicBlock → Bool)
    (st : RUBState) (n : Nat) :
    List.Sublist
      ((removeUnreachableStep canRemove st n).comp.blocks.map BasicBlock.bbNum)
      (st.comp.blocks.map BasicBlock.bbNum) := by
  unfold removeUnreachableStep
  dsimp only
  cases hfind : st.comp.findBlock n with
  | none => exact List.Sublist.refl _
  | some block =>
    simp only
    by_cases h1 : fgIsThrowHlpBlk st.comp block = true
    · rw [if_pos h1]
    · rw [if_neg h1]
      by_cases h2 : st.comp.genReturnBB = some n
      · rw [if_pos h2]
      · rw [if_neg h2]
        by_cases h3 : (block.flags.dontRemove && block.isEmpty &&
            (block.kind matches BBKind.bthrow)) = true
        · rw [if_pos h3]
        · rw [if_neg h3]
          by_cases h4 : (!canRemove block) = true
          · rw [if_pos h4]
          · rw [if_neg h4]
            by_cases h5 : block.flags.dontRemove = true
            · rw [if_pos h5]
              by_cases h6 : isBBCallAlwaysPair (fgUnreachableBlock st.comp n)
                  block = true
              · rw [if_pos h6]
                cases hleave : (fgUnreachableBlock st.comp n).bbNextNum n with
                | none =>
                  refine sublist_of_bbNum_eq (by
                    dsimp only
                    rw [updateBlock_map_bbNum, fgUnreachableBlock_map_bbNum]
                    intro b
                    rfl)
                | some leave =>
                  refine List.Sublist.trans (fgRemoveBlock_map_bbNum _ _)
                    (sublist_of_bbNum_eq (by
                      rw [if_pos h5]
                      dsimp only
                      rw [ehfFold_map_bbNum, updateBlock_map_bbNum,
                        updateBlock_map_bbNum, fgUnreachableBlock_map_bbNum]
                      · intro b; rfl
                      · intro b; rfl))
              · rw [if_neg h6]
                refine sublist_of_bbNum_eq (by
                  dsimp only
                  rw [updateBlock_map_bbNum, fgUnreachableBlock_map_bbNum]
                  intro b
                  rfl)
            · rw [if_neg h5]
              by_cases h6 : isBBCallAlwaysPair (fgUnreachableBlock st.comp n)
                  block = true
              · rw [if_pos h6]
                cases hleave : (fgUnreachableBlock st.comp n).bbNextNum n with
                | none =>
                  refine sublist_of_bbNum_eq (by
                    dsimp only
                    rw [fgUnreachableBlock_map_bbNum])
                | some leave =>
                  refine List.Sublist.trans (fgRemoveBlock_map_bbNum _ _)
                    (sublist_of_bbNum_eq (by
                      rw [if_neg h5]
                      dsimp only
                      rw [ehfFold_map_bbNum, updateBlock_map_bbNum,
                        updateBlock_map_bbNum, fgUnreachableBlock_map_bbNum]
                      · intro b; rfl
                      · intro b; rfl))
              · rw [if_neg h6]
                refine sublist_of_bbNum_eq (by
                  dsimp only
                  rw [fgUnreachableBlock_map_bbNum])

/-- Membership elimination through the edge-detachment updates, tracking
the block number and the removed flag. -/
theorem mem_removeOnePred_removed (c : Compiler) (t s : Nat) (b : BasicBlock)
    (hb : b ∈ (removeOnePred c t s).blocks) :
    ∃ a ∈ c.blocks, a.bbNum = b.bbNum ∧ a.flags.removed = b.flags.removed := by
  rcases mem_updateBlock_elim _ _ _ b hb with ⟨a, ha, _, heq⟩ | ⟨a, ha, _, heq⟩
  · exact ⟨a, ha, by rw [heq], by rw [heq]⟩
  · exact ⟨a, ha, by rw [heq], by rw [heq]⟩

theorem mem_predFold_removed (n : Nat) :
    ∀ (l : List Nat) (c : Compiler) (b : BasicBlock),
      b ∈ (l.foldl (fun acc s => removeOnePred acc s n) c).blocks →
      ∃ a ∈ c.blocks, a.bbNum = b.bbNum ∧ a.flags.removed = b.flags.removed := by
  intro l
  induction l with
  | nil => intro c b hb; exact ⟨b, hb, rfl, rfl⟩
  | cons hd tl ih =>
    intro c b hb
    rw [List.foldl_cons] at hb
    obtain ⟨a1, ha1, h1n, h1r⟩ := ih _ b hb
    obtain ⟨a0, ha0, h0n, h0r⟩ := mem_removeOnePred_removed _ _ _ a1 ha1
    exact ⟨a0, ha0, h0n.trans h1n, h0r.trans h1r⟩

theorem mem_fgRemoveBlockAsPred_removed (c : Compiler) (n : Nat)
    (b : BasicBlock) (hb : b ∈ (fgRemoveBlockAsPred c n).blocks) :
    ∃ a ∈ c.blocks, a.bbNum = b.bbNum ∧ a.flags.removed = b.flags.removed := by
  unfold fgRemoveBlockAsPred at hb
  cases hfind : c.findBlock n with
  | none => rw [hfind] at hb; exact ⟨b, hb, rfl, rfl⟩
  | some blk => rw [hfind] at hb; exact mem_predFold_removed n _ _ b hb

/-- Blocks other than the retired one keep a clear removed flag across
`fgUnreachableBlock`. -/
theorem mem_fgUnreachableBlock_clean (c : Compiler) (n : Nat)
    (hcl : ∀ b ∈ c.blocks, b.flags.removed = false)
    (b : BasicBlock) (hb : b ∈ (fgUnreachableBlock c n).blocks)
    (hne : b.bbNum ≠ n) : b.flags.removed = false := by
  unfold fgUnreachableBlock at hb
  cases hfind : c.findBlock n with
  | none => rw [hfind] at hb; exact hcl b hb
  | some blk =>
    rw [hfind] at hb
    dsimp only at hb
    by_cases hr : blk.flags.removed = true
    · rw [if_pos hr] at hb; exact hcl b hb
    · rw [if_neg hr] at hb
      obtain ⟨a, ha, hnum, hrem⟩ := mem_fgRemoveBlockAsPred_removed _ _ b hb
      rcases mem_updateBlock_elim _ _ _ a ha with
        ⟨a0, ha0, _, heq⟩ | ⟨a0, ha0, h0n, heq⟩
      · subst heq
        rw [← hrem]
        exact hcl a ha0
      · subst heq
        exact absurd (hnum.symm.trans h0n) hne

theorem mem_fgRemoveEhfSuccessor_removed (c : Compiler) (p l : Nat)
    (b : BasicBlock) (hb : b ∈ (fgRemoveEhfSuccessor c p l).blocks) :
    ∃ a ∈ c.blocks, a.bbNum = b.bbNum ∧ a.flags.removed = b.flags.removed := by
  unfold fgRemoveEhfSuccessor at hb
  obtain ⟨a1, ha1, h1n, h1r⟩ := mem_removeOnePred_removed _ _ _ b hb
  rcases mem_updateBlock_elim _ _ _ a1 ha1 with
    ⟨a0, ha0, _, heq⟩ | ⟨a0, ha0, h0n, heq⟩
  · subst heq
    exact ⟨a1, ha0, h1n, h1r⟩
  · subst heq
    cases hk : a0.kind <;> rw [hk] at h1n h1r <;> exact ⟨a0, ha0, h1n, h1r⟩

theorem mem_ehfFold_removed (l : Nat) :
    ∀ (ps : List Nat) (c : Compiler) (b : BasicBlock),
      b ∈ ((ps.foldl (fun acc p => fgRemoveEhfSuccessor acc p l) c)).blocks →
      ∃ a ∈ c.blocks, a.bbNum = b.bbNum ∧ a.flags.removed = b.flags.removed := by
  intro ps
  induction ps with
  | nil => intro c b hb; exact ⟨b, hb, rfl, rfl⟩
  | cons hd tl ih =>
    intro c b hb
    rw [List.foldl_cons] at hb
    obtain ⟨a1, ha1, h1n, h1r⟩ := ih _ b hb
    obtain ⟨a0, ha0, h0n, h0r⟩ := mem_fgRemoveEhfSuccessor_removed _ _ _ a1 ha1
    exact ⟨a0, ha0, h0n.trans h1n, h0r.trans h1r⟩

/-- Membership elimination through `fgRemoveBlock`: a surviving block is
not the deleted number and descends from an input block with the same
number and removed flag. -/
theorem mem_fgRemoveBlock_elim (c : Compiler) (n : Nat) (b : BasicBlock)
    (hb : b ∈ (fgRemoveBlock c n).blocks) :
    b.bbNum ≠ n ∧ ∃ a ∈ c.blocks, a.bbNum = b.bbNum ∧
      a.flags.removed = b.flags.removed := by
  unfold fgRemoveBlock at hb
  cases hfind : c.findBlock n with
  | none =>
    rw [hfind] at hb
    refine ⟨?_, b, hb, rfl, rfl⟩
    intro hbn
    have := List.find?_eq_none.mp hfind b hb
    simp [hbn] at this
  | some blk =>
    rw [hfind] at hb
    dsimp only at hb
    by_cases hr : blk.flags.removed = true
    · rw [if_pos hr] at hb
      rw [List.mem_filter] at hb
      refine ⟨?_, b, hb.1, rfl, rfl⟩
      simpa using hb.2
    · rw [if_neg hr] at hb
      rw [List.mem_filter] at hb
      have hbne : b.bbNum ≠ n := by simpa using hb.2
      obtain ⟨a, ha, hnum, hrem⟩ := mem_fgRemoveBlockAsPred_removed _ _ b hb.1
      rcases mem_updateBlock_elim _ _ _ a ha with
        ⟨a0, ha0, _, heq⟩ | ⟨a0, ha0, h0n, heq⟩
      · subst heq
        exact ⟨hbne, a, ha0, hnum, hrem⟩
      · subst heq
        exact absurd (hnum.symm.trans h0n) hbne

/-- One recording-loop step preserves the invariant that a clear
`hasUnreachableBlocks` flag implies no block is marked removed: only the
don't-remove throw conversion (which clears the flag again) and the
paired-continuation physical deletion run without setting it. -/
theorem removeUnreachableStep_cleanInv (canRemove : BasicBlock → Bool)
    (st : RUBState) (n : Nat)
    (hinv : st.hasUnreach = false → ∀ b ∈ st.comp.blocks, b.flags.removed = false) :
    (removeUnreachableStep canRemove st n).hasUnreach = false →
    ∀ b ∈ (removeUnreachableStep canRemove st n).comp.blocks,
      b.flags.removed = false := by
  unfold removeUnreachableStep
  dsimp only
  cases hfind : st.comp.findBlock n with
  | none => exact hinv
  | some block =>
    simp only
    by_cases h1 : fgIsThrowHlpBlk st.comp block = true
    · rw [if_pos h1]; exact hinv
    · rw [if_neg h1]
      by_cases h2 : st.comp.genReturnBB = some n
      · rw [if_pos h2]; exact hinv
      · rw [if_neg h2]
        by_cases h3 : (block.flags.dontRemove && block.isEmpty &&
            (block.kind matches BBKind.bthrow)) = true
        · rw [if_pos h3]; exact hinv
        · rw [if_neg h3]
          by_cases h4 : (!canRemove block) = true
          · rw [if_pos h4]; exact hinv
          · rw [if_neg h4]
            by_cases h5 : block.flags.dontRemove = true
            · rw [if_pos h5]
              by_cases h6 : isBBCallAlwaysPair (fgUnreachableBlock st.comp n)
                  block = true
              · rw [if_pos h6]
                cases hleave : (fgUnreachableBlock st.comp n).bbNextNum n with
                | none =>
                  intro hres b hb
                  dsimp only at hres hb
                  have hcl := hinv hres
                  rcases mem_updateBlock_elim _ _ _ b hb with
                    ⟨a, ha, hane, heq⟩ | ⟨a, ha, han, heq⟩
                  · subst heq
                    exact mem_fgUnreachableBlock_clean st.comp n hcl b ha hane
                  · subst heq
                    rfl
                | some leave =>
                  intro hres b hb
                  dsimp only at hres
                  have hcl := hinv hres
                  obtain ⟨hbne, a, ha, hnum, hrem⟩ := mem_fgRemoveBlock_elim _ _ b hb
                  obtain ⟨a1, ha1, h1n, h1r⟩ := mem_ehfFold_removed leave _ _ a ha
                  rcases mem_updateBlock_elim _ _ _ a1 ha1 with
                    ⟨a2, ha2, h2ne, heq⟩ | ⟨a2, ha2, h2n, heq⟩
                  · subst heq
                    rw [if_pos h5] at ha2
                    rcases mem_updateBlock_elim _ _ _ a1 ha2 with
                      ⟨a3, ha3, h3ne, heq3⟩ | ⟨a3, ha3, h3n, heq3⟩
                    · subst heq3
                      rw [← hrem, ← h1r]
                      exact mem_fgUnreachableBlock_clean st.comp n hcl a1 ha3 h3ne
                    · subst heq3
                      rw [← hrem, ← h1r]
                      rfl
                  · subst heq
                    exact absurd (hnum.symm.trans (h1n.symm.trans h2n)) hbne
              · rw [if_neg h6]
                intro hres b hb
                dsimp only at hres hb
                have hcl := hinv hres
                rcases mem_updateBlock_elim _ _ _ b hb with
                  ⟨a, ha, hane, heq⟩ | ⟨a, ha, han, heq⟩
                · subst heq
                  exact mem_fgUnreachableBlock_clean st.comp n hcl b ha hane
                · subst heq
                  rfl
            · rw [if_neg h5]
              by_cases h6 : isBBCallAlwaysPair (fgUnreachableBlock st.comp n)
                  block = true
              · rw [if_pos h6]
                cases hleave : (fgUnreachableBlock st.comp n).bbNextNum n with
                | none =>
                  intro hres
                  dsimp only at hres
                  simp at hres
                | some leave =>
                  intro hres
                  dsimp only at hres
                  simp at hres
              · rw [if_neg h6]
                intro hres
                dsimp only at hres
                simp at hres

theorem removeUnreachableFold_globals (canRemove : BasicBlock → Bool) :
    ∀ (ns : List Nat) (st : RUBState),
      globalsOf (ns.foldl (removeUnreachableStep canRemove) st).comp =
        globalsOf st.comp := by
  intro ns
  induction ns with
  | nil => intro st; rfl
  | cons n ns ih =>
    intro st
    rw [List.foldl_cons, ih, removeUnreachableStep_globals]

theorem fgRemoveUnreachableBlocks_globals (canRemove : BasicBlock → Bool)
    (c : Compiler) :
    globalsOf (fgRemoveUnreachableBlocks canRemove c).1 = globalsOf c := by
  unfold fgRemoveUnreachableBlocks
  dsimp only
  by_cases hu : (List.foldl (removeUnreachableStep canRemove)
      ⟨c, false, false, false⟩ (c.blocks.map BasicBlock.bbNum)).hasUnreach = true
  · rw [if_pos hu]
    exact (globalsOf_filter _ _).trans (removeUnreachableFold_globals canRemove _ _)
  · rw [if_neg hu]
    exact removeUnreachableFold_globals canRemove _ _

theorem removeUnreachableFold_numsSublist (canRemove : BasicBlock → Bool) :
    ∀ (ns : List Nat) (st : RUBState),
      List.Sublist
        ((ns.foldl (removeUnreachableStep canRemove) st).comp.blocks.map
          BasicBlock.bbNum)
        (st.comp.blocks.map BasicBlock.bbNum) := by
  intro ns
  induction ns with
  | nil => intro st; exact List.Sublist.refl _
  | cons n ns ih =>
    intro st
    rw [List.foldl_cons]
    exact (ih _).trans (removeUnreachableStep_numsSublist canRemove st n)

theorem fgRemoveUnreachableBlocks_numsSublist (canRemove : BasicBlock → Bool)
    (c : Compiler) :
    List.Sublist ((fgRemoveUnreachableBlocks canRemove c).1.blocks.map
      BasicBlock.bbNum) (c.blocks.map BasicBlock.bbNum) := by
  unfold fgRemoveUnreachableBlocks
  dsimp only
  by_cases hu : (List.foldl (removeUnreachableStep canRemove)
      ⟨c, false, false, false⟩ (c.blocks.map BasicBlock.bbNum)).hasUnreach = true
  · rw [if_pos hu]
    exact (List.Sublist.map _ (List.filter_sublist _)).trans
      (removeUnreachableFold_numsSublist canRemove _ _)
  · rw [if_neg hu]
    exact removeUnreachableFold_numsSublist canRemove _ _

theorem removeUnreachableFold_cleanInv (canRemove : BasicBlock → Bool) :
    ∀ (ns : List Nat) (st : RUBState),
      (st.hasUnreach = false → ∀ b ∈ st.comp.blocks, b.flags.removed = false) →
      ((ns.foldl (removeUnreachableStep canRemove) st).hasUnreach = false →
        ∀ b ∈ (ns.foldl (removeUnreachableStep canRemove) st).comp.blocks,
          b.flags.removed = false) := by
  intro ns
  induction ns with
  | nil => intro st h; exact h
  | cons n ns ih =>
    intro st h
    rw [List.foldl_cons]
    exact ih _ (removeUnreachableStep_cleanInv canRemove st n h)

/-- A pass of `fgRemoveUnreachableBlocks` leaves no block marked removed
in the returned state: retired blocks are physically unlinked at the end
of the pass (or converted to kept throw blocks, clearing the mark). -/
theorem fgRemoveUnreachableBlocks_clean (canRemove : BasicBlock → Bool)
    (c : Compiler)
    (hcl : ∀ b ∈ c.blocks, b.flags.removed = false) :
    ∀ b ∈ (fgRemoveUnreachableBlocks canRemove c).1.blocks,
      b.flags.removed = false := by
  unfold fgRemoveUnreachableBlocks
  dsimp only
  by_cases hu : (List.foldl (removeUnreachableStep canRemove)
      ⟨c, false, false, false⟩ (c.blocks.map BasicBlock.bbNum)).hasUnreach = true
  · rw [if_pos hu]
    intro b hb
    dsimp only at hb
    rw [List.mem_filter] at hb
    simpa using hb.2
  · rw [if_neg hu]
    exact removeUnreachableFold_cleanInv canRemove _ _ (fun _ => hcl)
      (by simpa using hu)

theorem exemptTriple_congr (c1 c2 : Compiler)
    (hG : globalsOf c1 = globalsOf c2) (b : BasicBlock) :
    exemptTriple c1.throwHelperBlocks c1.genReturnBB b ↔
      exemptTriple c2.throwHelperBlocks c2.genReturnBB b := by
  have h1 : c1.throwHelperBlocks = c2.throwHelperBlocks := congrArg Prod.fst hG
  have h2 : c1.genReturnBB = c2.genReturnBB := congrArg (fun p => p.2.1) hG
  unfold exemptTriple
  rw [h1, h2]

theorem exemptTriple_eq_of_globals (c1 : Compiler)
    (G : List Nat × Option Nat × List EHblkDsc) (hG : globalsOf c1 = G)
    (b : BasicBlock) :
    exemptTriple c1.throwHelperBlocks c1.genReturnBB b ↔
      exemptTriple G.1 G.2.1 b := by
  subst hG
  exact Iff.rfl

/-- If the whole recording sweep reports no change, every block of the
final state was either already settled (exempt or not removable), and the
`hasUnreachableBlocks` flag is untouched. -/
theorem removeUnreachableFold_silent (canRemove : BasicBlock → Bool)
    (G : List Nat × Option Nat × List EHblkDsc) :
    ∀ (ns : List Nat) (st : RUBState),
      (st.comp.blocks.map BasicBlock.bbNum).Nodup →
      (∀ b ∈ st.comp.blocks, b.flags.removed = false) →
      globalsOf st.comp = G →
      (st.changed = false →
        ∀ b ∈ st.comp.blocks,
          b.bbNum ∈ ns ∨ exemptTriple G.1 G.2.1 b ∨ canRemove b = false) →
      (ns.foldl (removeUnreachableStep canRemove) st).changed = false →
      (ns.foldl (removeUnreachableStep canRemove) st).hasUnreach =
        st.hasUnreach ∧
      ∀ b ∈ (ns.foldl (removeUnreachableStep canRemove) st).comp.blocks,
        exemptTriple G.1 G.2.1 b ∨ canRemove b = false := by
  intro ns
  induction ns with
  | nil =>
    intro st _ _ _ hsettle hch
    refine ⟨rfl, fun b hb => ?_⟩
    rcases hsettle hch b hb with h0 | h0 | h0
    · simp at h0
    · exact Or.inl h0
    · exact Or.inr h0
  | cons n ns ih =>
    intro st hnd hcl hG hsettle hch
    rw [List.foldl_cons] at hch ⊢
    have hch1 : (removeUnreachableStep canRemove st n).changed = false := by
      cases hc : (removeUnreachableStep canRemove st n).changed with
      | false => rfl
      | true =>
        exact absurd (removeUnreachableFold_changed_mono canRemove ns _ hc)
          (by simp [hch])
    obtain ⟨hst0, hhu, hblocks⟩ :=
      removeUnreachableStep_silent canRemove st n hnd hcl hch1
    have hnd1 : ((removeUnreachableStep canRemove st n).comp.blocks.map
        BasicBlock.bbNum).Nodup :=
      List.Nodup.sublist (removeUnreachableStep_numsSublist canRemove st n) hnd
    have hcl1 : ∀ b ∈ (removeUnreachableStep canRemove st n).comp.blocks,
        b.flags.removed = false := fun b hb => (hblocks b hb).2.2
    have hG1 : globalsOf (removeUnreachableStep canRemove st n).comp = G :=
      (removeUnreachableStep_globals canRemove st n).trans hG
    have hsettle1 : (removeUnreachableStep canRemove st n).changed = false →
        ∀ b ∈ (removeUnreachableStep canRemove st n).comp.blocks,
          b.bbNum ∈ ns ∨ exemptTriple G.1 G.2.1 b ∨ canRemove b = false := by
      intro _ b hb
      obtain ⟨hmemne, heqex, _⟩ := hblocks b hb
      by_cases hbn : b.bbNum = n
      · rcases heqex hbn with hex | hcr
        · exact Or.inr (Or.inl ((exemptTriple_eq_of_globals st.comp G hG b).mp hex))
        · exact Or.inr (Or.inr hcr)
      · rcases hsettle hst0 b (hmemne hbn) with h0 | h0 | h0
        · rcases List.mem_cons.mp h0 with h1 | h1
          · exact absurd h1 hbn
          · exact Or.inl h1
        · exact Or.inr (Or.inl h0)
        · exact Or.inr (Or.inr h0)
    obtain ⟨hheq, hall⟩ := ih _ hnd1 hcl1 hG1 hsettle1 hch
    exact ⟨hheq.trans hhu, hall⟩

/-- A no-change pass of `fgRemoveUnreachableBlocks` certifies that every
surviving block is exempt from removal (throw helper, `genReturnBB`, or
kept converted throw block) or fails the removability predicate. -/
theorem fgRemoveUnreachableBlocks_silent (canRemove : BasicBlock → Bool)
    (c : Compiler)
    (hnd : (c.blocks.map BasicBlock.bbNum).Nodup)
    (hcl : ∀ b ∈ c.blocks, b.flags.removed = false)
    (h : (fgRemoveUnreachableBlocks canRemove c).2.1 = false) :
    ∀ b ∈ (fgRemoveUnreachableBlocks canRemove c).1.blocks,
      exemptTriple c.throwHelperBlocks c.genReturnBB b ∨
        canRemove b = false := by
  unfold fgRemoveUnreachableBlocks at h ⊢
  dsimp only at h ⊢
  obtain ⟨hhu, hall⟩ := removeUnreachableFold_silent canRemove (globalsOf c)
    (c.blocks.map BasicBlock.bbNum) ⟨c, false, false, false⟩ hnd hcl rfl
    (fun _ b hb => Or.inl (List.mem_map_of_mem _ hb)) h
  rw [if_neg (by rw [hhu]; simp)]
  exact hall

/-- The retry loop of `fgRemoveDeadBlocks` preserves the block-number
sequence up to deletion and the global fields, and its fixpoint is
certified by a final no-change pass: every surviving block is exempt or
not removable. -/
theorem removeDeadLoop_spec (canRemove : BasicBlock → Bool) :
    ∀ (fuel : Nat) (c : Compiler) (saw : Bool) (out : Compiler × Bool),
      removeDeadLoop canRemove fuel c saw = some out →
      (c.blocks.map BasicBlock.bbNum).Nodup →
      (∀ b ∈ c.blocks, b.flags.removed = false) →
      List.Sublist (out.1.blocks.map BasicBlock.bbNum)
          (c.blocks.map BasicBlock.bbNum) ∧
      globalsOf out.1 = globalsOf c ∧
      ∀ b ∈ out.1.blocks,
        exemptTriple c.throwHelperBlocks c.genReturnBB b ∨
          canRemove b = false := by
  intro fuel
  induction fuel with
  | zero => intro c saw out h _ _; simp [removeDeadLoop] at h
  | succ k ih =>
    intro c saw out h hnd hcl
    simp only [removeDeadLoop] at h
    rcases hp : fgRemoveUnreachableBlocks canRemove c with ⟨c1, changed, saw1⟩
    rw [hp] at h
    dsimp only at h
    have hsub1 : List.Sublist (c1.blocks.map BasicBlock.bbNum)
        (c.blocks.map BasicBlock.bbNum) := by
      have h0 := fgRemoveUnreachableBlocks_numsSublist canRemove c
      rw [hp] at h0
      exact h0
    have hglob1 : globalsOf c1 = globalsOf c := by
      have h0 := fgRemoveUnreachableBlocks_globals canRemove c
      rw [hp] at h0
      exact h0
    have hcl1 : ∀ b ∈ c1.blocks, b.flags.removed = false := by
      have h0 := fgRemoveUnreachableBlocks_clean canRemove c hcl
      rw [hp] at h0
      exact h0
    have hnd1 : (c1.blocks.map BasicBlock.bbNum).Nodup :=
      List.Nodup.sublist hsub1 hnd
    by_cases hch : changed = true
    · rw [if_pos hch] at h
      obtain ⟨hs, hg, hx⟩ := ih c1 (saw || saw1) out h hnd1 hcl1
      refine ⟨hs.trans hsub1, hg.trans hglob1, fun b hb => ?_⟩
      rcases hx b hb with hex | hcr
      · exact Or.inl ((exemptTriple_congr c1 c hglob1 b).mp hex)
      · exact Or.inr hcr
    · rw [if_neg hch] at h
      have hout := Option.some.inj h
      subst hout
      have hsil := fgRemoveUnreachableBlocks_silent canRemove c hnd hcl
        (by rw [hp]; simpa using hch)
      rw [hp] at hsil
      exact ⟨hsub1, hglob1, fun b hb => hsil b hb⟩

/-- C1: the specification claims every block surviving `fgRemoveDeadBlocks`
is reachable from the root set (entry plus EH handler and filter begins).
What the code guarantees is weaker: every surviving block is either exempt
from removal (an internal throw helper, the `genReturnBB` block, or a
kept empty don&apos;t-remove throw block, including stubs the pass itself
converted), or was visited by the initial worklist traversal (flow edges
from the entry plus handler edges of visited try begins, on the original
graph) while still carrying at least one incoming reference. -/
theorem claimC1_deadBlockClosure (c : Compiler) (walkFuel : Nat)
    (first : BasicBlock) (hfirst : c.blocks.head? = some first)
    (hnd : (c.blocks.map BasicBlock.bbNum).Nodup)
    (hcl : ∀ b ∈ c.blocks, b.flags.removed = false)
    (out : Compiler × Bool) (h : fgRemoveDeadBlocks c walkFuel = some out) :
    ∀ b ∈ out.1.blocks,
      exemptTriple c.throwHelperBlocks c.genReturnBB b ∨
      (AugReach c first.bbNum b.bbNum ∧ ¬ b.bbRefs = 0) := by
  unfold fgRemoveDeadBlocks at h
  cases hw : removeDeadWalk c walkFuel with
  | none => rw [hw] at h; exact absurd h (by simp)
  | some visited =>
    rw [hw] at h
    obtain ⟨_, _, hx⟩ :=
      removeDeadLoop_spec (isBlockRemovable visited) 10 c false out h hnd hcl
    intro b hb
    rcases hx b hb with hex | hcr
    · exact Or.inl hex
    · right
      have hiff := removeDeadWalk_spec c walkFuel first hfirst visited hw b.bbNum
      have hc : visited.contains b.bbNum = true ∧ ¬ b.bbRefs = 0 := by
        simpa [isBlockRemovable] using hcr
      refine ⟨hiff.mp ?_, hc.2⟩
      simpa using hc.1

/-- A five-block state refuting the claimed closure: block 1 (entry) falls
to the returning try block 2; the handler of that try begins at block 3,
an empty don&apos;t-remove block jumping into the cycle of blocks 4 and 5.
The dead-block pass converts block 3 into a kept throw stub, severing the
only path from the root set into the 4-5 cycle, yet blocks 4 and 5 keep
nonzero reference counts (they reference each other) and survive. -/
def cexC1 : Compiler :=
  { blocks :=
      [ { bbNum := 1, kind := .always 2, stmts := [], bbPreds := [], bbRefs := 1,
          bbWeight := 1 },
        { bbNum := 2, kind := .ret, stmts := [], bbPreds := [1], bbRefs := 1,
          bbWeight := 1, bbTryIndex := some 0 },
        { bbNum := 3, kind := .always 4, stmts := [], bbPreds := [], bbRefs := 0,
          bbWeight := 1, flags := { dontRemove := true }, bbHndIndex := some 0 },
        { bbNum := 4, kind := .always 5, stmts := [], bbPreds := [3, 5],
          bbRefs := 2, bbWeight := 1 },
        { bbNum := 5, kind := .always 4, stmts := [], bbPreds := [4], bbRefs := 1,
          bbWeight := 1 } ],
    compHndBBtab := [ { ebdTryBeg := 2, ebdHndBeg := 3 } ] }

/-- The entry block of `cexC1`. -/
def cexC1b1 : BasicBlock :=
  { bbNum := 1, kind := .always 2, stmts := [], bbPreds := [], bbRefs := 1,
    bbWeight := 1 }

/-- The state `fgRemoveDeadBlocks` produces from `cexC1`: block 3 has been
converted into a kept run-rarely throw stub (its edge into block 4
detached), and the mutually-referencing blocks 4 and 5 survive. -/
def cexC1out : Compiler :=
  { blocks :=
      [ { bbNum := 1, kind := .always 2, stmts := [], bbPreds := [], bbRefs := 1,
          bbWeight := 1 },
        { bbNum := 2, kind := .ret, stmts := [], bbPreds := [1], bbRefs := 1,
          bbWeight := 1, bbTryIndex := some 0 },
        { bbNum := 3, kind := .bthrow, stmts := [], bbPreds := [], bbRefs := 0,
          bbWeight := 0,
          flags := { dontRemove := true, runRarely := true, importedFlag := true },
          bbHndIndex := some 0 },
        { bbNum := 4, kind := .always 5, stmts := [], bbPreds := [5],
          bbRefs := 1, bbWeight := 1 },
        { bbNum := 5, kind := .always 4, stmts := [], bbPreds := [4], bbRefs := 1,
          bbWeight := 1 } ],
    compHndBBtab := [ { ebdTryBeg := 2, ebdHndBeg := 3 } ] }

/-- The specification&apos;s post-elimination closure fails on `cexC1`:
the pass returns `cexC1out`, which still contains block 4, yet block 4 is
not reachable from the root set (entry and EH handler/filter begins) of
the resulting graph. -/
theorem claimC1_counterexample :
    fgRemoveDeadBlocks cexC1 20 = some (cexC1out, true) ∧
    (∃ b ∈ cexC1out.blocks, b.bbNum = 4) ∧
    ¬ ReachFromRootSet cexC1out 4 := by
  refine ⟨rfl, by decide, ?_⟩
  intro hreach
  have hw : flowWalkGo cexC1out 20 (rootSetOf cexC1out) [] = some [2, 3, 1] := rfl
  have h4 := (flowWalkGo_spec cexC1out 20 (rootSetOf cexC1out) [2, 3, 1] hw 4).mpr
    hreach
  simp at h4

theorem claimC1_deadBlockClosure_witness :
    cexC1.blocks.head? = some cexC1b1 ∧
    ∀ b ∈ cexC1out.blocks,
      exemptTriple cexC1.throwHelperBlocks cexC1.genReturnBB b ∨
      (AugReach cexC1 cexC1b1.bbNum b.bbNum ∧ ¬ b.bbRefs = 0) :=
  ⟨rfl, claimC1_deadBlockClosure cexC1 20 cexC1b1 rfl (by decide) (by decide)
    (cexC1out, true) rfl⟩

/-!
## Block compaction (`fgCanCompactBlocks`, `fgCompactBlocks`)
-/

/-- `BasicBlock::GetJumpDest` as an optional target: the single jump
destination carried by the block kind, if any. -/
def jumpDest : BBKind → Option Nat
  | .always t => some t
  | .cond t => some t
  | .callFinally t => some t
  | .ehCatchRet t => some t
  | .ehFilterRet t => some t
  | _ => none

/-- Modelled from the spec: `fgBBisScratch` — whether the block is the
specially created scratch entry block (spec section 4.4, compaction
precondition list). -/
def fgBBisScratch (c : Compiler) (b : BasicBlock) : Bool :=
  c.fgFirstBBScratch == some b.bbNum

/-- Modelled from the spec: `optIsLoopEntry` — whether the block is the
entry of a live loop-table entry (spec section 3, loop-table entry). -/
def optIsLoopEntry (c : Compiler) (b : BasicBlock) : Bool :=
  c.optLoopTable.any (fun l => !l.lpRemoved && l.lpEntry == b.bbNum)

/-- Modelled from the spec: `fgInDifferentRegions` — the hot/cold region
split (spec section 4.5, region constraints). -/
def fgInDifferentRegions (a b : BasicBlock) : Bool :=
  a.flags.cold != b.flags.cold

/-- Modelled from the spec: `BasicBlock::sameEHRegion` — same try region
and same handler region (spec section 2, region index fields). -/
def sameEHRegion (a b : BasicBlock) : Bool :=
  a.bbTryIndex == b.bbTryIndex && a.bbHndIndex == b.bbHndIndex

/-- Whether the block numbered `p` is a switch block
(fgopt.cpp:1968-1974, the switch-predecessor screen). -/
def isSwitchBlockNum (c : Compiler) (p : Nat) : Bool :=
  match c.findBlock p with
  | some pb => (pb.kind matches BBKind.swtch _)
  | none => false

/-- `fgCanCompactBlocks` (fgopt.cpp:1883-1976). -/
def fgCanCompactBlocks (c : Compiler) (block bNext : BasicBlock) : Bool :=
  if !(block.kind matches BBKind.always _) ||
      jumpDest block.kind != some bNext.bbNum || block.flags.keepBbjAlways then
    false
  else if bNext.bbRefs != 1 &&
      (!block.isEmpty || block.flags.funcletBeg || block.bbCatchTyp) then
    false
  else if bNext.flags.dontRemove then false
  else if c.optLoopsRequirePreHeaders &&
      (block.flags.loopPreheader && bNext.bbRefs != 1) then
    false
  else if fgBBisScratch c block then false
  else if optIsLoopEntry c block then false
  else if fgInDifferentRegions block bNext then false
  else if c.fgCanRelocateEHRegions && !sameEHRegion block bNext then false
  else if decide (bNext.bbRefs > 1) && bNext.flags.loopAlign then false
  else if block.bbNatLoopNum != none && bNext.bbNatLoopNum != none &&
      block.bbNatLoopNum != bNext.bbNatLoopNum then
    false
  else if bNext.bbPreds.any (isSwitchBlockNum c) then false
  else true

/-- The statement merge of `fgCompactBlocks` (fgopt.cpp:2074-2196, HIR
path): the second block&apos;s phi definitions are spliced after the
first block&apos;s phis, then the remaining statements are appended. -/
def compactStmts (l1 l2 : List Statement) : List Statement :=
  let phis1 := l1.takeWhile (fun s => s.isPhiDef)
  let rest1 := l1.dropWhile (fun s => s.isPhiDef)
  let phis2 := l2.takeWhile (fun s => s.isPhiDef)
  let rest2 := l2.dropWhile (fun s => s.isPhiDef)
  if l2.isEmpty || phis2.isEmpty then l1 ++ l2
  else if l1.isEmpty then l2
  else if phis1.isEmpty then phis2 ++ l1 ++ rest2
  else phis1 ++ phis2 ++ rest1 ++ rest2

/-- The weight update of `fgCompactBlocks` (fgopt.cpp:2197-2230), applied
to the target block record with the removed block&apos;s prior record. -/
def compactWeight (ab b : BasicBlock) : BasicBlock :=
  if b.kind matches BBKind.bthrow then ab.bbSetRunRarely
  else
    let hasProfile := ab.flags.profWeight || b.flags.profWeight
    let hasNonZero := decide (ab.bbWeight > 0) || decide (b.bbWeight > 0)
    if hasProfile || hasNonZero then
      let newWeight := max ab.bbWeight b.bbWeight
      if hasProfile then ab.setBBProfileWeight newWeight
      else { ab with bbWeight := newWeight,
                     flags := { ab.flags with runRarely := false } }
    else ab.bbSetRunRarely

/-- The IL start-offset merge of `fgCompactBlocks` (fgopt.cpp:2242-2253):
minimum of the two offsets, an unknown offset yielding to the other. -/
def mergeOffsLo : Option Nat → Option Nat → Option Nat
  | none, o => o
  | some x, some y => some (min x y)
  | some x, none => some x

/-- The IL end-offset merge of `fgCompactBlocks` (fgopt.cpp:2255-2266):
maximum of the two offsets, an unknown offset yielding to the other. -/
def mergeOffsHi : Option Nat → Option Nat → Option Nat
  | none, o => o
  | some x, some y => some (max x y)
  | some x, none => some x

/-- Modelled from the spec: rewriting a block kind&apos;s jump targets
(spec section 3, successor adjacency derived from the kind and switch
table). -/
def replaceJumpTargets (k : BBKind) (oldNum newNum : Nat) : BBKind :=
  let r := fun t => if t = oldNum then newNum else t
  match k with
  | .always t => .always (r t)
  | .cond t => .cond (r t)
  | .swtch tb => .swtch (tb.map r)
  | .callFinally t => .callFinally (r t)
  | .ehFinallyRet ts => .ehFinallyRet (ts.map r)
  | .ehFilterRet t => .ehFilterRet (r t)
  | .ehCatchRet t => .ehCatchRet (r t)
  | k => k

/-- Modelled from the spec: `fgReplaceJumpTarget` — redirect one
predecessor&apos;s jump from `oldNum` to `newNum`, moving the
corresponding predecessor edge (spec section 4.4, retargeting of
incoming edges during compaction). -/
def fgReplaceJumpTarget (c : Compiler) (predNum oldNum newNum : Nat) :
    Compiler :=
  let c1 := c.updateBlock predNum (fun pb =>
    { pb with kind := replaceJumpTargets pb.kind oldNum newNum })
  let c2 := removeOnePred c1 oldNum predNum
  c2.updateBlock newNum (fun nb =>
    { nb with bbPreds := nb.bbPreds ++ [predNum], bbRefs := nb.bbRefs + 1 })

/-- Modelled from the spec: `fgReplacePred` — in the target&apos;s
predecessor list, every edge whose source is `oldPred` is re-sourced to
`newPred` (spec section 3, predecessor edges owned by the target). -/
def fgReplacePred (c : Compiler) (targetNum oldPred newPred : Nat) : Compiler :=
  c.updateBlock targetNum (fun tb =>
    { tb with bbPreds := tb.bbPreds.map (fun p =>
        if p = oldPred then newPred else p) })

/-- `fgUpdateLoopsAfterCompacting` (fgopt.cpp:2433-2484): rewrite loop
table references to the removed block. -/
def fgUpdateLoopsAfterCompacting (c : Compiler) (aNum bNum : Nat) : Compiler :=
  { c with optLoopTable := c.optLoopTable.map (fun l =>
      if l.lpRemoved then l
      else
        { l with
            lpHead := if l.lpHead = bNum then aNum else l.lpHead,
            lpBottom := if l.lpBottom = bNum then aNum else l.lpBottom,
            lpExit := if l.lpExit = bNum then aNum else l.lpExit,
            lpEntry := if l.lpEntry = bNum then aNum else l.lpEntry,
            lpTop := if l.lpTop = bNum then aNum else l.lpTop }) }

/-- Whether a block numbered `t` is marked for loop alignment
(`BasicBlock::isLoopAlign` on the jump target, fgopt.cpp:2352). -/
def isLoopAlignTarget (c : Compiler) (t : Nat) : Bool :=
  match c.findBlock t with
  | some tb => tb.flags.loopAlign
  | none => false

/-- The edge-detach and retarget prologue of `fgCompactBlocks`
(fgopt.cpp:2015-2045): remove the jump edge from the first block, and if
the second block still has incoming edges (the first block is empty),
clear the first block&apos;s loop-preheader flag and redirect every
remaining predecessor of the second block to the first. -/
def compactRetarget (c : Compiler) (aNum bNum : Nat) : Compiler :=
  let c1 := removeOnePred c bNum aNum
  let restPreds := ((c1.findBlock bNum).map BasicBlock.bbPreds).getD []
  if restPreds.isEmpty then c1
  else
    let c1a := c1.updateBlock aNum (fun ab =>
      { ab with flags := { ab.flags with loopPreheader := false } })
    restPreds.foldl (fun acc p => fgReplaceJumpTarget acc p bNum aNum) c1a

/-- The record-merge body of `fgCompactBlocks` (fgopt.cpp:2050-2277, HIR
path): splice the second block&apos;s statements, merge the weight, copy
the live-out set, merge the IL offsets, fix the internal/imported flags,
and union the propagated flags (modelled as loop-preheader and
GC-safe-point). -/
def compactMerge (c2 : Compiler) (aNum : Nat) (b2 : BasicBlock) : Compiler :=
  let c3 := c2.updateBlock aNum (fun ab =>
    { ab with stmts := compactStmts ab.stmts b2.stmts })
  let c4 := c3.updateBlock aNum (fun ab => compactWeight ab b2)
  let c5 := c4.updateBlock aNum (fun ab =>
    { ab with
        bbLiveOut := b2.bbLiveOut,
        bbCodeOffs := mergeOffsLo ab.bbCodeOffs b2.bbCodeOffs,
        bbCodeOffsEnd := mergeOffsHi ab.bbCodeOffsEnd b2.bbCodeOffsEnd })
  let c6 := c5.updateBlock aNum (fun ab =>
    if ab.flags.internalFlag && !b2.flags.internalFlag then
      { ab with flags := { ab.flags with
          internalFlag := false, importedFlag := true } }
    else ab)
  c6.updateBlock aNum (fun ab =>
    { ab with flags := { ab.flags with
        loopPreheader := ab.flags.loopPreheader || b2.flags.loopPreheader,
        gcSafePoint := ab.flags.gcSafePoint || b2.flags.gcSafePoint } })

/-- The jump-kind takeover of `fgCompactBlocks` (fgopt.cpp:2294-2348):
the first block assumes the second&apos;s kind and targets (propagating
the retless-call and none-quirk flags where applicable) and the affected
predecessor edges are re-sourced. -/
def compactTakeover (c8 : Compiler) (aNum bNum : Nat) (nextOfB : Option Nat)
    (b2 : BasicBlock) : Compiler :=
  match b2.kind with
  | .callFinally t =>
    let cA := c8.updateBlock aNum (fun ab =>
      { ab with
          kind := b2.kind,
          flags := { ab.flags with
            retlessCall := ab.flags.retlessCall || b2.flags.retlessCall,
            noneQuirk := ab.flags.noneQuirk || b2.flags.noneQuirk } })
    fgReplacePred cA t bNum aNum
  | .always t =>
    let cA := c8.updateBlock aNum (fun ab =>
      { ab with
          kind := b2.kind,
          flags := { ab.flags with
            noneQuirk := ab.flags.noneQuirk || b2.flags.noneQuirk } })
    fgReplacePred cA t bNum aNum
  | .cond t =>
    let cA := c8.updateBlock aNum (fun ab => { ab with kind := b2.kind })
    let cB := fgReplacePred cA t bNum aNum
    if nextOfB != some t then
      match nextOfB with
      | some nn => fgReplacePred cB nn bNum aNum
      | none => cB
    else cB
  | .ehCatchRet t =>
    let cA := c8.updateBlock aNum (fun ab => { ab with kind := b2.kind })
    fgReplacePred cA t bNum aNum
  | .ehFilterRet t =>
    let cA := c8.updateBlock aNum (fun ab => { ab with kind := b2.kind })
    fgReplacePred cA t bNum aNum
  | .ehFinallyRet ts =>
    let cA := c8.updateBlock aNum (fun ab => { ab with kind := b2.kind })
    ts.foldl (fun acc t => fgReplacePred acc t bNum aNum) cA
  | .swtch tb =>
    let cA := c8.updateBlock aNum (fun ab => { ab with kind := b2.kind })
    tb.foldl (fun acc t => fgReplacePred acc t bNum aNum) cA
  | _ => c8.updateBlock aNum (fun ab => { ab with kind := b2.kind })

/-- The loop-number and alignment propagation of `fgCompactBlocks`
(fgopt.cpp:2352-2370). -/
def compactAlign (c9 : Compiler) (aNum : Nat) (b2 : BasicBlock) : Compiler :=
  let c10 :=
    if (match b2.kind with
        | .cond t => isLoopAlignTarget c9 t
        | .always t => isLoopAlignTarget c9 t
        | _ => false) then
      c9.updateBlock aNum (fun ab => { ab with bbNatLoopNum := b2.bbNatLoopNum })
    else c9
  if b2.flags.loopAlign then
    c10.updateBlock aNum (fun ab =>
      { ab with flags := { ab.flags with loopAlign := true } })
  else c10

/-- The dominator-epoch renumbering of `fgCompactBlocks`
(fgopt.cpp:2372-2405): when dominators are computed and the first block
is outside the numbered epoch, it inherits the second block&apos;s
reachability set, immediate dominator, and block number (predecessor
edges re-keyed accordingly; the predecessor re-sorting is elided). -/
def compactRenumber (c11 : Compiler) (domsComputed : Bool)
    (domCount aNum bNum : Nat) (b2 : BasicBlock) : Compiler :=
  if domsComputed && decide (aNum > domCount) then
    let cA := c11.updateBlock aNum (fun ab =>
      { ab with bbReach := b2.bbReach, bbIDom := b2.bbIDom, bbNum := bNum })
    { cA with blocks := cA.blocks.map (fun blk =>
        { blk with bbPreds := blk.bbPreds.map (fun p =>
            if p = aNum then bNum else p) }) }
  else c11

/-- The physical unlink of the second block (fgopt.cpp:2282-2288):
remove it from the block list. -/
def compactUnlink (c7 : Compiler) (bNum : Nat) : Compiler :=
  { c7 with blocks := c7.blocks.filter (fun blk => blk.bbNum ≠ bNum) }

/-- `fgCompactBlocks` (fgopt.cpp:1990-2424), HIR path, for the block
numbered `aNum` and its lexical successor: detach the jump edge, retarget
any other incoming edges of the second block, splice its statements and
merge weights/offsets/flags, unlink it, and take over its jump kind and
targets (re-sourcing the affected predecessor edges). The region
last-block table update (`ehUpdateForDeletedBlock`) maintains data this
model does not carry and is elided. -/
def fgCompactBlocks (c : Compiler) (aNum : Nat) : Compiler :=
  match c.findBlock aNum, c.bbNextNum aNum with
  | some _, some bNum =>
    (match c.findBlock bNum with
     | some b =>
       let c2 := compactRetarget c aNum bNum
       let b2 := (c2.findBlock bNum).getD b
       let c7 := compactMerge c2 aNum b2
       let c8 := compactUnlink c7 bNum
       let c9 := compactTakeover c8 aNum bNum (c.bbNextNum bNum) b2
       let c11 := compactAlign c9 aNum b2
       let c12 := compactRenumber c11 c.fgDomsComputed c.fgDomBBcount
         aNum bNum b2
       fgUpdateLoopsAfterCompacting c12
         (if c.fgDomsComputed && decide (aNum > c.fgDomBBcount) then bNum
          else aNum) bNum
     | none => c)
  | _, _ => c

/-- A block record with its predecessor bookkeeping blanked: equalities
up to `strip` say two states agree on every field except `bbPreds` and
`bbRefs`. -/
def strip (b : BasicBlock) : BasicBlock := { b with bbPreds := [], bbRefs := 0 }

theorem findBlock_update_self (c : Compiler) (n : Nat) (f)
    (hf : ∀ b, (f b).bbNum = b.bbNum) :
    (c.updateBlock n f).findBlock n = (c.findBlock n).map f := by
  rw [findBlock_updateBlock c n f hf n]
  cases hfind : c.findBlock n with
  | none => rfl
  | some b =>
    have hb := findBlock_some_num c n b hfind
    simp [hb]

theorem findBlock_update_other (c : Compiler) (n : Nat) (f)
    (hf : ∀ b, (f b).bbNum = b.bbNum) (m : Nat) (hm : m ≠ n) :
    (c.updateBlock n f).findBlock m = c.findBlock m := by
  rw [findBlock_updateBlock c n f hf m]
  cases hfind : c.findBlock m with
  | none => rfl
  | some b =>
    have hb := findBlock_some_num c m b hfind
    simp [hb, hm]

theorem stripFind_update_pred (c : Compiler) (n : Nat) (f)
    (hf : ∀ b, (f b).bbNum = b.bbNum)
    (hs : ∀ b, strip (f b) = strip b) (m : Nat) :
    ((c.updateBlock n f).findBlock m).map strip =
      (c.findBlock m).map strip := by
  rw [findBlock_updateBlock c n f hf m]
  cases hfind : c.findBlock m with
  | none => rfl
  | some b =>
    by_cases hb : b.bbNum = n
    · simp [hb, hs]
    · simp [hb]

theorem stripFind_removeOnePred (c : Compiler) (t s : Nat) (m : Nat) :
    ((removeOnePred c t s).findBlock m).map strip =
      (c.findBlock m).map strip := by
  apply stripFind_update_pred
  · intro b; rfl
  · intro b; rfl

theorem stripFind_fgReplacePred (c : Compiler) (t o n : Nat) (m : Nat) :
    ((fgReplacePred c t o n).findBlock m).map strip =
      (c.findBlock m).map strip := by
  apply stripFind_update_pred
  · intro b; rfl
  · intro b; rfl

theorem stripFind_predAppend (c : Compiler) (n p : Nat) (m : Nat) :
    ((c.updateBlock n (fun nb =>
      { nb with bbPreds := nb.bbPreds ++ [p], bbRefs := nb.bbRefs + 1 })).findBlock
        m).map strip = (c.findBlock m).map strip := by
  apply stripFind_update_pred
  · intro b; rfl
  · intro b; rfl

theorem findBlock_kindRewrite_other (c : Compiler) (p o n : Nat) (m : Nat)
    (hm : m ≠ p) :
    ((c.updateBlock p (fun pb =>
      { pb with kind := replaceJumpTargets pb.kind o n })).findBlock m) =
      c.findBlock m := by
  apply findBlock_update_other
  · intro b; rfl
  · exact hm

theorem stripFind_replaceJumpTarget (c : Compiler) (p o n : Nat) (m : Nat)
    (hm : m ≠ p) :
    ((fgReplaceJumpTarget c p o n).findBlock m).map strip =
      (c.findBlock m).map strip := by
  unfold fgReplaceJumpTarget
  rw [stripFind_predAppend, stripFind_removeOnePred,
    findBlock_kindRewrite_other _ p o n m hm]

theorem stripFind_replaceJumpFold (o n : Nat) :
    ∀ (ps : List Nat) (c : Compiler) (m : Nat), m ∉ ps →
      (((ps.foldl (fun acc p => fgReplaceJumpTarget acc p o n) c).findBlock
        m).map strip) = (c.findBlock m).map strip := by
  intro ps
  induction ps with
  | nil => intro c m _; rfl
  | cons hd tl ih =>
    intro c m hm
    rw [List.foldl_cons]
    rw [ih _ m (fun h => hm (List.mem_cons_of_mem _ h))]
    exact stripFind_replaceJumpTarget c hd o n m
      (fun h => hm (h ▸ List.mem_cons_self _ _))

theorem stripFind_replacePredFold (o n : Nat) :
    ∀ (ts : List Nat) (c : Compiler) (m : Nat),
      (((ts.foldl (fun acc t => fgReplacePred acc t o n) c).findBlock m).map
        strip) = (c.findBlock m).map strip := by
  intro ts
  induction ts with
  | nil => intro c m; rfl
  | cons hd tl ih =>
    intro c m
    rw [List.foldl_cons, ih _ m]
    exact stripFind_fgReplacePred c hd o n m

theorem replaceJumpTarget_map_bbNum (c : Compiler) (p o n : Nat) :
    (fgReplaceJumpTarget c p o n).blocks.map BasicBlock.bbNum =
      c.blocks.map BasicBlock.bbNum := by
  unfold fgReplaceJumpTarget
  rw [updateBlock_map_bbNum, removeOnePred_map_bbNum, updateBlock_map_bbNum]
  · intro b; rfl
  · intro b; rfl

theorem replaceJumpFold_map_bbNum (o n : Nat) :
    ∀ (ps : List Nat) (c : Compiler),
      ((ps.foldl (fun acc p => fgReplaceJumpTarget acc p o n) c).blocks.map
        BasicBlock.bbNum) = c.blocks.map BasicBlock.bbNum := by
  intro ps
  induction ps with
  | nil => intro c; rfl
  | cons hd tl ih =>
    intro c
    rw [List.foldl_cons, ih, replaceJumpTarget_map_bbNum]

theorem fgReplacePred_map_bbNum (c : Compiler) (t o n : Nat) :
    (fgReplacePred c t o n).blocks.map BasicBlock.bbNum =
      c.blocks.map BasicBlock.bbNum := by
  unfold fgReplacePred
  rw [updateBlock_map_bbNum]
  intro b; rfl

theorem replacePredFold_map_bbNum (o n : Nat) :
    ∀ (ts : List Nat) (c : Compiler),
      ((ts.foldl (fun acc t => fgReplacePred acc t o n) c).blocks.map
        BasicBlock.bbNum) = c.blocks.map BasicBlock.bbNum := by
  intro ts
  induction ts with
  | nil => intro c; rfl
  | cons hd tl ih =>
    intro c
    rw [List.foldl_cons, ih, fgReplacePred_map_bbNum]

theorem find?_filter_ne (m bNum : Nat) (hm : m ≠ bNum) :
    ∀ l : List BasicBlock,
      ((l.filter (fun blk => blk.bbNum ≠ bNum)).find?
        (fun b => b.bbNum = m)) = l.find? (fun b => b.bbNum = m) := by
  intro l
  induction l with
  | nil => rfl
  | cons a l ih =>
    rw [List.filter_cons]
    by_cases ha : a.bbNum = bNum
    · rw [if_neg (by simpa using ha)]
      rw [ih]
      have hpa : ¬ a.bbNum = m := fun h => hm ((h.symm.trans ha))
      rw [List.find?_cons_of_neg _ (by simpa using hpa)]
    · rw [if_pos (by simpa using ha)]
      by_cases hpa : a.bbNum = m
      · rw [List.find?_cons_of_pos _ (by simpa using hpa),
          List.find?_cons_of_pos _ (by simpa using hpa)]
      · rw [List.find?_cons_of_neg _ (by simpa using hpa),
          List.find?_cons_of_neg _ (by simpa using hpa)]
        exact ih

/-- The lexical-successor lookup expressed over the block-number list. -/
theorem bbNextNum_nums (c : Compiler) (n : Nat) :
    c.bbNextNum n =
      (match (c.blocks.map BasicBlock.bbNum).dropWhile (fun m => m ≠ n) with
       | _ :: nxt :: _ => some nxt
       | _ => none) := by
  unfold Compiler.bbNextNum
  rw [List.dropWhile_map]
  have hp : ((fun m => decide (m ≠ n)) ∘ BasicBlock.bbNum) =
      (fun b : BasicBlock => decide (b.bbNum ≠ n)) := rfl
  rw [hp]
  cases c.blocks.dropWhile (fun b => b.bbNum ≠ n) with
  | nil => rfl
  | cons hd tl => cases tl with
    | nil => rfl
    | cons hd2 tl2 => rfl

theorem dropWhile_ne_append (x : Nat) :
    ∀ (pre rest : List Nat), x ∉ pre →
      (pre ++ x :: rest).dropWhile (fun m => m ≠ x) = x :: rest := by
  intro pre
  induction pre with
  | nil =>
    intro rest _
    rw [List.nil_append, List.dropWhile_cons]
    simp
  | cons hd tl ih =>
    intro rest hx
    rw [List.cons_append, List.dropWhile_cons]
    have hne : hd ≠ x := fun h => hx (h ▸ List.mem_cons_self _ _)
    rw [if_pos (by simpa using hne)]
    exact ih rest (fun h => hx (List.mem_cons_of_mem _ h))

theorem bbNextNum_of_decomp (c : Compiler) (pre : List Nat) (x : Nat)
    (post : List Nat)
    (h : c.blocks.map BasicBlock.bbNum = pre ++ x :: post) (hx : x ∉ pre) :
    c.bbNextNum x = post.head? := by
  rw [bbNextNum_nums, h, dropWhile_ne_append x pre post hx]
  cases post with
  | nil => rfl
  | cons hd tl => rfl

/-- The composite record update `compactMerge` performs on the target
block. -/
def compactMergeRec (ab b2 : BasicBlock) : BasicBlock :=
  let a3 := { ab with stmts := compactStmts ab.stmts b2.stmts }
  let a4 := compactWeight a3 b2
  let a5 := { a4 with
      bbLiveOut := b2.bbLiveOut,
      bbCodeOffs := mergeOffsLo a4.bbCodeOffs b2.bbCodeOffs,
      bbCodeOffsEnd := mergeOffsHi a4.bbCodeOffsEnd b2.bbCodeOffsEnd }
  let a6 := if a5.flags.internalFlag && !b2.flags.internalFlag then
              { a5 with flags := { a5.flags with
                  internalFlag := false, importedFlag := true } }
            else a5
  { a6 with flags := { a6.flags with
      loopPreheader := a6.flags.loopPreheader || b2.flags.loopPreheader,
      gcSafePoint := a6.flags.gcSafePoint || b2.flags.gcSafePoint } }

theorem compactWeight_stmts (ab b2 : BasicBlock) :
    (compactWeight ab b2).stmts = ab.stmts := by
  unfold compactWeight BasicBlock.bbSetRunRarely BasicBlock.setBBProfileWeight
  dsimp only
  split
  · rfl
  · split
    · split <;> rfl
    · rfl

theorem compactWeight_throw (ab b2 : BasicBlock) (h : b2.kind = BBKind.bthrow) :
    (compactWeight ab b2).bbWeight = 0 ∧
    (compactWeight ab b2).flags.runRarely = true := by
  unfold compactWeight
  rw [h]
  exact ⟨rfl, rfl⟩

theorem compactWeight_bothZero (ab b2 : BasicBlock)
    (h : b2.kind ≠ BBKind.bthrow) (hz1 : ab.bbWeight = 0)
    (hz2 : b2.bbWeight = 0) :
    (compactWeight ab b2).bbWeight = 0 ∧
    (compactWeight ab b2).flags.runRarely = true := by
  unfold compactWeight
  cases hk : b2.kind <;>
    first
      | exact absurd hk h
      | (dsimp only
         by_cases hp : (ab.flags.profWeight || b2.flags.profWeight) = true
         · simp [hp, hz1, hz2, BasicBlock.setBBProfileWeight]
         · rw [Bool.not_eq_true] at hp
           simp [hp, hz1, hz2, BasicBlock.bbSetRunRarely])

theorem compactWeight_max (ab b2 : BasicBlock)
    (h : b2.kind ≠ BBKind.bthrow)
    (hnz : ¬ (ab.bbWeight = 0 ∧ b2.bbWeight = 0)) :
    (compactWeight ab b2).bbWeight = max ab.bbWeight b2.bbWeight := by
  have hnn : (decide (ab.bbWeight > 0) || decide (b2.bbWeight > 0)) = true := by
    rcases Nat.eq_zero_or_pos ab.bbWeight with h1 | h1
    · rcases Nat.eq_zero_or_pos b2.bbWeight with h2 | h2
      · exact absurd ⟨h1, h2⟩ hnz
      · simp [h2]
    · simp [h1]
  unfold compactWeight
  cases hk : b2.kind <;>
    first
      | exact absurd hk h
      | (dsimp only
         by_cases hp : (ab.flags.profWeight || b2.flags.profWeight) = true
         · simp [hp, BasicBlock.setBBProfileWeight]
         · rw [Bool.not_eq_true] at hp
           simp [hp, hnn, BasicBlock.bbSetRunRarely])

theorem compactWeight_bbNum (ab b2 : BasicBlock) :
    (compactWeight ab b2).bbNum = ab.bbNum := by
  unfold compactWeight BasicBlock.bbSetRunRarely BasicBlock.setBBProfileWeight
  dsimp only
  split
  · rfl
  · split
    · split <;> rfl
    · rfl

theorem compactMergeRec_stmts (ab b2 : BasicBlock) :
    (compactMergeRec ab b2).stmts = compactStmts ab.stmts b2.stmts := by
  unfold compactMergeRec
  dsimp only
  split
  · exact compactWeight_stmts _ _
  · exact compactWeight_stmts _ _

theorem compactMergeRec_wrr (ab b2 : BasicBlock) :
    (compactMergeRec ab b2).bbWeight =
      (compactWeight { ab with stmts := compactStmts ab.stmts b2.stmts }
        b2).bbWeight ∧
    (compactMergeRec ab b2).flags.runRarely =
      (compactWeight { ab with stmts := compactStmts ab.stmts b2.stmts }
        b2).flags.runRarely := by
  unfold compactMergeRec
  dsimp only
  constructor
  · split <;> rfl
  · split <;> rfl

/-- The statement splice of compaction preserves the statement multiset. -/
theorem compactStmts_perm (l1 l2 : List Statement) :
    (compactStmts l1 l2).Perm (l1 ++ l2) := by
  unfold compactStmts
  dsimp only
  have hsplit1 : l1.takeWhile (fun s => s.isPhiDef) ++
      l1.dropWhile (fun s => s.isPhiDef) = l1 :=
    List.takeWhile_append_dropWhile _ _
  have hsplit2 : l2.takeWhile (fun s => s.isPhiDef) ++
      l2.dropWhile (fun s => s.isPhiDef) = l2 :=
    List.takeWhile_append_dropWhile _ _
  by_cases h2 : (l2.isEmpty ||
      (l2.takeWhile (fun s => s.isPhiDef)).isEmpty) = true
  · rw [if_pos h2]
  · rw [if_neg h2]
    by_cases h1 : l1.isEmpty = true
    · rw [if_pos h1]
      have : l1 = [] := by simpa using h1
      subst this
      simp
    · rw [if_neg h1]
      by_cases hp1 : (l1.takeWhile (fun s => s.isPhiDef)).isEmpty = true
      · rw [if_pos hp1]
        rw [List.perm_iff_count]
        intro x
        have c2 : l2.count x = (l2.takeWhile (fun s => s.isPhiDef)).count x +
            (l2.dropWhile (fun s => s.isPhiDef)).count x := by
          rw [← List.count_append, hsplit2]
        simp only [List.count_append]
        omega
      · rw [if_neg hp1]
        rw [List.perm_iff_count]
        intro x
        have c1 : l1.count x = (l1.takeWhile (fun s => s.isPhiDef)).count x +
            (l1.dropWhile (fun s => s.isPhiDef)).count x := by
          rw [← List.count_append, hsplit1]
        have c2 : l2.count x = (l2.takeWhile (fun s => s.isPhiDef)).count x +
            (l2.dropWhile (fun s => s.isPhiDef)).count x := by
          rw [← List.count_append, hsplit2]
        simp only [List.count_append]
        omega

/-- The successor list of a block as a function of its kind and lexical
successor. -/
def kindSuccs : BBKind → Option Nat → List Nat
  | .always t, _ => [t]
  | .cond t, some nxt => [nxt, t]
  | .cond t, none => [t]
  | .swtch tb, _ => tb
  | .ret, _ => []
  | .bthrow, _ => []
  | .callFinally t, some nxt => [t, nxt]
  | .callFinally t, none => [t]
  | .ehFinallyRet ts, _ => ts
  | .ehFaultRet, _ => []
  | .ehFilterRet t, _ => [t]
  | .ehCatchRet t, _ => [t]

theorem succsOf_kindSuccs (c : Compiler) (b : BasicBlock) :
    succsOf c b = kindSuccs b.kind (c.bbNextNum b.bbNum) := by
  unfold succsOf kindSuccs
  cases b.kind <;> cases c.bbNextNum b.bbNum <;> rfl

/-- The compaction-relevant projection of a block record: number, kind,
statements, weight, and the rarely-run bit. -/
def core (b : BasicBlock) : Nat × BBKind × List Statement × Nat × Bool :=
  (b.bbNum, b.kind, b.stmts, b.bbWeight, b.flags.runRarely)

theorem coreFind_update_pred (c : Compiler) (n : Nat) (f)
    (hf : ∀ b, (f b).bbNum = b.bbNum)
    (hs : ∀ b, core (f b) = core b) (m : Nat) :
    ((c.updateBlock n f).findBlock m).map core =
      (c.findBlock m).map core := by
  rw [findBlock_updateBlock c n f hf m]
  cases hfind : c.findBlock m with
  | none => rfl
  | some b =>
    by_cases hb : b.bbNum = n
    · simp [hb, hs]
    · simp [hb]

theorem coreFind_fgReplacePred (c : Compiler) (t o n : Nat) (m : Nat) :
    ((fgReplacePred c t o n).findBlock m).map core =
      (c.findBlock m).map core := by
  apply coreFind_update_pred
  · intro b; rfl
  · intro b; rfl

theorem coreFind_replacePredFold (o n : Nat) :
    ∀ (ts : List Nat) (c : Compiler) (m : Nat),
      (((ts.foldl (fun acc t => fgReplacePred acc t o n) c).findBlock m).map
        core) = (c.findBlock m).map core := by
  intro ts
  induction ts with
  | nil => intro c m; rfl
  | cons hd tl ih =>
    intro c m
    rw [List.foldl_cons, ih _ m]
    exact coreFind_fgReplacePred c hd o n m

theorem compactRetarget_map_bbNum (c : Compiler) (aNum bNum : Nat) :
    (compactRetarget c aNum bNum).blocks.map BasicBlock.bbNum =
      c.blocks.map BasicBlock.bbNum := by
  unfold compactRetarget
  dsimp only
  by_cases h : ((((removeOnePred c bNum aNum).findBlock bNum).map
      BasicBlock.bbPreds).getD []).isEmpty = true
  · rw [if_pos h, removeOnePred_map_bbNum]
  · rw [if_neg h, replaceJumpFold_map_bbNum, updateBlock_map_bbNum,
      removeOnePred_map_bbNum]
    intro b; rfl

theorem compactRetarget_stripFind_b (c : Compiler) (aNum bNum : Nat)
    (b : BasicBlock) (hfb : c.findBlock bNum = some b)
    (hne : aNum ≠ bNum) (hbsp : bNum ∉ b.bbPreds) :
    ((compactRetarget c aNum bNum).findBlock bNum).map strip =
      some (strip b) := by
  unfold compactRetarget
  dsimp only
  have hc1 : (removeOnePred c bNum aNum).findBlock bNum =
      some { b with bbPreds := b.bbPreds.erase aNum,
                    bbRefs := b.bbRefs - 1 } := by
    unfold removeOnePred
    rw [findBlock_update_self]
    · rw [hfb]; rfl
    · intro x; rfl
  by_cases h : ((((removeOnePred c bNum aNum).findBlock bNum).map
      BasicBlock.bbPreds).getD []).isEmpty = true
  · rw [if_pos h, hc1]
    rfl
  · rw [if_neg h]
    have hrest : (((removeOnePred c bNum aNum).findBlock bNum).map
        BasicBlock.bbPreds).getD [] = b.bbPreds.erase aNum := by
      rw [hc1]
      rfl
    have hbn : bNum ∉ (((removeOnePred c bNum aNum).findBlock bNum).map
        BasicBlock.bbPreds).getD [] := by
      rw [hrest]
      exact fun hmem => hbsp (List.mem_of_mem_erase hmem)
    rw [stripFind_replaceJumpFold bNum aNum _ _ bNum hbn]
    rw [findBlock_update_other _ aNum (fun ab =>
      { ab with flags := { ab.flags with loopPreheader := false } })
      (fun _ => rfl) bNum (Ne.symm hne)]
    rw [hc1]
    rfl

theorem compactRetarget_stripFind_a (c : Compiler) (aNum bNum : Nat)
    (a b : BasicBlock) (hfa : c.findBlock aNum = some a)
    (hfb : c.findBlock bNum = some b) (hne : aNum ≠ bNum)
    (hasp : aNum ∉ b.bbPreds.erase aNum) :
    ((compactRetarget c aNum bNum).findBlock aNum).map strip =
      some (strip a) ∨
    ((compactRetarget c aNum bNum).findBlock aNum).map strip =
      some (strip { a with flags := { a.flags with loopPreheader := false } }) := by
  unfold compactRetarget
  dsimp only
  have hc1 : (removeOnePred c bNum aNum).findBlock bNum =
      some { b with bbPreds := b.bbPreds.erase aNum,
                    bbRefs := b.bbRefs - 1 } := by
    unfold removeOnePred
    rw [findBlock_update_self]
    · rw [hfb]; rfl
    · intro x; rfl
  have hc1a : (removeOnePred c bNum aNum).findBlock aNum = some a := by
    unfold removeOnePred
    rw [findBlock_update_other _ bNum (fun tb =>
      { tb with bbPreds := tb.bbPreds.erase aNum, bbRefs := tb.bbRefs - 1 })
      (fun _ => rfl) aNum hne]
    exact hfa
  by_cases h : ((((removeOnePred c bNum aNum).findBlock bNum).map
      BasicBlock.bbPreds).getD []).isEmpty = true
  · rw [if_pos h, hc1a]
    exact Or.inl rfl
  · rw [if_neg h]
    have hrest : (((removeOnePred c bNum aNum).findBlock bNum).map
        BasicBlock.bbPreds).getD [] = b.bbPreds.erase aNum := by
      rw [hc1]
      rfl
    have han : aNum ∉ (((removeOnePred c bNum aNum).findBlock bNum).map
        BasicBlock.bbPreds).getD [] := by
      rw [hrest]
      exact hasp
    rw [stripFind_replaceJumpFold bNum aNum _ _ aNum han]
    refine Or.inr ?_
    rw [findBlock_update_self]
    · rw [hc1a]
      rfl
    · intro x; rfl

theorem compactMerge_findBlock_a (c2 : Compiler) (aNum : Nat)
    (b2 : BasicBlock) (amr : BasicBlock)
    (hamr : c2.findBlock aNum = some amr) :
    (compactMerge c2 aNum b2).findBlock aNum =
      some (compactMergeRec amr b2) := by
  unfold compactMerge
  dsimp only
  rw [findBlock_update_self, findBlock_update_self, findBlock_update_self,
    findBlock_update_self, findBlock_update_self]
  · rw [hamr]
    rfl
  all_goals
    intro x
    first
      | rfl
      | exact compactWeight_bbNum x b2
      | (dsimp only; split <;> rfl)

theorem compactMerge_map_bbNum (c2 : Compiler) (aNum : Nat)
    (b2 : BasicBlock) :
    (compactMerge c2 aNum b2).blocks.map BasicBlock.bbNum =
      c2.blocks.map BasicBlock.bbNum := by
  unfold compactMerge
  dsimp only
  rw [updateBlock_map_bbNum, updateBlock_map_bbNum, updateBlock_map_bbNum,
    updateBlock_map_bbNum, updateBlock_map_bbNum]
  all_goals
    intro x
    first
      | rfl
      | exact compactWeight_bbNum x b2
      | (dsimp only; split <;> rfl)

theorem findBlock_unlink (c : Compiler) (bNum m : Nat) (hm : m ≠ bNum) :
    (compactUnlink c bNum).findBlock m = c.findBlock m := by
  unfold compactUnlink Compiler.findBlock
  exact find?_filter_ne m bNum hm c.blocks

theorem compactTakeover_coreFind_a (c8 : Compiler) (aNum bNum : Nat)
    (nextOfB : Option Nat) (b2 : BasicBlock) (ar : BasicBlock)
    (har : c8.findBlock aNum = some ar) :
    ((compactTakeover c8 aNum bNum nextOfB b2).findBlock aNum).map core =
      some (ar.bbNum, b2.kind, ar.stmts, ar.bbWeight, ar.flags.runRarely) := by
  unfold compactTakeover
  cases hk : b2.kind with
  | callFinally t =>
    dsimp only
    rw [coreFind_fgReplacePred, findBlock_update_self]
    · rw [har]
      rfl
    · intro x; rfl
  | always t =>
    dsimp only
    rw [coreFind_fgReplacePred, findBlock_update_self]
    · rw [har]
      rfl
    · intro x; rfl
  | cond t =>
    dsimp only
    by_cases hcnd : (nextOfB != some t) = true
    · rw [if_pos hcnd]
      cases nextOfB with
      | some nn =>
        rw [coreFind_fgReplacePred, coreFind_fgReplacePred,
          findBlock_update_self]
        · rw [har]
          rfl
        · intro x; rfl
      | none =>
        rw [coreFind_fgReplacePred, findBlock_update_self]
        · rw [har]
          rfl
        · intro x; rfl
    · rw [if_neg hcnd]
      rw [coreFind_fgReplacePred, findBlock_update_self]
      · rw [har]
        rfl
      · intro x; rfl
  | ehCatchRet t =>
    dsimp only
    rw [coreFind_fgReplacePred, findBlock_update_self]
    · rw [har]
      rfl
    · intro x; rfl
  | ehFilterRet t =>
    dsimp only
    rw [coreFind_fgReplacePred, findBlock_update_self]
    · rw [har]
      rfl
    · intro x; rfl
  | ehFinallyRet ts =>
    dsimp only
    rw [coreFind_replacePredFold, findBlock_update_self]
    · rw [har]
      rfl
    · intro x; rfl
  | swtch tb =>
    dsimp only
    rw [coreFind_replacePredFold, findBlock_update_self]
    · rw [har]
      rfl
    · intro x; rfl
  | ret =>
    dsimp only
    rw [findBlock_update_self]
    · rw [har]
      rfl
    · intro x; rfl
  | bthrow =>
    dsimp only
    rw [findBlock_update_self]
    · rw [har]
      rfl
    · intro x; rfl
  | ehFaultRet =>
    dsimp only
    rw [findBlock_update_self]
    · rw [har]
      rfl
    · intro x; rfl

theorem compactTakeover_map_bbNum (c8 : Compiler) (aNum bNum : Nat)
    (nextOfB : Option Nat) (b2 : BasicBlock) :
    (compactTakeover c8 aNum bNum nextOfB b2).blocks.map BasicBlock.bbNum =
      c8.blocks.map BasicBlock.bbNum := by
  unfold compactTakeover
  cases hk : b2.kind with
  | callFinally t =>
    dsimp only
    rw [fgReplacePred_map_bbNum, updateBlock_map_bbNum]
    intro x; rfl
  | always t =>
    dsimp only
    rw [fgReplacePred_map_bbNum, updateBlock_map_bbNum]
    intro x; rfl
  | cond t =>
    dsimp only
    by_cases hcnd : (nextOfB != some t) = true
    · rw [if_pos hcnd]
      cases nextOfB with
      | some nn =>
        rw [fgReplacePred_map_bbNum, fgReplacePred_map_bbNum,
          updateBlock_map_bbNum]
        intro x; rfl
      | none =>
        rw [fgReplacePred_map_bbNum, updateBlock_map_bbNum]
        intro x; rfl
    · rw [if_neg hcnd]
      rw [fgReplacePred_map_bbNum, updateBlock_map_bbNum]
      intro x; rfl
  | ehCatchRet t =>
    dsimp only
    rw [fgReplacePred_map_bbNum, updateBlock_map_bbNum]
    intro x; rfl
  | ehFilterRet t =>
    dsimp only
    rw [fgReplacePred_map_bbNum, updateBlock_map_bbNum]
    intro x; rfl
  | ehFinallyRet ts =>
    dsimp only
    rw [replacePredFold_map_bbNum, updateBlock_map_bbNum]
    intro x; rfl
  | swtch tb =>
    dsimp only
    rw [replacePredFold_map_bbNum, updateBlock_map_bbNum]
    intro x; rfl
  | ret =>
    dsimp only
    rw [updateBlock_map_bbNum]
    intro x; rfl
  | bthrow =>
    dsimp only
    rw [updateBlock_map_bbNum]
    intro x; rfl
  | ehFaultRet =>
    dsimp only
    rw [updateBlock_map_bbNum]
    intro x; rfl

theorem compactAlign_coreFind (c9 : Compiler) (aNum : Nat) (b2 : BasicBlock)
    (m : Nat) :
    ((compactAlign c9 aNum b2).findBlock m).map core =
      (c9.findBlock m).map core := by
  unfold compactAlign
  dsimp only
  by_cases h2 : b2.flags.loopAlign = true
  · rw [if_pos h2]
    rw [coreFind_update_pred]
    · by_cases h1 : (match b2.kind with
        | BBKind.cond t => isLoopAlignTarget c9 t
        | BBKind.always t => isLoopAlignTarget c9 t
        | _ => false) = true
      · rw [if_pos h1]
        apply coreFind_update_pred
        · intro x; rfl
        · intro x; rfl
      · rw [if_neg h1]
    · intro x; rfl
    · intro x; rfl
  · rw [if_neg h2]
    by_cases h1 : (match b2.kind with
        | BBKind.cond t => isLoopAlignTarget c9 t
        | BBKind.always t => isLoopAlignTarget c9 t
        | _ => false) = true
    · rw [if_pos h1]
      apply coreFind_update_pred
      · intro x; rfl
      · intro x; rfl
    · rw [if_neg h1]

theorem compactAlign_map_bbNum (c9 : Compiler) (aNum : Nat)
    (b2 : BasicBlock) :
    (compactAlign c9 aNum b2).blocks.map BasicBlock.bbNum =
      c9.blocks.map BasicBlock.bbNum := by
  unfold compactAlign
  dsimp only
  by_cases h2 : b2.flags.loopAlign = true
  · rw [if_pos h2]
    rw [updateBlock_map_bbNum]
    · by_cases h1 : (match b2.kind with
        | BBKind.cond t => isLoopAlignTarget c9 t
        | BBKind.always t => isLoopAlignTarget c9 t
        | _ => false) = true
      · rw [if_pos h1]
        rw [updateBlock_map_bbNum]
        intro x; rfl
      · rw [if_neg h1]
    · intro x; rfl
  · rw [if_neg h2]
    by_cases h1 : (match b2.kind with
        | BBKind.cond t => isLoopAlignTarget c9 t
        | BBKind.always t => isLoopAlignTarget c9 t
        | _ => false) = true
    · rw [if_pos h1]
      rw [updateBlock_map_bbNum]
      intro x; rfl
    · rw [if_neg h1]

theorem compactRenumber_doms_false (c11 : Compiler)
    (domCount aNum bNum : Nat) (b2 : BasicBlock) :
    compactRenumber c11 false domCount aNum bNum b2 = c11 := by
  unfold compactRenumber
  simp

theorem findBlock_updateLoops (c : Compiler) (x y m : Nat) :
    (fgUpdateLoopsAfterCompacting c x y).findBlock m = c.findBlock m := rfl

theorem updateLoops_map_bbNum (c : Compiler) (x y : Nat) :
    (fgUpdateLoopsAfterCompacting c x y).blocks.map BasicBlock.bbNum =
      c.blocks.map BasicBlock.bbNum := rfl

theorem bbNextNum_updateLoops (c : Compiler) (x y n : Nat) :
    (fgUpdateLoopsAfterCompacting c x y).bbNextNum n = c.bbNextNum n := rfl

theorem compactMergeRec_bbNum (ab b2 : BasicBlock) :
    (compactMergeRec ab b2).bbNum = ab.bbNum := by
  unfold compactMergeRec
  dsimp only
  split
  · exact compactWeight_bbNum _ _
  · exact compactWeight_bbNum _ _

theorem map_bbNum_filter_ne (bNum : Nat) :
    ∀ l : List BasicBlock,
      (l.filter (fun blk => blk.bbNum ≠ bNum)).map BasicBlock.bbNum =
        (l.map BasicBlock.bbNum).filter (fun x => x ≠ bNum) := by
  intro l
  induction l with
  | nil => rfl
  | cons a l ih =>
    rw [List.map_cons, List.filter_cons, List.filter_cons]
    by_cases h : a.bbNum = bNum
    · rw [if_neg (by simpa using h), if_neg (by simpa using h)]
      exact ih
    · rw [if_pos (by simpa using h), if_pos (by simpa using h)]
      rw [List.map_cons, ih]

theorem filter_ne_decomp (pre post : List Nat) (aNum bNum : Nat)
    (hbpre : bNum ∉ pre) (hba : aNum ≠ bNum) (hbpost : bNum ∉ post) :
    (pre ++ aNum :: bNum :: post).filter (fun x => x ≠ bNum) =
      pre ++ aNum :: post := by
  rw [List.filter_append, List.filter_cons, List.filter_cons]
  rw [if_pos (by simpa using hba)]
  rw [if_neg (by simp)]
  have hpre : pre.filter (fun x => x ≠ bNum) = pre :=
    List.filter_eq_self.mpr (fun x hx => by
      simp only [ne_eq, decide_eq_true_eq]
      exact fun h => hbpre (h ▸ hx))
  have hpost : post.filter (fun x => x ≠ bNum) = post :=
    List.filter_eq_self.mpr (fun x hx => by
      simp only [ne_eq, decide_eq_true_eq]
      exact fun h => hbpost (h ▸ hx))
  rw [hpre, hpost]

/-- C4: with `fgCanCompactBlocks` granting the precondition,
`fgCompactBlocks` keeps the multiset of statements (the second
block&apos;s are spliced into the first, none dropped), gives the first
block exactly the second&apos;s prior successor list (it takes over the
jump kind and targets, and the second&apos;s lexical successor becomes
its own), deletes the second block from the block list, and merges the
weight: run-rarely when the second block is a throw block or both
weights are zero, otherwise the maximum of the two weights. Stated
outside the dominator-renumbering epoch (`fgDomsComputed = false`);
the structural hypotheses say the two blocks are adjacent, block
numbers are unique, and the second block is not its own predecessor
and counts the first among its predecessors at most once. -/
theorem claimC4_compaction (c : Compiler) (a b : BasicBlock)
    (pre post : List Nat)
    (hnums : c.blocks.map BasicBlock.bbNum = pre ++ a.bbNum :: b.bbNum :: post)
    (hnd : (c.blocks.map BasicBlock.bbNum).Nodup)
    (hfa : c.findBlock a.bbNum = some a)
    (hfb : c.findBlock b.bbNum = some b)
    (hcan : fgCanCompactBlocks c a b = true)
    (hselfp : a.bbNum ∉ b.bbPreds.erase a.bbNum)
    (hbsp : b.bbNum ∉ b.bbPreds)
    (hdoms : c.fgDomsComputed = false) :
    ∃ a2, (fgCompactBlocks c a.bbNum).findBlock a.bbNum = some a2 ∧
      a2.stmts.Perm (a.stmts ++ b.stmts) ∧
      succsOf (fgCompactBlocks c a.bbNum) a2 = succsOf c b ∧
      (fgCompactBlocks c a.bbNum).blocks.map BasicBlock.bbNum =
        pre ++ a.bbNum :: post ∧
      (b.kind = BBKind.bthrow →
        a2.bbWeight = 0 ∧ a2.flags.runRarely = true) ∧
      (b.kind ≠ BBKind.bthrow → a.bbWeight = 0 → b.bbWeight = 0 →
        a2.bbWeight = 0 ∧ a2.flags.runRarely = true) ∧
      (b.kind ≠ BBKind.bthrow → ¬ (a.bbWeight = 0 ∧ b.bbWeight = 0) →
        a2.bbWeight = max a.bbWeight b.bbWeight) := by
  have hnd2 := hnd
  rw [hnums] at hnd2
  rw [List.nodup_append] at hnd2
  obtain ⟨-, hnd3, hdisj⟩ := hnd2
  rw [List.nodup_cons] at hnd3
  obtain ⟨ha1, hnd4⟩ := hnd3
  rw [List.nodup_cons] at hnd4
  obtain ⟨hbpost, -⟩ := hnd4
  have hne : a.bbNum ≠ b.bbNum := fun h => ha1 (h ▸ List.mem_cons_self _ _)
  have hapre : a.bbNum ∉ pre := fun h => hdisj h (List.mem_cons_self _ _)
  have hbpre : b.bbNum ∉ pre := fun h =>
    hdisj h (List.mem_cons_of_mem _ (List.mem_cons_self _ _))
  have hnext : c.bbNextNum a.bbNum = some b.bbNum := by
    rw [bbNextNum_of_decomp c pre a.bbNum (b.bbNum :: post) hnums hapre]
    rfl
  have hnextb : c.bbNextNum b.bbNum = post.head? := by
    have hnums2 : c.blocks.map BasicBlock.bbNum =
        (pre ++ [a.bbNum]) ++ b.bbNum :: post := by
      rw [hnums]
      simp
    refine bbNextNum_of_decomp c (pre ++ [a.bbNum]) b.bbNum post hnums2 ?_
    intro hmem
    rcases List.mem_append.mp hmem with h | h
    · exact hbpre h
    · simp at h
      exact hne h.symm
  unfold fgCompactBlocks
  rw [hfa, hnext]
  dsimp only
  rw [hfb]
  dsimp only
  rw [hdoms]
  simp only [Bool.false_and, Bool.false_eq_true, if_false,
    compactRenumber_doms_false]
  obtain ⟨br, hbr, hbrs⟩ : ∃ br,
      (compactRetarget c a.bbNum b.bbNum).findBlock b.bbNum = some br ∧
        strip br = strip b := by
    have h0 := compactRetarget_stripFind_b c a.bbNum b.bbNum b hfb hne hbsp
    cases hh : (compactRetarget c a.bbNum b.bbNum).findBlock b.bbNum with
    | none => rw [hh] at h0; simp at h0
    | some x =>
      rw [hh] at h0
      exact ⟨x, rfl, by simpa using h0⟩
  have hb2 : ((compactRetarget c a.bbNum b.bbNum).findBlock b.bbNum).getD b =
      br := by
    rw [hbr]
    rfl
  rw [hb2]
  have hbk : br.kind = b.kind := by
    have h0 := congrArg BasicBlock.kind hbrs
    exact h0
  have hbst : br.stmts = b.stmts := by
    have h0 := congrArg BasicBlock.stmts hbrs
    exact h0
  have hbwt : br.bbWeight = b.bbWeight := by
    have h0 := congrArg BasicBlock.bbWeight hbrs
    exact h0
  obtain ⟨amr, hamr, hstma, hwta, hprofa⟩ : ∃ amr,
      (compactRetarget c a.bbNum b.bbNum).findBlock a.bbNum = some amr ∧
        amr.stmts = a.stmts ∧ amr.bbWeight = a.bbWeight ∧
        amr.flags.profWeight = a.flags.profWeight := by
    rcases compactRetarget_stripFind_a c a.bbNum b.bbNum a b hfa hfb hne
        hselfp with h0 | h0 <;>
      (cases hh : (compactRetarget c a.bbNum b.bbNum).findBlock a.bbNum with
       | none => rw [hh] at h0; simp at h0
       | some x =>
         rw [hh] at h0
         have hx := Option.some.inj h0
         refine ⟨x, rfl, ?_, ?_, ?_⟩
         · have h1 := congrArg BasicBlock.stmts hx
           exact h1
         · have h1 := congrArg BasicBlock.bbWeight hx
           exact h1
         · have h1 := congrArg (fun y => y.flags.profWeight) hx
           exact h1)
  have hm7 := compactMerge_findBlock_a (compactRetarget c a.bbNum b.bbNum)
    a.bbNum br amr hamr
  have hm8 : ((compactUnlink (compactMerge (compactRetarget c a.bbNum
        b.bbNum) a.bbNum br) b.bbNum).findBlock a.bbNum)
      = some (compactMergeRec amr br) := by
    rw [findBlock_unlink _ b.bbNum a.bbNum hne]
    exact hm7
  have hcore9 := compactTakeover_coreFind_a
    (compactUnlink (compactMerge (compactRetarget c a.bbNum b.bbNum)
      a.bbNum br) b.bbNum)
    a.bbNum b.bbNum (c.bbNextNum b.bbNum) br (compactMergeRec amr br) hm8
  have hcore11 : ((compactAlign (compactTakeover
      (compactUnlink (compactMerge (compactRetarget c a.bbNum b.bbNum)
        a.bbNum br) b.bbNum)
      a.bbNum b.bbNum (c.bbNextNum b.bbNum) br) a.bbNum br).findBlock
        a.bbNum).map core =
      some ((compactMergeRec amr br).bbNum, br.kind,
        (compactMergeRec amr br).stmts, (compactMergeRec amr br).bbWeight,
        (compactMergeRec amr br).flags.runRarely) := by
    rw [compactAlign_coreFind]
    exact hcore9
  obtain ⟨a2, ha2, ha2core⟩ : ∃ a2,
      (compactAlign (compactTakeover
        (compactUnlink (compactMerge (compactRetarget c a.bbNum b.bbNum)
          a.bbNum br) b.bbNum)
        a.bbNum b.bbNum (c.bbNextNum b.bbNum) br) a.bbNum br).findBlock
          a.bbNum = some a2 ∧
      core a2 = ((compactMergeRec amr br).bbNum, br.kind,
        (compactMergeRec amr br).stmts, (compactMergeRec amr br).bbWeight,
        (compactMergeRec amr br).flags.runRarely) := by
    cases hh : (compactAlign (compactTakeover
        (compactUnlink (compactMerge (compactRetarget c a.bbNum b.bbNum)
          a.bbNum br) b.bbNum)
        a.bbNum b.bbNum (c.bbNextNum b.bbNum) br) a.bbNum br).findBlock
          a.bbNum with
    | none => rw [hh] at hcore11; simp at hcore11
    | some x =>
      rw [hh] at hcore11
      exact ⟨x, rfl, by simpa using hcore11⟩
  have ha2num : a2.bbNum = a.bbNum := by
    have h1 := congrArg (fun y => y.1) ha2core
    dsimp only [core] at h1
    rw [h1, compactMergeRec_bbNum]
    exact findBlock_some_num _ _ _ hamr
  have ha2kind : a2.kind = b.kind := by
    have h1 := congrArg (fun y => y.2.1) ha2core
    dsimp only [core] at h1
    rw [h1, hbk]
  have ha2stmts : a2.stmts = compactStmts a.stmts b.stmts := by
    have h1 := congrArg (fun y => y.2.2.1) ha2core
    dsimp only [core] at h1
    rw [h1, compactMergeRec_stmts, hstma, hbst]
  have ha2wt : a2.bbWeight =
      (compactWeight { amr with stmts := compactStmts amr.stmts br.stmts }
        br).bbWeight := by
    have h1 := congrArg (fun y => y.2.2.2.1) ha2core
    dsimp only [core] at h1
    rw [h1]
    exact (compactMergeRec_wrr amr br).1
  have ha2rr : a2.flags.runRarely =
      (compactWeight { amr with stmts := compactStmts amr.stmts br.stmts }
        br).flags.runRarely := by
    have h1 := congrArg (fun y => y.2.2.2.2) ha2core
    dsimp only [core] at h1
    rw [h1]
    exact (compactMergeRec_wrr amr br).2
  have hmapfinal : (compactAlign (compactTakeover
      (compactUnlink (compactMerge (compactRetarget c a.bbNum b.bbNum)
        a.bbNum br) b.bbNum)
      a.bbNum b.bbNum (c.bbNextNum b.bbNum) br) a.bbNum br).blocks.map
        BasicBlock.bbNum = pre ++ a.bbNum :: post := by
    rw [compactAlign_map_bbNum, compactTakeover_map_bbNum]
    show ((compactMerge (compactRetarget c a.bbNum b.bbNum) a.bbNum
        br).blocks.filter (fun blk => blk.bbNum ≠ b.bbNum)).map
          BasicBlock.bbNum = pre ++ a.bbNum :: post
    rw [map_bbNum_filter_ne, compactMerge_map_bbNum, compactRetarget_map_bbNum,
      hnums]
    exact filter_ne_decomp pre post a.bbNum b.bbNum hbpre hne hbpost
  have hnextfinal : (fgUpdateLoopsAfterCompacting (compactAlign
      (compactTakeover (compactUnlink (compactMerge (compactRetarget c
        a.bbNum b.bbNum) a.bbNum br) b.bbNum)
        a.bbNum b.bbNum (c.bbNextNum b.bbNum) br) a.bbNum br)
      a.bbNum b.bbNum).bbNextNum a.bbNum = post.head? := by
    rw [bbNextNum_updateLoops]
    exact bbNextNum_of_decomp _ pre a.bbNum post hmapfinal hapre
  refine ⟨a2, ha2, ?_, ?_, ?_, ?_, ?_, ?_⟩
  · rw [ha2stmts]
    exact compactStmts_perm a.stmts b.stmts
  · rw [succsOf_kindSuccs, succsOf_kindSuccs, ha2kind, ha2num, hnextfinal,
      hnextb]
  · rw [updateLoops_map_bbNum]
    exact hmapfinal
  · intro hthrow
    have h0 := compactWeight_throw
      { amr with stmts := compactStmts amr.stmts br.stmts } br
      (by rw [hbk]; exact hthrow)
    exact ⟨ha2wt.trans h0.1, ha2rr.trans h0.2⟩
  · intro hnothrow hz1 hz2
    have h0 := compactWeight_bothZero
      { amr with stmts := compactStmts amr.stmts br.stmts } br
      (by rw [hbk]; exact hnothrow)
      (by show amr.bbWeight = 0; rw [hwta]; exact hz1)
      (by rw [hbwt]; exact hz2)
    exact ⟨ha2wt.trans h0.1, ha2rr.trans h0.2⟩
  · intro hnothrow hnz
    have h0 := compactWeight_max
      { amr with stmts := compactStmts amr.stmts br.stmts } br
      (by rw [hbk]; exact hnothrow)
      (by
        intro hcon
        refine hnz ⟨?_, ?_⟩
        · have := hcon.1
          rw [show ({ amr with stmts := compactStmts amr.stmts br.stmts }
            : BasicBlock).bbWeight = amr.bbWeight from rfl, hwta] at this
          exact this
        · have := hcon.2
          rw [hbwt] at this
          exact this)
    rw [ha2wt, h0]
    show max amr.bbWeight br.bbWeight = max a.bbWeight b.bbWeight
    rw [hwta, hbwt]

/-- A four-block state exercising compaction: block 1 unconditionally
jumps to its lexical successor 2 (one incoming edge), which is a
conditional block targeting block 4 and falling through to block 3. -/
def cexC4a : BasicBlock :=
  { bbNum := 1, kind := .always 2,
    stmts := [ { sid := 10, isPhiDef := false,
                 rootNode := .leafOp 1 false } ],
    bbPreds := [], bbRefs := 1, bbWeight := 2 }

def cexC4b : BasicBlock :=
  { bbNum := 2, kind := .cond 4,
    stmts := [ { sid := 20, isPhiDef := false,
                 rootNode := .leafOp 2 false } ],
    bbPreds := [1], bbRefs := 1, bbWeight := 3 }

def cexC4 : Compiler :=
  { blocks :=
      [ cexC4a, cexC4b,
        { bbNum := 3, kind := .ret, stmts := [], bbPreds := [2], bbRefs := 1,
          bbWeight := 1 },
        { bbNum := 4, kind := .ret, stmts := [], bbPreds := [2], bbRefs := 1,
          bbWeight := 1 } ] }

theorem claimC4_compaction_witness :
    ∃ a2, (fgCompactBlocks cexC4 cexC4a.bbNum).findBlock cexC4a.bbNum =
        some a2 ∧
      a2.stmts.Perm (cexC4a.stmts ++ cexC4b.stmts) ∧
      succsOf (fgCompactBlocks cexC4 cexC4a.bbNum) a2 = succsOf cexC4 cexC4b ∧
      (fgCompactBlocks cexC4 cexC4a.bbNum).blocks.map BasicBlock.bbNum =
        [] ++ cexC4a.bbNum :: [3, 4] ∧
      (cexC4b.kind = BBKind.bthrow →
        a2.bbWeight = 0 ∧ a2.flags.runRarely = true) ∧
      (cexC4b.kind ≠ BBKind.bthrow → cexC4a.bbWeight = 0 →
        cexC4b.bbWeight = 0 → a2.bbWeight = 0 ∧ a2.flags.runRarely = true) ∧
      (cexC4b.kind ≠ BBKind.bthrow →
        ¬ (cexC4a.bbWeight = 0 ∧ cexC4b.bbWeight = 0) →
        a2.bbWeight = max cexC4a.bbWeight cexC4b.bbWeight) :=
  claimC4_compaction cexC4 cexC4a cexC4b [] [3, 4] (by decide) (by decide)
    (by decide) (by decide) (by decide) (by decide) (by decide) rfl

/-!
## Switch branch optimization (`fgOptimizeSwitchBranches`)
-/

/-- `BasicBlock::sameTryRegion`: the two blocks carry the same try-region
index. -/
def sameTryRegion (a b : BasicBlock) : Bool := a.bbTryIndex == b.bbTryIndex

/-- The branch-threading target for one switch jump-table entry
(fgopt.cpp:3046-3072): a case jumping to an empty `BBJ_ALWAYS` block that
is not a self jump is redirected to that block&apos;s own target, unless
the intermediate block sits inside a try region and the switch block is
in a different try region. -/
def switchSlotNewDest (c : Compiler) (block : BasicBlock) (dNum : Nat) : Nat :=
  match c.findBlock dNum with
  | some bDest =>
    match bDest.kind with
    | .always t =>
      if bDest.isEmpty && t != dNum &&
          (bDest.bbTryIndex == none || sameTryRegion block bDest) then t
      else dNum
    | _ => dNum
  | none => dNum

/-- The profile-weight adjustment applied to the bypassed block when a
switch case is redirected past it (fgopt.cpp:3076-3096): with profile
weights in use and valid edge weights, its weight loses the minimum
weight of the branch-through edge, saturating at zero with the
rarely-run flag set. -/
def switchProfileAdjust (c : Compiler) (blockNum dNum : Nat) : Compiler :=
  if c.fgIsUsingProfileWeights &&
      ((c.findBlock dNum).map BasicBlock.hasProfileWeight).getD false then
    if c.fgHaveValidEdgeWeights then
      let w := c.edgeWeightMinMap blockNum dNum
      c.updateBlock dNum (fun db =>
        if w < db.bbWeight then { db with bbWeight := db.bbWeight - w }
        else { db with bbWeight := 0,
                       flags := { db.flags with runRarely := true } })
    else c
  else c

/-- The jump-table rewrite and the predecessor-edge move for one
redirected switch case (fgopt.cpp:3098-3107): the table slot is
overwritten with the new destination and the flow edge moves from the
old destination to the new one (`fgAddRefPred(bNewDest, block,
fgRemoveRefPred(bDest, block))`). The unique-successor cache refresh
`UpdateSwitchTableTarget` maintains data this model derives from the
table itself. -/
def switchRetargetSlot (c : Compiler) (blockNum i oldDest newDest : Nat) :
    Compiler :=
  let c1 := c.updateBlock blockNum (fun b =>
    match b.kind with
    | .swtch tb => { b with kind := .swtch (tb.set i newDest) }
    | _ => b)
  let c2 := removeOnePred c1 oldDest blockNum
  c2.updateBlock newDest (fun nb =>
    { nb with bbPreds := nb.bbPreds ++ [blockNum], bbRefs := nb.bbRefs + 1 })

/-- The `REPEAT_SWITCH` retry on a single jump-table slot
(fgopt.cpp:3040-3110): after every redirect the same slot is re-examined,
and the loop advances once the slot&apos;s destination is final. The
retry count is fuel-bounded. -/
def switchThreadSlot (blockNum i : Nat) :
    Nat → Compiler → Bool → Option (Compiler × Bool)
  | 0, _, _ => none
  | fuel + 1, c, changed =>
    match c.findBlock blockNum with
    | some block =>
      match block.kind with
      | .swtch tb =>
        match tb[i]? with
        | some dNum =>
          if switchSlotNewDest c block dNum = dNum then some (c, changed)
          else
            let c1 := switchProfileAdjust c blockNum dNum
            let c2 := switchRetargetSlot c1 blockNum i dNum
              (switchSlotNewDest c block dNum)
            switchThreadSlot blockNum i fuel c2 true
        | none => none
      | _ => none
    | none => none

/-- The branch-threading loop of `fgOptimizeSwitchBranches`
(fgopt.cpp:3040-3110): each jump-table slot in turn is threaded to a
final destination, the changed flag becoming the eventual return value
when no degeneration applies. -/
def switchThreadLoop (blockNum slotFuel : Nat) :
    List Nat → Compiler → Bool → Option (Compiler × Bool)
  | [], c, changed => some (c, changed)
  | i :: rest, c, changed =>
    match switchThreadSlot blockNum i slotFuel c changed with
    | some (c2, changed2) => switchThreadLoop blockNum slotFuel rest c2 changed2
    | none => none

/-- `fgOptimizeSwitchBranches` (fgopt.cpp:3030-3295), HIR path: thread
each jump-table entry past empty unconditional blocks, then degenerate a
trivial switch. A switch left with a single unique successor becomes a
`BBJ_ALWAYS` to the first table entry — the discarded `GT_SWITCH`
statement keeps only the side-effecting subexpressions of the selector,
and the flow edges of the duplicate table entries are dropped. A
two-entry table whose last entry (the default case) is the lexical
successor becomes a `BBJ_COND` whose statement tests the selector
against zero and jumps to the first entry. The LIR path is elided. -/
def fgOptimizeSwitchBranches (c : Compiler) (blockNum slotFuel : Nat) :
    Option (Compiler × Bool) :=
  match c.findBlock blockNum with
  | none => none
  | some block0 =>
    match block0.kind with
    | .swtch tb0 =>
      match switchThreadLoop blockNum slotFuel (List.range tb0.length)
          c false with
      | none => none
      | some (c1, returnvalue) =>
        match c1.findBlock blockNum with
        | none => none
        | some blk =>
          match blk.kind with
          | .swtch jmpTab =>
            match blk.stmts.getLast? with
            | none => none
            | some switchStmt =>
              match switchStmt.rootNode with
              | .switchOp switchVal =>
                if numSuccOf c1 blk = 1 then
                  let c2 :=
                    if switchStmt.rootNode.hasSideEffects then
                      match gtExtractSideEffList switchStmt.rootNode with
                      | some sideEffList =>
                        c1.updateBlock blockNum (fun b =>
                          { b with stmts := b.stmts.dropLast ++
                              [{ switchStmt with rootNode := sideEffList }] })
                      | none =>
                        c1.updateBlock blockNum (fun b =>
                          { b with stmts := b.stmts.dropLast })
                    else
                      c1.updateBlock blockNum (fun b =>
                        { b with stmts := b.stmts.dropLast })
                  let c3 := c2.updateBlock blockNum (fun b =>
                    { b with kind := .always (jmpTab.headD 0) })
                  let c4 := (jmpTab.drop 1).foldl
                    (fun acc t => removeOnePred acc t blockNum) c3
                  some (c4, true)
                else if jmpTab.length = 2 ∧
                    c1.bbNextNum blockNum = some (jmpTab.getD 1 0) then
                  let newRoot := GenTree.jtrueOp (.eqOp switchVal .zeroCon)
                  let c2 := c1.updateBlock blockNum (fun b =>
                    { b with stmts := b.stmts.dropLast ++
                        [{ switchStmt with rootNode := newRoot }] })
                  let c3 := c2.updateBlock blockNum (fun b =>
                    { b with kind := .cond (jmpTab.headD 0) })
                  some (c3, true)
                else some (c1, returnvalue)
              | _ => none
          | _ => none
    | _ => none

/-- What remains of the discarded switch statement after the one-target
degeneration (fgopt.cpp:3165-3220): the statement survives with the
extracted side-effect list as its root, or disappears when the selector
is side-effect free. -/
def keptSideEff (st : Statement) : List Statement :=
  match gtExtractSideEffList st.rootNode with
  | some sel => [{ st with rootNode := sel }]
  | none => []

/-- The switch statement rewritten by the two-entry degeneration
(fgopt.cpp:3269-3273): the root becomes a jump-if-true on
selector-equals-zero. -/
def jtrueZeroStmt (st : Statement) (val : GenTree) : Statement :=
  { st with rootNode := .jtrueOp (.eqOp val .zeroCon) }

/-- A tree with no side-effecting subexpression yields no extracted
side-effect list. -/
theorem gtExtractSideEffList_none_of_pure (t : GenTree)
    (h : t.hasSideEffects = false) : gtExtractSideEffList t = none := by
  induction t with
  | leafOp i se =>
    simp only [GenTree.hasSideEffects] at h
    simp [gtExtractSideEffList, h]
  | switchOp t ih => exact ih h
  | jtrueOp t ih => exact ih h
  | eqOp a b iha ihb =>
    simp only [GenTree.hasSideEffects, Bool.or_eq_false_iff] at h
    simp [gtExtractSideEffList, iha h.1, ihb h.2]
  | zeroCon => rfl
  | commaOp a b iha ihb =>
    simp only [GenTree.hasSideEffects, Bool.or_eq_false_iff] at h
    simp [gtExtractSideEffList, iha h.1, ihb h.2]

theorem coreFind_removeOnePred (c : Compiler) (t s : Nat) (m : Nat) :
    ((removeOnePred c t s).findBlock m).map core =
      (c.findBlock m).map core := by
  apply coreFind_update_pred
  · intro b; rfl
  · intro b; rfl

theorem coreFind_removeOnePredFold (s : Nat) :
    ∀ (ts : List Nat) (c : Compiler) (m : Nat),
      (((ts.foldl (fun acc t => removeOnePred acc t s) c).findBlock m).map
        core) = (c.findBlock m).map core := by
  intro ts
  induction ts with
  | nil => intro c m; rfl
  | cons hd tl ih =>
    intro c m
    rw [List.foldl_cons, ih _ m]
    exact coreFind_removeOnePred c hd s m

/-- A jump-table slot whose destination is already final is left alone by
the per-slot retry loop. -/
theorem switchThreadSlot_settled (blockNum i fuel : Nat) (c : Compiler)
    (changed : Bool) (block : BasicBlock) (tb : List Nat)
    (hf : c.findBlock blockNum = some block) (hk : block.kind = .swtch tb)
    (hall : ∀ d ∈ tb, switchSlotNewDest c block d = d)
    (hi : i < tb.length) :
    switchThreadSlot blockNum i (fuel + 1) c changed = some (c, changed) := by
  unfold switchThreadSlot
  rw [hf]
  dsimp only
  rw [hk]
  dsimp only
  rw [List.getElem?_eq_getElem hi]
  dsimp only
  rw [if_pos (hall _ (List.getElem_mem hi))]

/-- When every jump-table destination is already final, the threading
loop changes nothing. -/
theorem switchThreadLoop_settled (blockNum slotFuel : Nat) (c : Compiler)
    (block : BasicBlock) (tb : List Nat)
    (hf : c.findBlock blockNum = some block) (hk : block.kind = .swtch tb)
    (hall : ∀ d ∈ tb, switchSlotNewDest c block d = d)
    (hfuel : 1 ≤ slotFuel) :
    ∀ (idxs : List Nat), (∀ i ∈ idxs, i < tb.length) → ∀ changed,
      switchThreadLoop blockNum slotFuel idxs c changed = some (c, changed) := by
  intro idxs
  induction idxs with
  | nil => intro _ changed; rfl
  | cons hd tl ih =>
    intro hidx changed
    obtain ⟨f, rfl⟩ : ∃ f, slotFuel = f + 1 := ⟨slotFuel - 1, by omega⟩
    unfold switchThreadLoop
    rw [switchThreadSlot_settled blockNum hd f c changed block tb hf hk
      hall (hidx hd (List.mem_cons_self hd tl))]
    exact ih (fun i hi => hidx i (List.mem_cons_of_mem hd hi)) changed

/-- Claim C6 (amended): once branch threading has settled, a switch with
a single unique successor degenerates to a `BBJ_ALWAYS` to the first
table entry whose statement list keeps exactly the side-effecting
subexpressions of the discarded selector, and a two-entry switch whose
LAST table entry — the default case, not the non-default one the claim
names — is the lexical successor degenerates to a `BBJ_COND` jumping to
the first entry under a selector-equals-zero test. -/
theorem claimC6_switchDegeneration (c : Compiler) (blockNum slotFuel : Nat)
    (block : BasicBlock) (tb : List Nat) (st : Statement) (val : GenTree)
    (hf : c.findBlock blockNum = some block)
    (hk : block.kind = .swtch tb)
    (hst : block.stmts.getLast? = some st)
    (hroot : st.rootNode = .switchOp val)
    (hfuel : 1 ≤ slotFuel)
    (hsettle : ∀ d ∈ tb, switchSlotNewDest c block d = d) :
    (tb.dedup.length = 1 →
      ∃ out, fgOptimizeSwitchBranches c blockNum slotFuel = some out ∧
        out.2 = true ∧
        (out.1.findBlock blockNum).map core =
          some (core
            { block with
                kind := .always (tb.headD 0),
                stmts := block.stmts.dropLast ++ keptSideEff st })) ∧
    (tb.dedup.length ≠ 1 → ∀ t0 t1, tb = [t0, t1] →
      c.bbNextNum blockNum = some t1 →
      ∃ out, fgOptimizeSwitchBranches c blockNum slotFuel = some out ∧
        out.2 = true ∧
        (out.1.findBlock blockNum).map core =
          some (core
            { block with
                kind := .cond t0,
                stmts := block.stmts.dropLast ++
                  [jtrueZeroStmt st val] })) := by
  have hloop := switchThreadLoop_settled blockNum slotFuel c block tb hf hk
    hsettle hfuel (List.range tb.length)
    (fun i hi => List.mem_range.mp hi) false
  have hns : numSuccOf c block = tb.dedup.length := by
    unfold numSuccOf succsOf
    rw [hk]
  constructor
  · intro h1
    unfold fgOptimizeSwitchBranches
    rw [hf]
    dsimp only
    rw [hk]
    dsimp only
    rw [hloop]
    dsimp only
    rw [hf]
    dsimp only
    rw [hk]
    dsimp only
    rw [hst]
    dsimp only
    rw [hroot]
    dsimp only
    rw [if_pos (hns.trans h1)]
    refine ⟨_, rfl, rfl, ?_⟩
    dsimp only
    by_cases hse : (GenTree.switchOp val).hasSideEffects
    · cases hext : gtExtractSideEffList (GenTree.switchOp val) with
      | some sel =>
        rw [if_pos hse]
        dsimp only
        rw [coreFind_removeOnePredFold, findBlock_update_self,
          Option.map_map, findBlock_update_self, Option.map_map, hf]
        all_goals first
          | (intro b; rfl)
          | (simp only [keptSideEff, hroot, hext, Option.map_some]; rfl)
      | none =>
        rw [if_pos hse]
        dsimp only
        rw [coreFind_removeOnePredFold, findBlock_update_self,
          Option.map_map, findBlock_update_self, Option.map_map, hf]
        all_goals first
          | (intro b; rfl)
          | (simp only [keptSideEff, hroot, hext, Option.map_some,
              List.append_nil]; rfl)
    · have hnone := gtExtractSideEffList_none_of_pure (GenTree.switchOp val)
        (Bool.not_eq_true _ ▸ hse)
      rw [if_neg hse]
      rw [coreFind_removeOnePredFold, findBlock_update_self,
        Option.map_map, findBlock_update_self, Option.map_map, hf]
      all_goals first
        | (intro b; rfl)
        | (simp only [keptSideEff, hroot, hnone, Option.map_some,
            List.append_nil]; rfl)
  · intro h1 t0 t1 htb hnext
    subst htb
    unfold fgOptimizeSwitchBranches
    rw [hf]
    dsimp only
    rw [hk]
    dsimp only
    rw [hloop]
    dsimp only
    rw [hf]
    dsimp only
    rw [hk]
    dsimp only
    rw [hst]
    dsimp only
    rw [hroot]
    dsimp only
    rw [if_neg (fun hc => h1 (hns.symm.trans hc)), if_pos ⟨rfl, hnext⟩]
    refine ⟨_, rfl, rfl, ?_⟩
    dsimp only
    rw [findBlock_update_self, Option.map_map, findBlock_update_self,
      Option.map_map, hf]
    all_goals first
      | (intro b; rfl)
      | (simp only [jtrueZeroStmt, Option.map_some]; rfl)

/-- A three-block state refuting the claim&apos;s two-entry trigger: the
switch in block 1 has table `[2, 3]`, so its NON-default entry (slot 0,
block 2) is the lexical successor of block 1, while the default entry
(slot 1, block 3) is not. -/
def cexC6 : Compiler :=
  { blocks :=
      [ { bbNum := 1, kind := .swtch [2, 3],
          stmts := [ { sid := 10, isPhiDef := false,
                       rootNode := .switchOp (.leafOp 5 false) } ],
          bbPreds := [], bbRefs := 0, bbWeight := 1 },
        { bbNum := 2, kind := .ret,
          stmts := [ { sid := 11, isPhiDef := false,
                       rootNode := .leafOp 1 false } ],
          bbPreds := [1], bbRefs := 1, bbWeight := 1 },
        { bbNum := 3, kind := .ret,
          stmts := [ { sid := 12, isPhiDef := false,
                       rootNode := .leafOp 2 false } ],
          bbPreds := [1], bbRefs := 1, bbWeight := 1 } ] }

/-- Claim C6 counterexample: in `cexC6` the switch of block 1 has exactly
two distinct targets and its non-default entry (table slot 0, block 2)
is the lexical fallthrough, yet `fgOptimizeSwitchBranches` converts
nothing — the block remains a switch and the pass reports no change —
because the code requires the DEFAULT (last) table entry to be the
lexical successor. -/
theorem claimC6_counterexample :
    cexC6.bbNextNum 1 = some 2 ∧
    [2, 3].dedup.length = 2 ∧
    (fgOptimizeSwitchBranches cexC6 1 5).map
        (fun out => ((out.1.findBlock 1).map BasicBlock.kind, out.2)) =
      some (some (.swtch [2, 3]), false) := by
  refine ⟨by decide, by decide, by decide⟩

/-- The switch statement of the witness state for claim C6. -/
def cexC6wSt : Statement :=
  { sid := 10, isPhiDef := false, rootNode := .switchOp (.leafOp 5 false) }

/-- The switch block of the witness state for claim C6: the default
(last) table entry, block 2, is the lexical successor. -/
def cexC6wB1 : BasicBlock :=
  { bbNum := 1, kind := .swtch [3, 2], stmts := [cexC6wSt],
    bbPreds := [], bbRefs := 0, bbWeight := 1 }

/-- A three-block state exercising the two-entry degeneration of claim
C6: the default entry of the switch of block 1 is its lexical successor
block 2, the significant entry is block 3. -/
def cexC6w : Compiler :=
  { blocks :=
      [ cexC6wB1,
        { bbNum := 2, kind := .ret,
          stmts := [ { sid := 11, isPhiDef := false,
                       rootNode := .leafOp 1 false } ],
          bbPreds := [1], bbRefs := 1, bbWeight := 1 },
        { bbNum := 3, kind := .ret,
          stmts := [ { sid := 12, isPhiDef := false,
                       rootNode := .leafOp 2 false } ],
          bbPreds := [1], bbRefs := 1, bbWeight := 1 } ] }

/-- Witness for claim C6&apos;s theorem at the concrete state `cexC6w`:
the two-entry switch whose default entry is the lexical successor
becomes a conditional block jumping to the significant target 3 under a
selector-equals-zero test. -/
theorem claimC6_switchDegeneration_witness :
    ∃ out, fgOptimizeSwitchBranches cexC6w 1 1 = some out ∧ out.2 = true ∧
      (out.1.findBlock 1).map core =
        some (core
          { cexC6wB1 with
              kind := .cond 3,
              stmts := cexC6wB1.stmts.dropLast ++
                [jtrueZeroStmt cexC6wSt (.leafOp 5 false)] }) :=
  (claimC6_switchDegeneration cexC6w 1 1 cexC6wB1 [3, 2] cexC6wSt
    (.leafOp 5 false) (by decide) rfl (by decide) rfl (by decide)
    (by decide)).2 (by decide) 3 2 rfl (by decide)

/-!
## Rarely-run block expansion (`fgExpandRarelyRunBlocks`)
-/

/-- The lexical suffix of the block list starting at the block numbered
`n` (walking `bbNext` pointers from that block). -/
def lexFrom (c : Compiler) (n : Nat) : List BasicBlock :=
  c.blocks.dropWhile (fun b => b.bbNum ≠ n)

/-- The lexical-forward scan of the `newRunRarely` helper
(fgopt.cpp:4418-4433): walking forward, report whether `aNum` (checked
first at each block) or `bNum` is found first, if either. -/
def lexScan (aNum bNum : Nat) : List BasicBlock → Option Bool
  | [] => none
  | b :: rest =>
    if b.bbNum = aNum then some true
    else if b.bbNum = bNum then some false
    else lexScan aNum bNum rest

/-- Whether walking lexically forward from the block numbered `startNum`
reaches the block numbered `target` (fgopt.cpp:4440-4457). -/
def lexFinds (c : Compiler) (startNum target : Nat) : Bool :=
  (lexFrom c startNum).any (fun b => b.bbNum = target)

/-- The block number of the lexical predecessor (`bbPrev`) of the block
numbered `n`, scanning the list for the adjacent pair. -/
def bbPrevNumGo (n : Nat) : List BasicBlock → Option Nat
  | x :: y :: rest =>
    if y.bbNum = n then some x.bbNum else bbPrevNumGo n (y :: rest)
  | _ => none

/-- The lexical predecessor of the block numbered `n`, if any. -/
def Compiler.bbPrevNum (c : Compiler) (n : Nat) : Option Nat :=
  bbPrevNumGo n c.blocks

/-- The `newRunRarely` backtracking helper of `fgExpandRarelyRunBlocks`
(fgopt.cpp:4377-4461): after `bPrev` has just been marked rarely run,
find the lexically earliest predecessor of `bPrev` (seeded with the
preceding `BBJ_CALLFINALLY` of a kept-always pair) and return it when it
lies lexically before `bPrev`, as the point the lexical scan should back
up to. -/
def newRunRarely (c : Compiler) (bPrev : BasicBlock) : Option Nat :=
  let bPrevPrev0 : Option Nat :=
    if bPrev.flags.keepBbjAlways then c.bbPrevNum bPrev.bbNum else none
  let bPrevPrev := bPrev.bbPreds.foldl (fun cur p =>
    match cur with
    | none => some p
    | some cand =>
      match lexScan cand bPrev.bbNum (lexFrom c p) with
      | some true => some p
      | _ => some cand) bPrevPrev0
  match bPrevPrev with
  | none => none
  | some cand => if lexFinds c cand bPrev.bbNum then some cand else none

/-- The first (successor-driven, lexical) pass of
`fgExpandRarelyRunBlocks` (fgopt.cpp:4469-4541): scan consecutive
(`bPrev`, `block`) pairs; a not-yet-rare `bPrev` WITHOUT profile weight
becomes rarely run when its unconditional target is rare, its
call-finally pair continuation is rare, or (conditional) both its
fallthrough and jump target are rare; after a mark the scan may back up
to the lexically earliest predecessor. The revisit count is
fuel-bounded. -/
def expandRarelyPass1 : Nat → Compiler → Nat → Bool → Option (Compiler × Bool)
  | 0, _, _, _ => none
  | fuel + 1, c, bPrevNum, result =>
    match c.bbNextNum bPrevNum with
    | none => some (c, result)
    | some blockNum =>
      match c.findBlock bPrevNum, c.findBlock blockNum with
      | some bPrev, some block =>
        if bPrev.isRunRarely then expandRarelyPass1 fuel c blockNum result
        else if bPrev.hasProfileWeight then
          expandRarelyPass1 fuel c blockNum result
        else
          let reason : Bool :=
            match bPrev.kind with
            | .always t => ((c.findBlock t).map BasicBlock.isRunRarely).getD false
            | .callFinally _ => isBBCallAlwaysPair c bPrev && block.isRunRarely
            | .cond t => block.isRunRarely &&
                ((c.findBlock t).map BasicBlock.isRunRarely).getD false
            | _ => false
          if reason then
            let c1 := c.updateBlock bPrevNum BasicBlock.bbSetRunRarely
            let next :=
              match newRunRarely c1 bPrev.bbSetRunRarely with
              | some nb => nb
              | none => blockNum
            expandRarelyPass1 fuel c1 next true
          else expandRarelyPass1 fuel c blockNum result
      | _, _ => none

/-- The marking step of the second pass of `fgExpandRarelyRunBlocks`
(fgopt.cpp:4578-4599): set the block rarely run, and with a marked
call-finally pair also its paired always continuation. -/
def pass2Mark (c : Compiler) (blockNum : Nat) (block : BasicBlock) :
    Compiler :=
  let cA := c.updateBlock blockNum BasicBlock.bbSetRunRarely
  if isBBCallAlwaysPair cA block then
    match cA.bbNextNum blockNum with
    | some nn => cA.updateBlock nn BasicBlock.bbSetRunRarely
    | none => cA
  else cA

/-- The second (predecessor-driven) pass of `fgExpandRarelyRunBlocks`
(fgopt.cpp:4543-4662): a not-yet-rare block all of whose predecessors
are rare and that is not a handler begin becomes rarely run (a marked
call-finally pair also marking its continuation), followed by the
opportunistic compaction of the pair and the call-finally weight
balancing. The iteration count is fuel-bounded. -/
def expandRarelyPass2 : Nat → Compiler → Nat → Bool → Option (Compiler × Bool)
  | 0, _, _, _ => none
  | fuel + 1, c, bPrevNum, result =>
    match c.bbNextNum bPrevNum with
    | none => some (c, result)
    | some blockNum =>
      match c.findBlock blockNum with
      | none => none
      | some block =>
        let mark :=
          !block.isRunRarely &&
          block.bbPreds.all
            (fun p => ((c.findBlock p).map BasicBlock.isRunRarely).getD false) &&
          !bbIsHandlerBeg c block
        let c1 := if mark then pass2Mark c blockNum block else c
        let result1 := result || mark
        match c1.findBlock bPrevNum, c1.findBlock blockNum with
        | some bPrev1, some block1 =>
          if fgCanCompactBlocks c1 bPrev1 block1 then
            expandRarelyPass2 fuel (fgCompactBlocks c1 bPrevNum) bPrevNum result1
          else if isBBCallAlwaysPair c1 bPrev1 &&
              bPrev1.bbWeight != block1.bbWeight &&
              !bPrev1.hasProfileWeight then
            let c2 :=
              if block1.isRunRarely then
                c1.updateBlock bPrevNum (fun b =>
                  { b with bbWeight := block1.bbWeight,
                           flags := { b.flags with runRarely := true } })
              else if bPrev1.isRunRarely then
                c1.updateBlock blockNum (fun b =>
                  { b with bbWeight := bPrev1.bbWeight,
                           flags := { b.flags with runRarely := true } })
              else
                c1.updateBlock bPrevNum (fun b =>
                  { b with bbWeight := block1.bbWeight })
            expandRarelyPass2 fuel c2 blockNum result1
          else expandRarelyPass2 fuel c1 blockNum result1
        | _, _ => none

/-- `fgExpandRarelyRunBlocks` (fgopt.cpp:4357-4664): the
successor-driven lexical pass followed by the predecessor-driven pass,
each restarted from the first block. -/
def fgExpandRarelyRunBlocks (c : Compiler) (fuel1 fuel2 : Nat) :
    Option (Compiler × Bool) :=
  match c.blocks.head? with
  | none => none
  | some first =>
    match expandRarelyPass1 fuel1 c first.bbNum false with
    | none => none
    | some (c1, r1) =>
      match c1.blocks.head? with
      | none => none
      | some first1 => expandRarelyPass2 fuel2 c1 first1.bbNum r1

/-- Claim C10: the first pass of `fgExpandRarelyRunBlocks` never touches
a block carrying real profile weight — in particular it never newly
marks one rarely run, however rare its successors are. -/
theorem claimC10_profilePass1 (fuel : Nat) :
    ∀ (c : Compiler) (n : Nat) (res : Bool) (out : Compiler × Bool),
      expandRarelyPass1 fuel c n res = some out →
      ∀ (m : Nat) (b : BasicBlock), c.findBlock m = some b →
        b.flags.profWeight = true →
        out.1.findBlock m = some b := by
  induction fuel with
  | zero =>
    intro c n res out h m b hfm hpw
    simp [expandRarelyPass1] at h
  | succ f ih =>
    intro c n res out h m b hfm hpw
    unfold expandRarelyPass1 at h
    cases hnext : c.bbNextNum n with
    | none =>
      rw [hnext] at h
      dsimp only at h
      cases h
      exact hfm
    | some blockNum =>
      rw [hnext] at h
      dsimp only at h
      cases hfp : c.findBlock n with
      | none =>
        rw [hfp] at h
        dsimp only at h
        exact absurd h (by simp)
      | some bPrev =>
        rw [hfp] at h
        cases hfb : c.findBlock blockNum with
        | none =>
          rw [hfb] at h
          dsimp only at h
          exact absurd h (by simp)
        | some block =>
          rw [hfb] at h
          dsimp only at h
          by_cases h1 : bPrev.isRunRarely
          · rw [if_pos h1] at h
            exact ih c blockNum res out h m b hfm hpw
          · rw [if_neg h1] at h
            by_cases h2 : bPrev.hasProfileWeight
            · rw [if_pos h2] at h
              exact ih c blockNum res out h m b hfm hpw
            · rw [if_neg h2] at h
              split at h
              · refine ih _ _ _ _ h m b ?_ hpw
                by_cases hmn : m = n
                · subst hmn
                  rw [hfp] at hfm
                  cases hfm
                  exact absurd hpw h2
                · rw [findBlock_update_other c n BasicBlock.bbSetRunRarely
                    (fun x => rfl) m hmn]
                  exact hfm
              · exact ih _ _ _ _ h m b hfm hpw

/-- The first pass of `fgExpandRarelyRunBlocks` never clears a
rarely-run mark. -/
theorem expandRarelyPass1_keepsRare (fuel : Nat) :
    ∀ (c : Compiler) (n : Nat) (res : Bool) (out : Compiler × Bool),
      expandRarelyPass1 fuel c n res = some out →
      ∀ (m : Nat) (b : BasicBlock), c.findBlock m = some b →
        b.flags.runRarely = true →
        ∃ b', out.1.findBlock m = some b' ∧ b'.flags.runRarely = true := by
  induction fuel with
  | zero =>
    intro c n res out h m b hfm hrr
    simp [expandRarelyPass1] at h
  | succ f ih =>
    intro c n res out h m b hfm hrr
    unfold expandRarelyPass1 at h
    cases hnext : c.bbNextNum n with
    | none =>
      rw [hnext] at h
      dsimp only at h
      cases h
      exact ⟨b, hfm, hrr⟩
    | some blockNum =>
      rw [hnext] at h
      dsimp only at h
      cases hfp : c.findBlock n with
      | none =>
        rw [hfp] at h
        dsimp only at h
        exact absurd h (by simp)
      | some bPrev =>
        rw [hfp] at h
        cases hfb : c.findBlock blockNum with
        | none =>
          rw [hfb] at h
          dsimp only at h
          exact absurd h (by simp)
        | some block =>
          rw [hfb] at h
          dsimp only at h
          by_cases h1 : bPrev.isRunRarely
          · rw [if_pos h1] at h
            exact ih c blockNum res out h m b hfm hrr
          · rw [if_neg h1] at h
            by_cases h2 : bPrev.hasProfileWeight
            · rw [if_pos h2] at h
              exact ih c blockNum res out h m b hfm hrr
            · rw [if_neg h2] at h
              split at h
              · by_cases hmn : m = n
                · subst hmn
                  rw [hfp] at hfm
                  cases hfm
                  refine ih _ _ _ _ h m b.bbSetRunRarely ?_ rfl
                  rw [findBlock_update_self c m BasicBlock.bbSetRunRarely
                    (fun x => rfl), hfp]
                  rfl
                · refine ih _ _ _ _ h m b ?_ hrr
                  rw [findBlock_update_other c n BasicBlock.bbSetRunRarely
                    (fun x => rfl) m hmn]
                  exact hfm
              · exact ih _ _ _ _ h m b hfm hrr

/-- The second pass never turns its change flag back off. -/
theorem expandRarelyPass2_result_mono :
    ∀ (fuel : Nat) (c : Compiler) (n : Nat) (out : Compiler × Bool),
      expandRarelyPass2 fuel c n true = some out → out.2 = true := by
  intro fuel
  induction fuel with
  | zero =>
    intro c n out h
    simp [expandRarelyPass2] at h
  | succ f ih =>
    intro c n out h
    unfold expandRarelyPass2 at h
    cases hnext : c.bbNextNum n with
    | none =>
      rw [hnext] at h
      dsimp only at h
      cases h
      rfl
    | some m =>
      rw [hnext] at h
      dsimp only at h
      cases hfb : c.findBlock m with
      | none =>
        rw [hfb] at h
        dsimp only at h
        exact absurd h (by simp)
      | some block =>
        rw [hfb] at h
        dsimp only at h
        rw [Bool.true_or] at h
        by_cases hm : (!block.isRunRarely &&
            block.bbPreds.all (fun p =>
              ((c.findBlock p).map BasicBlock.isRunRarely).getD false) &&
            !bbIsHandlerBeg c block) = true
        · rw [if_pos hm] at h
          cases hq1 : (pass2Mark c m block).findBlock n with
          | none =>
            rw [hq1] at h
            exact absurd h (by simp)
          | some bPrev1 =>
            rw [hq1] at h
            cases hq2 : (pass2Mark c m block).findBlock m with
            | none =>
              rw [hq2] at h
              exact absurd h (by simp)
            | some block1 =>
              rw [hq2] at h
              dsimp only at h
              by_cases hcc : fgCanCompactBlocks (pass2Mark c m block)
                  bPrev1 block1 = true
              · rw [if_pos hcc] at h
                exact ih _ _ out h
              · rw [if_neg hcc] at h
                by_cases hbal : (isBBCallAlwaysPair (pass2Mark c m block)
                    bPrev1 &&
                    bPrev1.bbWeight != block1.bbWeight &&
                    !bPrev1.hasProfileWeight) = true
                · rw [if_pos hbal] at h
                  exact ih _ _ out h
                · rw [if_neg hbal] at h
                  exact ih _ _ out h
        · rw [if_neg hm] at h
          cases hq1 : c.findBlock n with
          | none =>
            rw [hq1] at h
            exact absurd h (by simp)
          | some bPrev1 =>
            rw [hq1] at h
            cases hq2 : c.findBlock m with
            | none =>
              rw [hq2] at h
              exact absurd h (by simp)
            | some block1 =>
              rw [hq2] at h
              dsimp only at h
              by_cases hcc : fgCanCompactBlocks c bPrev1 block1 = true
              · rw [if_pos hcc] at h
                exact ih _ _ out h
              · rw [if_neg hcc] at h
                by_cases hbal : (isBBCallAlwaysPair c bPrev1 &&
                    bPrev1.bbWeight != block1.bbWeight &&
                    !bPrev1.hasProfileWeight) = true
                · rw [if_pos hbal] at h
                  exact ih _ _ out h
                · rw [if_neg hbal] at h
                  exact ih _ _ out h

/-- The marking step of the second pass does set the rarely-run flag of
the block it marks. -/
theorem pass2Mark_marks (c : Compiler) (m : Nat) (block : BasicBlock)
    (hfb : c.findBlock m = some block) :
    ((pass2Mark c m block).findBlock m).map BasicBlock.isRunRarely =
      some true := by
  unfold pass2Mark
  dsimp only
  have hself : (c.updateBlock m BasicBlock.bbSetRunRarely).findBlock m =
      some block.bbSetRunRarely := by
    rw [findBlock_update_self c m BasicBlock.bbSetRunRarely (fun x => rfl),
      hfb]
    rfl
  by_cases hpair : isBBCallAlwaysPair
      (c.updateBlock m BasicBlock.bbSetRunRarely) block = true
  · rw [if_pos hpair]
    cases hnn : (c.updateBlock m BasicBlock.bbSetRunRarely).bbNextNum m with
    | none =>
      rw [hself]
      rfl
    | some nn =>
      by_cases hnm : nn = m
      · subst hnm
        rw [findBlock_update_self _ nn BasicBlock.bbSetRunRarely
          (fun x => rfl), hself]
        rfl
      · rw [findBlock_update_other _ nn BasicBlock.bbSetRunRarely
          (fun x => rfl) m (fun hc => hnm hc.symm), hself]
        rfl
  · rw [if_neg hpair]
    rw [hself]
    rfl

/-- Claim C7 (amended): the successor-driven propagation of the first
pass of `fgExpandRarelyRunBlocks` holds in all three arms — an
unconditional block whose target is rarely run, a call-finally pair
whose continuation is rarely run, and a conditional block both of whose
arms are rarely run — but only, the correction, for a block carrying NO
profile weight: the pass marks such a block rarely run and the mark
survives to the end of the pass. And the second pass marks a
not-yet-rare block rarely run when every one of its predecessors is
rarely run and the block is not an EH handler entry: it performs the
marking step on that block and reports the flow graph modified. -/
theorem claimC7_rarelyRunPropagation :
    (∀ (fuel : Nat) (c : Compiler) (n m : Nat) (bPrev block : BasicBlock)
        (res : Bool) (out : Compiler × Bool),
      c.findBlock n = some bPrev →
      c.bbNextNum n = some m →
      c.findBlock m = some block →
      bPrev.isRunRarely = false →
      bPrev.hasProfileWeight = false →
      expandRarelyPass1 (fuel + 1) c n res = some out →
      ((∃ t, bPrev.kind = .always t ∧
          (c.findBlock t).map BasicBlock.isRunRarely = some true) ∨
        (∃ hnd, bPrev.kind = .callFinally hnd ∧
          isBBCallAlwaysPair c bPrev = true ∧ block.isRunRarely = true) ∨
        (∃ t, bPrev.kind = .cond t ∧ block.isRunRarely = true ∧
          (c.findBlock t).map BasicBlock.isRunRarely = some true)) →
      ∃ b', out.1.findBlock n = some b' ∧ b'.flags.runRarely = true) ∧
    (∀ (fuel : Nat) (c : Compiler) (n m : Nat) (block : BasicBlock)
        (res : Bool) (out : Compiler × Bool),
      c.bbNextNum n = some m →
      c.findBlock m = some block →
      block.isRunRarely = false →
      block.bbPreds.all (fun p =>
        ((c.findBlock p).map BasicBlock.isRunRarely).getD false) = true →
      bbIsHandlerBeg c block = false →
      expandRarelyPass2 (fuel + 1) c n res = some out →
      out.2 = true ∧
      ((pass2Mark c m block).findBlock m).map BasicBlock.isRunRarely =
        some true) := by
  constructor
  · intro fuel c n m bPrev block res out hfp hnext hfb hnr hnpw hrun hcase
    unfold expandRarelyPass1 at hrun
    rw [hnext] at hrun
    dsimp only at hrun
    rw [hfp, hfb] at hrun
    dsimp only at hrun
    rw [if_neg (by simp [hnr]), if_neg (by simp [hnpw])] at hrun
    have hfinish : ∀ (next : Nat),
        expandRarelyPass1 fuel (c.updateBlock n BasicBlock.bbSetRunRarely)
          next true = some out →
        ∃ b', out.1.findBlock n = some b' ∧ b'.flags.runRarely = true := by
      intro next hrun2
      refine expandRarelyPass1_keepsRare fuel _ _ _ _ hrun2 n
        bPrev.bbSetRunRarely ?_ rfl
      rw [findBlock_update_self c n BasicBlock.bbSetRunRarely (fun x => rfl),
        hfp]
      rfl
    rcases hcase with ⟨t, hk, htr⟩ | ⟨hnd, hk, hpair, hbr⟩ |
      ⟨t, hk, hbr, htr⟩
    · rw [hk] at hrun
      dsimp only at hrun
      rw [if_pos (by simp [htr])] at hrun
      exact hfinish _ hrun
    · rw [hk] at hrun
      dsimp only at hrun
      rw [if_pos (by simp [hpair, hbr])] at hrun
      exact hfinish _ hrun
    · rw [hk] at hrun
      dsimp only at hrun
      rw [if_pos (by simp [hbr, htr])] at hrun
      exact hfinish _ hrun
  · intro fuel c n m block res out hnext hfb hnr2 hall hnh hrun
    refine ⟨?_, pass2Mark_marks c m block hfb⟩
    unfold expandRarelyPass2 at hrun
    rw [hnext] at hrun
    dsimp only at hrun
    rw [hfb] at hrun
    dsimp only at hrun
    have hmark : (!block.isRunRarely &&
        block.bbPreds.all (fun p =>
          ((c.findBlock p).map BasicBlock.isRunRarely).getD false) &&
        !bbIsHandlerBeg c block) = true := by
      rw [hnr2, hall, hnh]
      rfl
    rw [if_pos hmark] at hrun
    rw [hmark, Bool.or_true] at hrun
    cases hq1 : (pass2Mark c m block).findBlock n with
    | none =>
      rw [hq1] at hrun
      exact absurd hrun (by simp)
    | some bPrev1 =>
      rw [hq1] at hrun
      cases hq2 : (pass2Mark c m block).findBlock m with
      | none =>
        rw [hq2] at hrun
        exact absurd hrun (by simp)
      | some block1 =>
        rw [hq2] at hrun
        dsimp only at hrun
        by_cases hcc : fgCanCompactBlocks (pass2Mark c m block)
            bPrev1 block1 = true
        · rw [if_pos hcc] at hrun
          exact expandRarelyPass2_result_mono fuel _ _ out hrun
        · rw [if_neg hcc] at hrun
          by_cases hbal : (isBBCallAlwaysPair (pass2Mark c m block) bPrev1 &&
              bPrev1.bbWeight != block1.bbWeight &&
              !bPrev1.hasProfileWeight) = true
          · rw [if_pos hbal] at hrun
            exact expandRarelyPass2_result_mono fuel _ _ out hrun
          · rw [if_neg hbal] at hrun
            exact expandRarelyPass2_result_mono fuel _ _ out hrun

/-- A rarely-run return block used as the fallthrough successor of the
rarely-run-expansion counterexample and witness states. -/
def cexRareB2 : BasicBlock :=
  { bbNum := 2, kind := .ret,
    stmts := [ { sid := 11, isPhiDef := false, rootNode := .leafOp 1 false } ],
    bbPreds := [1], bbRefs := 1, bbWeight := 0,
    flags := { runRarely := true } }

/-- A rarely-run return block used as the jump target of the
rarely-run-expansion counterexample and witness states. -/
def cexRareB3 : BasicBlock :=
  { bbNum := 3, kind := .ret,
    stmts := [ { sid := 12, isPhiDef := false, rootNode := .leafOp 2 false } ],
    bbPreds := [1], bbRefs := 1, bbWeight := 0,
    flags := { runRarely := true } }

/-- A conditional entry block carrying real profile weight, with both
arms rarely run. -/
def cexC7b1 : BasicBlock :=
  { bbNum := 1, kind := .cond 3,
    stmts := [ { sid := 10, isPhiDef := false, rootNode := .leafOp 3 false } ],
    bbPreds := [], bbRefs := 0, bbWeight := 10,
    flags := { profWeight := true } }

/-- The claim C7 counterexample state: a profile-weighted conditional
block whose two arms are both rarely run. -/
def cexC7 : Compiler :=
  { blocks := [cexC7b1, cexRareB2, cexRareB3] }

/-- Claim C7 counterexample: in `cexC7` block 1 is a conditional block
and both of its arms (fallthrough block 2 and jump target block 3) are
already marked rarely run, yet the full `fgExpandRarelyRunBlocks` leaves
block 1 unmarked — its profile weight vetoes the successor-driven rule,
which the claim states unconditionally. -/
theorem claimC7_counterexample :
    (cexC7.findBlock 1).map (fun b => (b.kind, b.flags.profWeight)) =
      some (BBKind.cond 3, true) ∧
    (cexC7.findBlock 2).map BasicBlock.isRunRarely = some true ∧
    (cexC7.findBlock 3).map BasicBlock.isRunRarely = some true ∧
    cexC7.bbNextNum 1 = some 2 ∧
    (fgExpandRarelyRunBlocks cexC7 10 10).map
        (fun out => (out.1.findBlock 1).map BasicBlock.isRunRarely) =
      some (some false) := by
  refine ⟨by decide, by decide, by decide, by decide, by decide⟩

/-- The conditional entry block of the claim C7 witness state: no
profile weight, both arms rarely run. -/
def cexC7wB1 : BasicBlock :=
  { bbNum := 1, kind := .cond 3,
    stmts := [ { sid := 10, isPhiDef := false, rootNode := .leafOp 3 false } ],
    bbPreds := [], bbRefs := 0, bbWeight := 10 }

/-- The claim C7 witness state: a profile-weight-free conditional block
whose two arms are both rarely run. -/
def cexC7w : Compiler :=
  { blocks := [cexC7wB1, cexRareB2, cexRareB3] }

/-- A rarely-run unconditional entry block for the second-pass witness
state. -/
def cexC7p2b1 : BasicBlock :=
  { bbNum := 1, kind := .always 2,
    stmts := [ { sid := 20, isPhiDef := false, rootNode := .leafOp 1 false } ],
    bbPreds := [], bbRefs := 0, bbWeight := 0,
    flags := { runRarely := true } }

/-- The not-yet-rare join block of the second-pass witness state: both
its predecessors are rarely run. -/
def cexC7p2b2 : BasicBlock :=
  { bbNum := 2, kind := .ret,
    stmts := [ { sid := 21, isPhiDef := false, rootNode := .leafOp 2 false } ],
    bbPreds := [1, 3], bbRefs := 2, bbWeight := 5 }

/-- A rarely-run second predecessor of the join block of the
second-pass witness state. -/
def cexC7p2b3 : BasicBlock :=
  { bbNum := 3, kind := .always 2,
    stmts := [ { sid := 22, isPhiDef := false, rootNode := .leafOp 3 false } ],
    bbPreds := [], bbRefs := 0, bbWeight := 0,
    flags := { runRarely := true } }

/-- The second-pass witness state: block 2 is not rarely run, is no
handler begin, and all of its predecessors (blocks 1 and 3) are rarely
run. -/
def cexC7p2 : Compiler :=
  { blocks := [cexC7p2b1, cexC7p2b2, cexC7p2b3] }

/-- Witness for claim C7&apos;s theorem: at `cexC7w` the first pass
marks the profile-weight-free conditional block whose two arms are
rarely run, and at `cexC7p2` the second pass marks the block all of
whose predecessors are rarely run, reporting the graph modified. -/
theorem claimC7_rarelyRunPropagation_witness :
    (∃ b', ((cexC7w.updateBlock 1 BasicBlock.bbSetRunRarely, true) :
        Compiler × Bool).1.findBlock 1 = some b' ∧
      b'.flags.runRarely = true) ∧
    (((cexC7p2.updateBlock 2 BasicBlock.bbSetRunRarely, true) :
        Compiler × Bool).2 = true ∧
      ((pass2Mark cexC7p2 2 cexC7p2b2).findBlock 2).map
        BasicBlock.isRunRarely = some true) := by
  constructor
  · exact claimC7_rarelyRunPropagation.1 2 cexC7w 1 2 cexC7wB1 cexRareB2
      false (cexC7w.updateBlock 1 BasicBlock.bbSetRunRarely, true)
      (by decide) (by decide) (by decide) (by decide) (by decide) rfl
      (Or.inr (Or.inr ⟨3, by decide, by decide, by decide⟩))
  · exact claimC7_rarelyRunPropagation.2 3 cexC7p2 1 2 cexC7p2b2 false
      (cexC7p2.updateBlock 2 BasicBlock.bbSetRunRarely, true)
      (by decide) (by decide) (by decide) (by decide) (by decide) rfl

/-- Witness for claim C10&apos;s theorem at the concrete state `cexC7`:
the first pass leaves the profile-weighted conditional block untouched
even though both of its arms are rarely run. -/
theorem claimC10_profilePass1_witness :
    ((cexC7, false) : Compiler × Bool).1.findBlock 1 = some cexC7b1 :=
  claimC10_profilePass1 10 cexC7 1 false (cexC7, false) rfl 1 cexC7b1
    (by decide) (by decide)

/-!
## Dominators and reachability sets (`fgComputeDoms`, `fgDominate`,
`fgComputeReachabilitySets`, `fgReachable`)
-/

/-- The postorder number consulted by `fgIntersectDom`: the imaginary
super-root (block 0) carries the highest number `fgBBcount + 1`
(fgopt.cpp:964, `bbRoot.bbPostorderNum = fgBBNumMax + 1`). -/
def bbPostorderOf (c : Compiler) (n : Nat) : Nat :=
  if n = 0 then c.fgBBcount + 1
  else ((c.findBlock n).map BasicBlock.bbPostorderNum).getD 0

/-- The immediate dominator consulted by `fgIntersectDom`: the imaginary
super-root is its own dominator (fgopt.cpp:962). -/
def bbIDomOf (c : Compiler) (n : Nat) : Option Nat :=
  if n = 0 then some 0
  else
    match c.findBlock n with
    | some b => b.bbIDom
    | none => none

/-- `fgIntersectDom` (fgopt.cpp:1284-1300): climb the immediate-dominator
chains of the two fingers, always advancing the one with the smaller
postorder number, until they meet (one climb per fuel step; two distinct
fingers with equal postorder numbers make the source loop forever, here
`none`). -/
def fgIntersectDom (c : Compiler) : Nat → Nat → Nat → Option Nat
  | 0, _, _ => none
  | fuel + 1, f1, f2 =>
    if f1 = f2 then some f1
    else if bbPostorderOf c f1 < bbPostorderOf c f2 then
      match bbIDomOf c f1 with
      | some g => fgIntersectDom c fuel g f2
      | none => none
    else if bbPostorderOf c f2 < bbPostorderOf c f1 then
      match bbIDomOf c f2 with
      | some g => fgIntersectDom c fuel f1 g
      | none => none
    else none

/-- The entry initialization of `fgComputeDoms` (fgopt.cpp:978-998): the
first block gets the super-root as immediate dominator; every other
block with an empty predecessor list is an orphan and temporarily gets
the super-root as its sole predecessor and dominator; the rest start
with no dominator. -/
def domsInitBlocks (c : Compiler) : Compiler :=
  { c with blocks :=
      match c.blocks with
      | [] => []
      | first :: rest =>
        { first with bbIDom := some 0 } ::
        rest.map (fun b =>
          if b.bbPreds.isEmpty then
            { b with bbPreds := [0], bbIDom := some 0 }
          else { b with bbIDom := none }) }

/-- The initially processed set of `fgComputeDoms` (fgopt.cpp:972-976,
989-993): the super-root, the first block, and the orphans. -/
def domsInitProcessed (c : Compiler) : List Nat :=
  match c.blocks with
  | [] => [0]
  | first :: rest =>
    0 :: first.bbNum ::
      (rest.filter (fun b => b.bbPreds.isEmpty)).map BasicBlock.bbNum

/-- The EH entry marking of `fgComputeDoms` (fgopt.cpp:1000-1013): every
handler begin (and filter begin) gets the super-root as immediate
dominator and joins the processed set. -/
def domsMarkEHGo : List EHblkDsc → Compiler × List Nat → Compiler × List Nat
  | [], acc => acc
  | d :: rest, acc =>
    let acc1 :=
      match d.ebdFilter with
      | some f => ((acc.1.updateBlock f (fun b => { b with bbIDom := some 0 })),
          acc.2 ++ [f])
      | none => acc
    domsMarkEHGo rest
      ((acc1.1.updateBlock d.ebdHndBeg
        (fun b => { b with bbIDom := some 0 })), acc1.2 ++ [d.ebdHndBeg])

/-- The per-block immediate-dominator candidate of the `fgComputeDoms`
fixpoint (fgopt.cpp:1046-1063): starting from the first processed
predecessor, fold the remaining predecessors (skipping every edge from
that same source) through `fgIntersectDom` whenever the predecessor
already has a dominator. -/
def domsNewIdom (c : Compiler) (ifuel : Nat) (preds : List Nat) (p0 : Nat) :
    Option Nat :=
  preds.foldl (fun acc p =>
    match acc with
    | none => none
    | some cur =>
      if p = p0 then some cur
      else
        match bbIDomOf c p with
        | some _ => fgIntersectDom c ifuel p cur
        | none => some cur) (some p0)

/-- One sweep of the `fgComputeDoms` fixpoint over the reverse-postorder
list (fgopt.cpp:1021-1073): blocks whose dominator is the super-root are
skipped; otherwise the new candidate replaces a differing dominator and
the block joins the processed set. -/
def domsSweep (ifuel : Nat) :
    List Nat → Compiler → List Nat → Bool → Option (Compiler × List Nat × Bool)
  | [], c, processed, changed => some (c, processed, changed)
  | i :: rest, c, processed, changed =>
    match c.findBlock i with
    | none => none
    | some b =>
      if b.bbIDom = some 0 then domsSweep ifuel rest c processed changed
      else
        match b.bbPreds.find? (fun p => processed.contains p) with
        | none => none
        | some p0 =>
          match domsNewIdom c ifuel b.bbPreds p0 with
          | none => none
          | some ni =>
            let c1 :=
              if b.bbIDom = some ni then c
              else c.updateBlock i (fun x => { x with bbIDom := some ni })
            domsSweep ifuel rest c1 (processed ++ [i])
              (changed || !(b.bbIDom == some ni))

/-- The `fgComputeDoms` fixpoint (fgopt.cpp:1016-1075): sweep until no
immediate dominator changes, fuel-bounding the iteration count. -/
def domsLoop (ifuel : Nat) (rpoTail : List Nat) :
    Nat → Compiler → List Nat → Option Compiler
  | 0, _, _ => none
  | fuel + 1, c, processed =>
    match domsSweep ifuel rpoTail c processed false with
    | none => none
    | some (c1, processed1, changed) =>
      if changed then domsLoop ifuel rpoTail fuel c1 processed1
      else some c1

/-- The predecessor restoration of `fgComputeDoms` (fgopt.cpp:1083-1092):
every block whose predecessor list is the temporary super-root edge gets
its empty list back. -/
def domsRestorePreds (c : Compiler) : Compiler :=
  { c with blocks := c.blocks.map (fun b =>
      if b.bbPreds = [0] then { b with bbPreds := [] } else b) }

/-- The dominator-forest roots of `fgBuildDomTree` (fgopt.cpp:1146-1172):
the first block followed, in block order, by every later block whose
immediate dominator is the imaginary root. -/
def domRoots (c : Compiler) : List Nat :=
  match c.blocks with
  | [] => []
  | first :: rest =>
    first.bbNum :: (rest.filter (fun b => b.bbIDom = some 0)).map
      BasicBlock.bbNum

/-- The dominator-tree children of a block in `fgBuildDomTree`
(fgopt.cpp:1159-1161): each non-imaginary parent collects its dominated
blocks by prepending to `firstChild`, so the child list holds them in
reverse block order. -/
def domChildren (c : Compiler) (p : Nat) : List Nat :=
  ((((c.blocks.drop 1).filter (fun b => b.bbIDom = some p))).map
    BasicBlock.bbNum).reverse

/-- The root-dominator clearing of `fgBuildDomTree` (fgopt.cpp:1140,
1170): the first block and every forest root lose their imaginary
dominator, turning the tree back into a forest. -/
def domClearRootIdoms (c : Compiler) : Compiler :=
  { c with blocks :=
      match c.blocks with
      | [] => []
      | first :: rest =>
        { first with bbIDom := none } ::
        rest.map (fun b =>
          if b.bbIDom = some 0 then { b with bbIDom := none } else b) }

/-- The traversal state of `fgNumberDomTree` (fgopt.cpp:1212-1246): the
pre/post-order numbering maps and the two counters, both starting
at 1. -/
structure NumberState where
  preMap : Nat → Nat
  postMap : Nat → Nat
  preNum : Nat
  postNum : Nat

/-- The preorder assignment of one `PreOrderVisit` (fgopt.cpp:1235-1238):
record the counter for the node and advance it. -/
def preAssign (n : Nat) (s : NumberState) : NumberState :=
  { s with
      preMap := fun m => if m = n then s.preNum else s.preMap m,
      preNum := s.preNum + 1 }

/-- The postorder assignment of one `PostOrderVisit`
(fgopt.cpp:1240-1243). -/
def postAssign (n : Nat) (s : NumberState) : NumberState :=
  { s with
      postMap := fun m => if m = n then s.postNum else s.postMap m,
      postNum := s.postNum + 1 }

mutual

/-- One node visit of the `fgNumberDomTree` DFS (fgopt.cpp:1235-1243):
assign the preorder number on entry, walk the children, assign the
postorder number on exit. -/
def numberVisit (kids : Nat → List Nat) : Nat → Nat → NumberState →
    Option NumberState
  | 0, _, _ => none
  | fuel + 1, n, s =>
    match numberSibs kids fuel (kids n) (preAssign n s) with
    | none => none
    | some s2 => some (postAssign n s2)

/-- The sibling walk of the `fgNumberDomTree` DFS: visit a list of
subtree roots in order. -/
def numberSibs (kids : Nat → List Nat) : Nat → List Nat → NumberState →
    Option NumberState
  | _, [], s => some s
  | 0, _ :: _, _ => none
  | fuel + 1, n :: rest, s =>
    match numberVisit kids fuel n s with
    | none => none
    | some s1 => numberSibs kids fuel rest s1

end

/-- `fgComputeDoms` (fgopt.cpp:933-1111): initialize the orphan and EH
entry blocks against the imaginary super-root, run the immediate-
dominator fixpoint over the reverse postorder, restore the temporarily
connected predecessor lists, and build and number the dominator forest
(`fgBuildDomTree`, `fgNumberDomTree`), finally recording the numbering
epoch. The `noway_assert` checks of the numbering visitor that both
counters ended at `fgBBNumMax + 1` (fgopt.cpp:1247-1248) are kept as
guards. The flag pass `fgCompDominatedByExceptionalEntryBlocks`
maintains a flag this model does not carry and is elided. -/
def fgComputeDoms (c : Compiler) (sf ifuel wf : Nat) : Option Compiler :=
  match c.blocks.head? with
  | none => none
  | some _ =>
    let m := domsMarkEHGo c.compHndBBtab (domsInitBlocks c, domsInitProcessed c)
    match domsLoop ifuel (c.fgBBReversePostorder.drop 1) sf m.1 m.2 with
    | none => none
    | some c3 =>
      let c4 := domsRestorePreds c3
      let c5 := domClearRootIdoms c4
      match numberSibs (domChildren c4) wf (domRoots c4)
          { preMap := fun _ => 0, postMap := fun _ => 0,
            preNum := 1, postNum := 1 } with
      | none => none
      | some s =>
        if s.preNum = c5.fgBBcount + 1 ∧ s.postNum = c5.fgBBcount + 1 then
          some { c5 with
            fgDomTreePreOrder := s.preMap,
            fgDomTreePostOrder := s.postMap,
            fgDomBBcount := c5.fgBBcount,
            fgDomsComputed := true }
        else none

/-- `fgDominate` (fgopt.cpp:29-83): a block beyond the numbering epoch is
dominated when it equals the first block or every one of its
predecessors is dominated (and it has at least one); a first block
beyond the epoch dominates nothing; within the epoch the dominator-tree
interval test `pre[A] <= pre[B] && post[A] >= post[B]` decides. The
recursion over new blocks is fuel-bounded. -/
def fgDominate (c : Compiler) : Nat → Nat → Nat → Option Bool
  | 0, _, _ => none
  | fuel + 1, n1, n2 =>
    if n2 > c.fgDomBBcount then
      if n1 = n2 then some true
      else
        match c.findBlock n2 with
        | none => none
        | some b2 =>
          match b2.bbPreds.foldl (fun acc p =>
            match acc with
            | none => none
            | some false => some false
            | some true => fgDominate c fuel n1 p) (some true) with
          | none => none
          | some r => some (r && !b2.bbPreds.isEmpty)
    else if n1 > c.fgDomBBcount then some false
    else
      some (decide (c.fgDomTreePreOrder n1 ≤ c.fgDomTreePreOrder n2) &&
        decide (c.fgDomTreePostOrder n2 ≤ c.fgDomTreePostOrder n1))

/-- `fgReachable` (fgopt.cpp:101-151): a target beyond the numbering
epoch is reachable when it equals the source or some predecessor is
reachable; a source beyond the epoch delegates to its jump target (and
fallthrough, for a conditional; other kinds are asserted away); within
the epoch the cached `bbReach` bit set of the target decides. -/
def fgReachable (c : Compiler) : Nat → Nat → Nat → Option Bool
  | 0, _, _ => none
  | fuel + 1, n1, n2 =>
    if n2 > c.fgDomBBcount then
      if n1 = n2 then some true
      else
        match c.findBlock n2 with
        | none => none
        | some b2 =>
          b2.bbPreds.foldl (fun acc p =>
            match acc with
            | none => none
            | some true => some true
            | some false => fgReachable c fuel n1 p) (some false)
    else if n1 > c.fgDomBBcount then
      match c.findBlock n1 with
      | none => none
      | some b1 =>
        match b1.kind with
        | .cond t =>
          match c.bbNextNum n1 with
          | none => none
          | some nx =>
            match fgReachable c fuel nx n2, fgReachable c fuel t n2 with
            | some r1, some r2 => some (r1 || r2)
            | _, _ => none
        | .always t => fgReachable c fuel t n2
        | _ => none
    else
      match c.findBlock n2 with
      | none => none
      | some b2 => some (b2.bbReach.contains n1)

/-- The bit-set union step of `fgComputeReachabilitySets`
(`BlockSetOps::UnionDChanged`): append the missing elements, reporting
whether anything was new. -/
def unionReach (cur add : List Nat) : List Nat × Bool :=
  let newElems := add.filter (fun x => !cur.contains x)
  (cur ++ newElems, !newElems.isEmpty)

/-- The per-block initialization of `fgComputeReachabilitySets`
(fgopt.cpp:226-235): every block reaches itself. -/
def reachInit (c : Compiler) : Compiler :=
  { c with blocks := c.blocks.map (fun b => { b with bbReach := [b.bbNum] }) }

/-- One sweep of the `fgComputeReachabilitySets` fixpoint
(fgopt.cpp:245-259): each block with predecessors unions their reach
sets into its own and inherits the GC-safe-point flag when all
predecessors carry it. -/
def reachSweep : List Nat → Compiler → Bool → Compiler × Bool
  | [], c, ch => (c, ch)
  | i :: rest, c, ch =>
    match c.findBlock i with
    | none => reachSweep rest c ch
    | some b =>
      if b.bbPreds.isEmpty then reachSweep rest c ch
      else
        let add := b.bbPreds.foldl (fun acc p =>
          acc ++ (((c.findBlock p).map BasicBlock.bbReach).getD [])) []
        let u := unionReach b.bbReach add
        let allGc := b.bbPreds.all (fun p =>
          (((c.findBlock p).map (fun x => x.flags.gcSafePoint)).getD false))
        let c1 := c.updateBlock i (fun x =>
          { x with bbReach := u.1,
                   flags := { x.flags with
                     gcSafePoint := x.flags.gcSafePoint || allGc } })
        reachSweep rest c1 (ch || u.2)

/-- The `fgComputeReachabilitySets` fixpoint loop (fgopt.cpp:239-262),
fuel-bounded. -/
def reachLoop (rpoTail : List Nat) : Nat → Compiler → Option Compiler
  | 0, _ => none
  | fuel + 1, c =>
    match reachSweep rpoTail c false with
    | (c1, true) => reachLoop rpoTail fuel c1
    | (c1, false) => some c1

/-- `fgComputeReachabilitySets` (fgopt.cpp:217-277): reset every reach
set to the singleton self and union along predecessors to fixpoint in
reverse-postorder sweeps. -/
def fgComputeReachabilitySets (c : Compiler) (fuel : Nat) : Option Compiler :=
  reachLoop (c.fgBBReversePostorder.drop 1) fuel (reachInit c)

/-- The predecessor-list projection of a block record: which block, and
which predecessor edges it owns. -/
def predsProj (b : BasicBlock) : Nat × List Nat := (b.bbNum, b.bbPreds)

theorem map_predsProj_updateBlock (c : Compiler) (n : Nat) (f)
    (hf : ∀ b, predsProj (f b) = predsProj b) :
    (c.updateBlock n f).blocks.map predsProj = c.blocks.map predsProj := by
  show (c.blocks.map (fun b => if b.bbNum = n then f b else b)).map predsProj =
    c.blocks.map predsProj
  rw [List.map_map]
  apply List.map_congr_left
  intro b _
  show predsProj (if b.bbNum = n then f b else b) = predsProj b
  split
  · exact hf b
  · rfl

theorem map_predsProj_markEH :
    ∀ (tab : List EHblkDsc) (acc : Compiler × List Nat),
      (domsMarkEHGo tab acc).1.blocks.map predsProj =
        acc.1.blocks.map predsProj := by
  intro tab
  induction tab with
  | nil => intro acc; rfl
  | cons d rest ih =>
    intro acc
    unfold domsMarkEHGo
    rw [ih]
    cases d.ebdFilter with
    | none =>
      dsimp only
      rw [map_predsProj_updateBlock]
      intro b; rfl
    | some fb =>
      dsimp only
      rw [map_predsProj_updateBlock, map_predsProj_updateBlock]
      · intro b; rfl
      · intro b; rfl

theorem map_predsProj_sweep (ifuel : Nat) :
    ∀ (rpo : List Nat) (c : Compiler) (pr : List Nat) (ch : Bool) out,
      domsSweep ifuel rpo c pr ch = some out →
      out.1.blocks.map predsProj = c.blocks.map predsProj := by
  intro rpo
  induction rpo with
  | nil =>
    intro c pr ch out h
    cases h
    rfl
  | cons i rest ih =>
    intro c pr ch out h
    unfold domsSweep at h
    cases hfb : c.findBlock i with
    | none => rw [hfb] at h; exact absurd h (by simp)
    | some b =>
      rw [hfb] at h
      dsimp only at h
      by_cases h0 : b.bbIDom = some 0
      · rw [if_pos h0] at h
        exact ih c pr ch out h
      · rw [if_neg h0] at h
        cases hp0 : b.bbPreds.find? (fun p => pr.contains p) with
        | none => rw [hp0] at h; exact absurd h (by simp)
        | some p0 =>
          rw [hp0] at h
          dsimp only at h
          cases hni : domsNewIdom c ifuel b.bbPreds p0 with
          | none => rw [hni] at h; exact absurd h (by simp)
          | some ni =>
            rw [hni] at h
            dsimp only at h
            by_cases hsame : b.bbIDom = some ni
            · rw [if_pos hsame] at h
              exact ih _ _ _ _ h
            · rw [if_neg hsame] at h
              rw [ih _ _ _ _ h]
              rw [map_predsProj_updateBlock]
              intro x; rfl

theorem map_predsProj_domsLoop (ifuel : Nat) (rpo : List Nat) :
    ∀ (fuel : Nat) (c : Compiler) (pr : List Nat) (c3 : Compiler),
      domsLoop ifuel rpo fuel c pr = some c3 →
      c3.blocks.map predsProj = c.blocks.map predsProj := by
  intro fuel
  induction fuel with
  | zero => intro c pr c3 h; simp [domsLoop] at h
  | succ f ih =>
    intro c pr c3 h
    unfold domsLoop at h
    cases hsw : domsSweep ifuel rpo c pr false with
    | none => rw [hsw] at h; exact absurd h (by simp)
    | some out =>
      rw [hsw] at h
      dsimp only at h
      by_cases hch : out.2.2 = true
      · rw [if_pos hch] at h
        rw [ih _ _ _ h]
        exact map_predsProj_sweep ifuel rpo c pr false out hsw
      · rw [if_neg hch] at h
        cases h
        exact map_predsProj_sweep ifuel rpo c pr false _ hsw

/-- The predecessor projection of the orphan marking: an empty list
becomes the temporary super-root edge. -/
def initP (x : Nat × List Nat) : Nat × List Nat :=
  if x.2.isEmpty then (x.1, [0]) else x

/-- The predecessor projection of the restoration: the temporary
super-root edge becomes the empty list again. -/
def restoreP (x : Nat × List Nat) : Nat × List Nat :=
  if x.2 = [0] then (x.1, []) else x

theorem map_predsProj_init (c : Compiler) :
    (domsInitBlocks c).blocks.map predsProj =
      match c.blocks with
      | [] => []
      | first :: rest =>
        predsProj first :: rest.map (fun b => initP (predsProj b)) := by
  unfold domsInitBlocks
  cases c.blocks with
  | nil => rfl
  | cons first rest =>
    dsimp only
    rw [List.map_cons, List.map_map]
    refine congrArg₂ List.cons rfl ?_
    apply List.map_congr_left
    intro b _
    show predsProj (if b.bbPreds.isEmpty then _ else _) = initP (predsProj b)
    by_cases he : b.bbPreds.isEmpty
    · rw [if_pos he]
      unfold initP predsProj
      dsimp only
      rw [if_pos he]
    · rw [if_neg he]
      unfold initP predsProj
      dsimp only
      rw [if_neg he]

theorem map_predsProj_restore (c : Compiler) :
    (domsRestorePreds c).blocks.map predsProj =
      (c.blocks.map predsProj).map restoreP := by
  unfold domsRestorePreds
  dsimp only
  rw [List.map_map, List.map_map]
  apply List.map_congr_left
  intro b _
  show predsProj (if b.bbPreds = [0] then _ else _) = restoreP (predsProj b)
  by_cases he : b.bbPreds = [0]
  · rw [if_pos he]
    unfold restoreP predsProj
    dsimp only
    rw [if_pos he]
  · rw [if_neg he]
    unfold restoreP predsProj
    dsimp only
    rw [if_neg he]

theorem map_predsProj_clear (c : Compiler) :
    (domClearRootIdoms c).blocks.map predsProj = c.blocks.map predsProj := by
  unfold domClearRootIdoms
  cases c.blocks with
  | nil => rfl
  | cons first rest =>
    dsimp only
    rw [List.map_cons, List.map_map]
    refine congrArg₂ List.cons rfl ?_
    apply List.map_congr_left
    intro b _
    show predsProj (if b.bbIDom = some 0 then _ else _) = predsProj b
    split <;> rfl

/-- Claim C9: `fgComputeDoms` returns every predecessor list exactly as
it found it — the temporary super-root edges given to orphan blocks are
all removed again and no other list is touched — provided no input list
already mentions the imaginary block 0 (no real flow edge can). -/
theorem claimC9_predsRestored (c : Compiler) (sf ifuel wf : Nat)
    (c' : Compiler) (h : fgComputeDoms c sf ifuel wf = some c')
    (hz : ∀ b ∈ c.blocks, 0 ∉ b.bbPreds) :
    c'.blocks.map predsProj = c.blocks.map predsProj := by
  unfold fgComputeDoms at h
  cases hhd : c.blocks.head? with
  | none => rw [hhd] at h; exact absurd h (by simp)
  | some first =>
    rw [hhd] at h
    dsimp only at h
    cases hlp : domsLoop ifuel (c.fgBBReversePostorder.drop 1) sf
        (domsMarkEHGo c.compHndBBtab
          (domsInitBlocks c, domsInitProcessed c)).1
        (domsMarkEHGo c.compHndBBtab
          (domsInitBlocks c, domsInitProcessed c)).2 with
    | none => rw [hlp] at h; exact absurd h (by simp)
    | some c3 =>
      rw [hlp] at h
      dsimp only at h
      cases hns : numberSibs (domChildren (domsRestorePreds c3)) wf
          (domRoots (domsRestorePreds c3))
          { preMap := fun _ => 0, postMap := fun _ => 0,
            preNum := 1, postNum := 1 } with
      | none => rw [hns] at h; exact absurd h (by simp)
      | some s =>
        rw [hns] at h
        dsimp only at h
        rw [if_pos] at h
        case hc =>
          by_contra hcon
          rw [if_neg hcon] at h
          exact absurd h (by simp)
        cases h
        show (domClearRootIdoms (domsRestorePreds c3)).blocks.map predsProj =
          c.blocks.map predsProj
        rw [map_predsProj_clear, map_predsProj_restore,
          map_predsProj_domsLoop ifuel _ sf _ _ c3 hlp,
          map_predsProj_markEH, map_predsProj_init]
        cases hbl : c.blocks with
        | nil => rfl
        | cons first rest =>
          dsimp only
          rw [List.map_cons, List.map_cons, List.map_map]
          have hzf : first.bbPreds ≠ [0] := by
            intro hcon
            exact hz first (hbl ▸ List.mem_cons_self first rest)
              (hcon ▸ List.mem_singleton_self 0)
          have h1 : restoreP (predsProj first) = predsProj first := by
            unfold restoreP predsProj
            rw [if_neg hzf]
          refine congrArg₂ List.cons h1 ?_
          apply List.map_congr_left
          intro b hb
          have hzb : 0 ∉ b.bbPreds :=
            hz b (hbl ▸ List.mem_cons_of_mem first hb)
          show restoreP (initP (predsProj b)) = predsProj b
          by_cases he : b.bbPreds.isEmpty
          · unfold initP predsProj
            dsimp only
            rw [if_pos he]
            unfold restoreP
            dsimp only
            rw [if_pos rfl]
            rw [List.isEmpty_iff.mp he]
          · unfold initP predsProj
            dsimp only
            rw [if_neg he]
            unfold restoreP
            dsimp only
            rw [if_neg (by
              intro hcon
              rw [hcon] at hzb
              exact hzb (List.mem_singleton_self 0))]

/-- A three-block state with an orphan handler block: block 3 has no
predecessors and is the handler of the try region beginning at block 2;
block 2 is reached from the entry and from the handler. -/
def cexC2 : Compiler :=
  { blocks :=
      [ { bbNum := 1, kind := .always 2,
          stmts := [ { sid := 10, isPhiDef := false,
                       rootNode := .leafOp 1 false } ],
          bbPreds := [], bbRefs := 0, bbWeight := 1, bbPostorderNum := 3 },
        { bbNum := 2, kind := .ret,
          stmts := [ { sid := 11, isPhiDef := false,
                       rootNode := .leafOp 2 false } ],
          bbPreds := [1, 3], bbRefs := 2, bbWeight := 1,
          bbPostorderNum := 1 },
        { bbNum := 3, kind := .always 2,
          stmts := [ { sid := 12, isPhiDef := false,
                       rootNode := .leafOp 3 false } ],
          bbPreds := [], bbRefs := 0, bbWeight := 0, bbPostorderNum := 2 } ],
    compHndBBtab := [ { ebdTryBeg := 2, ebdHndBeg := 3 } ],
    fgBBReversePostorder := [0, 1, 3, 2] }

/-- Witness for claim C9&apos;s theorem at the concrete state `cexC2`:
the orphan handler block 3 temporarily receives the super-root edge and
gets its empty predecessor list back. -/
theorem claimC9_predsRestored_witness :
    ∃ c', fgComputeDoms cexC2 5 9 9 = some c' ∧
      c'.blocks.map predsProj = cexC2.blocks.map predsProj := by
  cases hh : fgComputeDoms cexC2 5 9 9 with
  | none =>
    have hs : (fgComputeDoms cexC2 5 9 9).isSome = true := by decide
    rw [hh] at hs
    exact absurd hs (by decide)
  | some c' =>
    exact ⟨c', rfl, claimC9_predsRestored cexC2 5 9 9 c' hh (by decide)⟩

/-- Claim C2 (amended): the dominance query is reflexive everywhere, and
transitive on blocks inside the numbering epoch; but the entry block
need NOT dominate every block reachable from it — a block also reachable
from an exceptional (EH) entry lives in a separate tree of the dominator
forest. -/
theorem claimC2_dominateAlgebra (c : Compiler) (fuel : Nat) :
    (∀ n, fgDominate c (fuel + 1) n n = some true) ∧
    (∀ a b d, a ≤ c.fgDomBBcount → b ≤ c.fgDomBBcount →
      d ≤ c.fgDomBBcount →
      fgDominate c (fuel + 1) a b = some true →
      fgDominate c (fuel + 1) b d = some true →
      fgDominate c (fuel + 1) a d = some true) := by
  constructor
  · intro n
    unfold fgDominate
    by_cases hn : n > c.fgDomBBcount
    · rw [if_pos hn, if_pos rfl]
    · rw [if_neg hn, if_neg hn]
      simp
  · intro a b d ha hb hd h1 h2
    unfold fgDominate at h1 h2 ⊢
    rw [if_neg (by omega), if_neg (by omega)] at h1
    rw [if_neg (by omega), if_neg (by omega)] at h2
    rw [if_neg (by omega), if_neg (by omega)]
    have e1 := Option.some.inj h1
    have e2 := Option.some.inj h2
    rw [Bool.and_eq_true, decide_eq_true_iff, decide_eq_true_iff] at e1 e2
    have : c.fgDomTreePreOrder a ≤ c.fgDomTreePreOrder d :=
      le_trans e1.1 e2.1
    have : c.fgDomTreePostOrder d ≤ c.fgDomTreePostOrder a :=
      le_trans e2.2 e1.2
    simp_all

/-- Claim C2 counterexample: running `fgComputeDoms` on `cexC2` yields a
state in which block 2 is a direct flow successor of the entry block 1,
yet `fgDominate` denies that the entry dominates it: block 2 is also
reachable from the exceptional entry 3, so the fixpoint makes the
imaginary super-root its immediate dominator and the numbering places it
in a separate tree of the forest. -/
theorem claimC2_counterexample :
    ∃ c', fgComputeDoms cexC2 5 9 9 = some c' ∧
      FlowEdgeRel c' 1 2 ∧
      fgDominate c' 5 1 2 = some false := by
  cases hh : fgComputeDoms cexC2 5 9 9 with
  | none =>
    have hs : (fgComputeDoms cexC2 5 9 9).isSome = true := by decide
    rw [hh] at hs
    exact absurd hs (by decide)
  | some c' =>
    have hfs : (fgComputeDoms cexC2 5 9 9).map (fun x => flowSuccs x 1) =
        some [2] := by decide
    have hdm : (fgComputeDoms cexC2 5 9 9).map
        (fun x => fgDominate x 5 1 2) = some (some false) := by decide
    rw [hh] at hfs hdm
    refine ⟨c', rfl, ?_, Option.some.inj hdm⟩
    have hfs2 : flowSuccs c' 1 = [2] := Option.some.inj hfs
    unfold FlowEdgeRel
    unfold flowSuccs at hfs2
    cases hcf : c'.findBlock 1 with
    | none =>
      rw [hcf] at hfs2
      exact absurd hfs2 (by simp)
    | some b1 =>
      rw [hcf] at hfs2
      dsimp only at hfs2 ⊢
      rw [hfs2]
      exact List.mem_singleton_self 2

/-- The epoch and numbering data used by the claim C2 witness: three
blocks numbered by one dominator chain 1-2-3. -/
def cexC2w : Compiler :=
  { blocks := [],
    fgDomBBcount := 3,
    fgDomTreePreOrder := fun n => n,
    fgDomTreePostOrder := fun n => 4 - n }

/-- Witness for claim C2&apos;s theorem at the concrete state `cexC2w`:
reflexivity at block 1 and transitivity along the chain 1-2-3. -/
theorem claimC2_dominateAlgebra_witness :
    fgDominate cexC2w 1 1 1 = some true ∧
    fgDominate cexC2w 1 1 3 = some true :=
  ⟨(claimC2_dominateAlgebra cexC2w 0).1 1,
   (claimC2_dominateAlgebra cexC2w 0).2 1 2 3 (by decide) (by decide)
     (by decide) (by decide) (by decide)⟩

/-!
## The dominator-tree numbering walk: structure of a successful run
-/

/-- Descendant relation of a child-list function: `v` lies in the
subtree below `u`. -/
def KidsDesc (kids : Nat → List Nat) (u v : Nat) : Prop :=
  Relation.ReflTransGen (fun x y => y ∈ kids x) u v

/-- Strict descendant relation of a child-list function. -/
def KidsDescS (kids : Nat → List Nat) (u v : Nat) : Prop :=
  Relation.TransGen (fun x y => y ∈ kids x) u v

theorem sibs_member_success (kids : Nat → List Nat) :
    ∀ (ns : List Nat) (g : Nat) (s s' : NumberState) (m : Nat),
      numberSibs kids g ns s = some s' → m ∈ ns →
      ∃ g' < g, ∃ t t', numberVisit kids g' m t = some t' := by
  intro ns
  induction ns with
  | nil => intro g s s' m h hm; simp at hm
  | cons n rest ih =>
    intro g s s' m h hm
    cases g with
    | zero => simp [numberSibs] at h
    | succ f =>
      unfold numberSibs at h
      cases hv : numberVisit kids f n s with
      | none => rw [hv] at h; exact absurd h (by simp)
      | some s1 =>
        rw [hv] at h
        dsimp only at h
        rcases List.mem_cons.mp hm with rfl | hm2
        · exact ⟨f, Nat.lt_succ_self f, s, s1, hv⟩
        · obtain ⟨g', hg', t, t', ht⟩ := ih f s1 s' m h hm2
          exact ⟨g', Nat.lt_trans hg' (Nat.lt_succ_self f), t, t', ht⟩

theorem walk_child_success (kids : Nat → List Nat) (g : Nat) (n : Nat)
    (s s' : NumberState) (h : numberVisit kids g n s = some s')
    (m : Nat) (hm : m ∈ kids n) :
    ∃ g' < g, ∃ t t', numberVisit kids g' m t = some t' := by
  cases g with
  | zero => simp [numberVisit] at h
  | succ f =>
    unfold numberVisit at h
    cases hsb : numberSibs kids f (kids n) (preAssign n s) with
    | none => rw [hsb] at h; exact absurd h (by simp)
    | some s2 =>
      obtain ⟨g', hg', t, t', ht⟩ := sibs_member_success kids (kids n) f _ s2
        m hsb hm
      exact ⟨g', Nat.lt_trans hg' (Nat.lt_succ_self f), t, t', ht⟩

theorem walk_desc_success (kids : Nat → List Nat) (n m : Nat)
    (hd : KidsDescS kids n m) :
    ∀ (g : Nat) (s s' : NumberState),
      numberVisit kids g n s = some s' →
      ∃ g' < g, ∃ t t', numberVisit kids g' m t = some t' := by
  induction hd with
  | single hstep =>
    intro g s s' h
    exact walk_child_success kids g n s s' h _ hstep
  | tail hsub hstep ih =>
    intro g s s' h
    obtain ⟨g', hg', t, t', ht⟩ := ih g s s' h
    obtain ⟨g'', hg'', u, u', hu⟩ := walk_child_success kids g' _ t t' ht
      _ hstep
    exact ⟨g'', Nat.lt_trans hg'' hg', u, u', hu⟩

/-- A successful numbering visit excludes a child-cycle through the
visited node: the walk would descend forever. -/
theorem walk_noCycle (kids : Nat → List Nat) (n : Nat) :
    ∀ (g : Nat) (s s' : NumberState),
      numberVisit kids g n s = some s' → ¬ KidsDescS kids n n := by
  intro g
  induction g using Nat.strong_induction_on with
  | _ g ih =>
    intro s s' hv hcyc
    obtain ⟨g', hg', t, t', ht⟩ := walk_desc_success kids n n hcyc g s s' hv
    exact ih g' hg' t t' ht hcyc

/-- With each node owning at most one parent, two ancestors of a common
node are comparable. -/
theorem kidsDesc_comparable (kids : Nat → List Nat)
    (hK1 : ∀ p q m, m ∈ kids p → m ∈ kids q → p = q)
    (u m : Nat) (h1 : KidsDesc kids u m) :
    ∀ v, KidsDesc kids v m → KidsDesc kids u v ∨ KidsDesc kids v u := by
  induction h1 with
  | refl => intro v h2; exact Or.inr h2
  | tail p1 hstep ih =>
    intro v h2
    rcases Relation.ReflTransGen.cases_tail h2 with heq | ⟨q, hq, hqm⟩
    · subst heq
      exact Or.inl (Relation.ReflTransGen.tail p1 hstep)
    · rw [hK1 _ _ _ hqm hstep] at hq
      exact ih v hq

/-- Distinct children of an acyclic node have disjoint subtrees. -/
theorem sibling_disjoint (kids : Nat → List Nat)
    (hK1 : ∀ p q m, m ∈ kids p → m ∈ kids q → p = q)
    (n : Nat) (hacyc : ¬ KidsDescS kids n n)
    (u v : Nat) (hu : u ∈ kids n) (hv : v ∈ kids n) (hne : u ≠ v)
    (m : Nat) (h1 : KidsDesc kids u m) (h2 : KidsDesc kids v m) : False := by
  have hcyc : ∀ x y, x ∈ kids n → y ∈ kids n → x ≠ y →
      KidsDesc kids x y → False := by
    intro x y hx hy hxy hxyd
    rcases (Relation.reflTransGen_iff_eq_or_transGen.mp hxyd) with heq | htg
    · exact hxy heq.symm
    · rcases Relation.TransGen.tail'_iff.mp htg with ⟨w, hw, hyw⟩
      rw [hK1 _ _ _ hyw hy] at hw
      exact hacyc (Relation.TransGen.head' hx hw)
  rcases kidsDesc_comparable kids hK1 u m h1 v h2 with h | h
  · exact hcyc u v hu hv hne h
  · exact hcyc v u hv hu (Ne.symm hne) h

/-- Along a descendant chain from a nonzero node every node stays
nonzero, provided child lists never mention node 0. -/
theorem kidsDesc_ne_zero (kids : Nat → List Nat)
    (hK0 : ∀ p m, m ∈ kids p → m ≠ 0)
    (u m : Nat) (hu : u ≠ 0) (h : KidsDesc kids u m) : m ≠ 0 := by
  rcases Relation.ReflTransGen.cases_tail h with heq | ⟨w, _, hmw⟩
  · exact heq ▸ hu
  · exact hK0 w m hmw

/-- Distinct forest roots — nonzero nodes that are nowhere a child of a
nonzero node — have disjoint subtrees, when child lists never mention
node 0. -/
theorem roots_disjoint (kids : Nat → List Nat) (roots : List Nat)
    (hK1 : ∀ p q m, m ∈ kids p → m ∈ kids q → p = q)
    (hK0 : ∀ p m, m ∈ kids p → m ≠ 0)
    (hR0 : ∀ r ∈ roots, r ≠ 0)
    (hnochild : ∀ r ∈ roots, ∀ p, p ≠ 0 → r ∉ kids p)
    (u v : Nat) (hu : u ∈ roots) (hv : v ∈ roots) (hne : u ≠ v)
    (m : Nat) (h1 : KidsDesc kids u m) (h2 : KidsDesc kids v m) : False := by
  have hcyc : ∀ x y, x ∈ roots → x ≠ y → KidsDesc kids x y → y ∈ roots →
      False := by
    intro x y hx hxy hxyd hy
    rcases (Relation.reflTransGen_iff_eq_or_transGen.mp hxyd) with heq | htg
    · exact hxy heq.symm
    · rcases Relation.TransGen.tail'_iff.mp htg with ⟨w, hw, hyw⟩
      have hw0 : w ≠ 0 := kidsDesc_ne_zero kids hK0 x w (hR0 x hx) hw
      exact hnochild y hy w hw0 hyw
  rcases kidsDesc_comparable kids hK1 u m h1 v h2 with h | h
  · exact hcyc u v hu hne h hv
  · exact hcyc v u hv (Ne.symm hne) h hu

/-- All recorded numbers lie strictly below the counters. -/
def WalkGood (s : NumberState) : Prop :=
  ∀ m, s.preMap m < s.preNum ∧ s.postMap m < s.postNum

/-- A node whose recorded numbers differ between two walk states. -/
def WalkChanged (s s' : NumberState) (m : Nat) : Prop :=
  s'.preMap m ≠ s.preMap m ∨ s'.postMap m ≠ s.postMap m

/-- A well-formed sibling list for the numbering walk: no duplicates and
pairwise disjoint subtrees. -/
def SibsOK (kids : Nat → List Nat) (ns : List Nat) : Prop :=
  ns.Nodup ∧ ∀ u ∈ ns, ∀ v ∈ ns, u ≠ v →
    ∀ m, KidsDesc kids u m → KidsDesc kids v m → False

/-- What one successful numbering visit of `n` guarantees: balanced
counter advance, counters still bounding the maps, every renumbered node
a descendant of `n` with both numbers inside the visit window, the
numbers of `n` itself at the window edges, a duplicate-free list of the
renumbered nodes accounting for the counter advance, and the interval
test deciding descent among the renumbered nodes. -/
def VisitSpec (kids : Nat → List Nat) (n : Nat) (s s' : NumberState) :
    Prop :=
  (∃ d, 1 ≤ d ∧ s'.preNum = s.preNum + d ∧ s'.postNum = s.postNum + d) ∧
  WalkGood s' ∧
  (∀ m, WalkChanged s s' m → KidsDesc kids n m ∧
    s.preNum ≤ s'.preMap m ∧ s.postNum ≤ s'.postMap m) ∧
  (s'.preMap n = s.preNum ∧ s'.postMap n + 1 = s'.postNum ∧
    WalkChanged s s' n) ∧
  (∃ L : List Nat, L.Nodup ∧ (∀ m, m ∈ L ↔ WalkChanged s s' m) ∧
    L.length + s.preNum = s'.preNum) ∧
  (∀ a b, WalkChanged s s' a → WalkChanged s s' b → a ≠ b →
    s'.preMap a ≤ s'.preMap b → s'.postMap b ≤ s'.postMap a →
    KidsDesc kids a b)

/-- What one successful sibling walk guarantees, mirroring `VisitSpec`
with the subtree roots drawn from the list. -/
def SibsSpec (kids : Nat → List Nat) (ns : List Nat) (s s' : NumberState) :
    Prop :=
  (∃ d, s'.preNum = s.preNum + d ∧ s'.postNum = s.postNum + d) ∧
  WalkGood s' ∧
  (∀ m, WalkChanged s s' m → (∃ r ∈ ns, KidsDesc kids r m) ∧
    s.preNum ≤ s'.preMap m ∧ s.postNum ≤ s'.postMap m) ∧
  (∃ L : List Nat, L.Nodup ∧ (∀ m, m ∈ L ↔ WalkChanged s s' m) ∧
    L.length + s.preNum = s'.preNum) ∧
  (∀ a b, WalkChanged s s' a → WalkChanged s s' b → a ≠ b →
    s'.preMap a ≤ s'.preMap b → s'.postMap b ≤ s'.postMap a →
    KidsDesc kids a b)

theorem walkChanged_of_eqs {s s' : NumberState} {m : Nat}
    (h1 : s'.preMap m = s.preMap m) (h2 : s'.postMap m = s.postMap m) :
    ¬ WalkChanged s s' m := by
  intro h
  rcases h with h | h
  · exact h h1
  · exact h h2

theorem walkChanged_of_eqs_inv {s s' : NumberState} {m : Nat}
    (h : ¬ WalkChanged s s' m) :
    s'.preMap m = s.preMap m ∧ s'.postMap m = s.postMap m := by
  constructor
  · by_contra hc
    exact h (Or.inl hc)
  · by_contra hc
    exact h (Or.inr hc)

/-- The master specification of the numbering walk, by mutual induction
on the fuel: every successful visit and sibling walk from a bounded
state satisfies its spec, provided each node has a single parent, no
child list repeats a node, and the sibling list is well formed. -/
theorem walkSpec (kids : Nat → List Nat)
    (hK1 : ∀ p q m, m ∈ kids p → m ∈ kids q → p = q)
    (hK2 : ∀ p, (kids p).Nodup) :
    ∀ fuel : Nat,
      (∀ n s s', WalkGood s → numberVisit kids fuel n s = some s' →
        VisitSpec kids n s s') ∧
      (∀ ns s s', WalkGood s → SibsOK kids ns →
        numberSibs kids fuel ns s = some s' → SibsSpec kids ns s s') := by
  intro fuel
  induction fuel with
  | zero =>
    constructor
    · intro n s s' _ h
      simp [numberVisit] at h
    · intro ns s s' hg _ h
      cases ns with
      | nil =>
        cases h
        refine ⟨⟨0, rfl, rfl⟩, hg, ?_,
          ⟨[], List.nodup_nil, ?_, by simp⟩, ?_⟩
        · intro m hm
          exact absurd hm (walkChanged_of_eqs rfl rfl)
        · intro m
          simp only [List.not_mem_nil, false_iff]
          exact walkChanged_of_eqs rfl rfl
        · intro a b ha
          exact absurd ha (walkChanged_of_eqs rfl rfl)
      | cons hd tl => simp [numberSibs] at h
  | succ f ih =>
    obtain ⟨ihv, ihs⟩ := ih
    constructor
    · -- the visit case
      intro n s s' hg h
      have hacyc : ¬ KidsDescS kids n n := walk_noCycle kids n (f + 1) s s' h
      unfold numberVisit at h
      cases hsb : numberSibs kids f (kids n) (preAssign n s) with
      | none => rw [hsb] at h; exact absurd h (by simp)
      | some s2 =>
        rw [hsb] at h
        dsimp only at h
        cases h
        have hg1 : WalkGood (preAssign n s) := by
          intro m
          unfold preAssign
          dsimp only
          constructor
          · by_cases hm : m = n
            · rw [if_pos hm]; omega
            · rw [if_neg hm]
              exact Nat.lt_trans (hg m).1 (Nat.lt_succ_self _)
          · exact (hg m).2
        have hok : SibsOK kids (kids n) := by
          refine ⟨hK2 n, ?_⟩
          intro u hu v hv huv m h1 h2
          exact sibling_disjoint kids hK1 n hacyc u v hu hv huv m h1 h2
        obtain ⟨⟨d, hd1, hd2⟩, hg2, hchg2, ⟨L2, hL2nd, hL2mem, hL2len⟩,
          hint2⟩ := ihs (kids n) (preAssign n s) s2 hg1 hok hsb
        have hnotn : ¬ WalkChanged (preAssign n s) s2 n := by
          intro hch
          obtain ⟨⟨r, hr, hdesc⟩, _, _⟩ := hchg2 n hch
          exact hacyc (Relation.TransGen.head' hr hdesc)
        have hpren : s2.preMap n = s.preNum := by
          have := (walkChanged_of_eqs_inv hnotn).1
          rw [this]
          unfold preAssign
          dsimp only
          rw [if_pos rfl]
        have hpostn : s2.postMap n = s.postMap n :=
          (walkChanged_of_eqs_inv hnotn).2
        have htrans : ∀ m, m ≠ n →
            ((postAssign n s2).preMap m = s2.preMap m ∧
             (postAssign n s2).postMap m = s2.postMap m ∧
             (preAssign n s).preMap m = s.preMap m ∧
             (preAssign n s).postMap m = s.postMap m) := by
          intro m hm
          unfold postAssign preAssign
          dsimp only
          rw [if_neg hm, if_neg hm]
          exact ⟨rfl, rfl, rfl, rfl⟩
        have hchiff : ∀ m, m ≠ n →
            (WalkChanged s (postAssign n s2) m ↔
             WalkChanged (preAssign n s) s2 m) := by
          intro m hm
          obtain ⟨e1, e2, e3, e4⟩ := htrans m hm
          unfold WalkChanged
          rw [e1, e2, e3, e4]
        have hprew : (postAssign n s2).preNum = s2.preNum := rfl
        have hpostw : (postAssign n s2).postNum = s2.postNum + 1 := rfl
        have hpremapn : (postAssign n s2).preMap n = s.preNum := hpren
        have hpostmapn : (postAssign n s2).postMap n = s2.postNum := by
          unfold postAssign
          dsimp only
          rw [if_pos rfl]
        have hchn : WalkChanged s (postAssign n s2) n := by
          left
          rw [hpremapn]
          exact Nat.ne_of_gt (hg n).1
        have hd2' : s2.preNum = s.preNum + 1 + d := by
          have : (preAssign n s).preNum = s.preNum + 1 := rfl
          omega
        have hd3' : s2.postNum = s.postNum + d := by
          have : (preAssign n s).postNum = s.postNum := rfl
          omega
        refine ⟨⟨d + 1, by omega, by omega, by omega⟩, ?_, ?_, ?_, ?_, ?_⟩
        · intro m
          by_cases hm : m = n
          · subst hm
            rw [hpremapn, hpostmapn, hprew, hpostw]
            omega
          · obtain ⟨e1, e2, _, _⟩ := htrans m hm
            rw [e1, e2, hprew, hpostw]
            have := hg2 m
            omega
        · intro m hch
          by_cases hm : m = n
          · subst hm
            rw [hpremapn, hpostmapn]
            exact ⟨Relation.ReflTransGen.refl, le_refl _, by omega⟩
          · have hch2 := (hchiff m hm).mp hch
            obtain ⟨⟨r, hr, hdesc⟩, hb1, hb2⟩ := hchg2 m hch2
            obtain ⟨e1, e2, _, _⟩ := htrans m hm
            rw [e1, e2]
            refine ⟨Relation.ReflTransGen.head hr hdesc, by
              have : (preAssign n s).preNum = s.preNum + 1 := rfl
              omega, by
              have : (preAssign n s).postNum = s.postNum := rfl
              omega⟩
        · exact ⟨hpremapn, by rw [hpostmapn, hpostw], hchn⟩
        · refine ⟨n :: L2, ?_, ?_, ?_⟩
          · refine List.nodup_cons.mpr ⟨?_, hL2nd⟩
            intro hmem
            exact hnotn ((hL2mem n).mp hmem)
          · intro m
            constructor
            · intro hm
              rcases List.mem_cons.mp hm with rfl | hm2
              · exact hchn
              · have hch2 := (hL2mem m).mp hm2
                have hmn : m ≠ n := by
                  intro he
                  exact hnotn (he ▸ hch2)
                exact (hchiff m hmn).mpr hch2
            · intro hch
              by_cases hm : m = n
              · exact hm ▸ List.mem_cons_self _ _
              · exact List.mem_cons_of_mem _
                  ((hL2mem m).mpr ((hchiff m hm).mp hch))
          · have : (preAssign n s).preNum = s.preNum + 1 := rfl
            simp only [List.length_cons]
            omega
        · intro a b hca hcb hab hpre hpost
          by_cases hbn : b = n
          · by_cases han : a = n
            · exact absurd (han.trans hbn.symm) hab
            · have hch2 := (hchiff a han).mp hca
              have := (hchg2 a hch2).2.1
              obtain ⟨e1, _, _, _⟩ := htrans a han
              rw [e1, hbn, hpremapn] at hpre
              have hp1 : (preAssign n s).preNum = s.preNum + 1 := rfl
              omega
          · by_cases han : a = n
            · rw [han]
              have hcb2 := (hchiff b hbn).mp hcb
              obtain ⟨r, hr, hdesc⟩ := (hchg2 b hcb2).1
              exact Relation.ReflTransGen.head hr hdesc
            · have hca2 := (hchiff a han).mp hca
              have hcb2 := (hchiff b hbn).mp hcb
              obtain ⟨ea1, ea2, _, _⟩ := htrans a han
              obtain ⟨eb1, eb2, _, _⟩ := htrans b hbn
              rw [ea1, eb1] at hpre
              rw [ea2, eb2] at hpost
              exact hint2 a b hca2 hcb2 hab hpre hpost
    · -- the sibling case
      intro ns s s' hg hok h
      cases ns with
      | nil =>
        cases h
        refine ⟨⟨0, rfl, rfl⟩, hg, ?_,
          ⟨[], List.nodup_nil, ?_, by simp⟩, ?_⟩
        · intro m hm
          exact absurd hm (walkChanged_of_eqs rfl rfl)
        · intro m
          simp only [List.not_mem_nil, false_iff]
          exact walkChanged_of_eqs rfl rfl
        · intro a b ha
          exact absurd ha (walkChanged_of_eqs rfl rfl)
      | cons n rest =>
        unfold numberSibs at h
        cases hv : numberVisit kids f n s with
        | none => rw [hv] at h; exact absurd h (by simp)
        | some s1 =>
          rw [hv] at h
          dsimp only at h
          obtain ⟨⟨dv, hdv1, hdv2, hdv3⟩, hgv, hchgv,
            ⟨hpn, hpo, hchn⟩, ⟨Lv, hLvnd, hLvmem, hLvlen⟩, hintv⟩ :=
            ihv n s s1 hg hv
          have hokr : SibsOK kids rest :=
            ⟨(List.nodup_cons.mp hok.1).2, fun u hu v hv0 huv m h1 h2 =>
              hok.2 u (List.mem_cons_of_mem _ hu) v
                (List.mem_cons_of_mem _ hv0) huv m h1 h2⟩
          obtain ⟨⟨ds, hds2, hds3⟩, hgs, hchgs,
            ⟨Ls, hLsnd, hLsmem, hLslen⟩, hints⟩ :=
            ihs rest s1 s' hgv hokr h
          have hdisj : ∀ m, WalkChanged s s1 m → WalkChanged s1 s' m →
              False := by
            intro m h1 h2
            obtain ⟨hdesc1, _, _⟩ := hchgv m h1
            obtain ⟨⟨r, hr, hdesc2⟩, _, _⟩ := hchgs m h2
            have hnr : n ≠ r := by
              intro he
              exact (List.nodup_cons.mp hok.1).1 (he ▸ hr)
            exact hok.2 n (List.mem_cons_self _ _) r
              (List.mem_cons_of_mem _ hr) hnr m hdesc1 hdesc2
          have hsplit : ∀ m, WalkChanged s s' m →
              WalkChanged s s1 m ∨ WalkChanged s1 s' m := by
            intro m hm
            by_cases h1 : WalkChanged s s1 m
            · exact Or.inl h1
            · right
              by_contra hcon
              obtain ⟨e1, e2⟩ := walkChanged_of_eqs_inv h1
              obtain ⟨e3, e4⟩ := walkChanged_of_eqs_inv hcon
              exact walkChanged_of_eqs (e3.trans e1) (e4.trans e2) hm
          have hka : ∀ m, WalkChanged s s1 m →
              s'.preMap m = s1.preMap m ∧ s'.postMap m = s1.postMap m := by
            intro m hm
            by_cases h2 : WalkChanged s1 s' m
            · exact absurd h2 (fun h2 => hdisj m hm h2)
            · exact walkChanged_of_eqs_inv h2
          have hkb : ∀ m, WalkChanged s1 s' m →
              s1.preMap m = s.preMap m ∧ s1.postMap m = s.postMap m := by
            intro m hm
            by_cases h1 : WalkChanged s s1 m
            · exact absurd hm (fun h2 => hdisj m h1 h2)
            · exact walkChanged_of_eqs_inv h1
          have hiffa : ∀ m, WalkChanged s s1 m → WalkChanged s s' m := by
            intro m hm
            obtain ⟨e1, e2⟩ := hka m hm
            rcases hm with hm | hm
            · exact Or.inl (e1 ▸ hm)
            · exact Or.inr (e2 ▸ hm)
          have hiffb : ∀ m, WalkChanged s1 s' m → WalkChanged s s' m := by
            intro m hm
            obtain ⟨e1, e2⟩ := hkb m hm
            rcases hm with hm | hm
            · exact Or.inl (by rw [e1] at hm; exact hm)
            · exact Or.inr (by rw [e2] at hm; exact hm)
          refine ⟨⟨dv + ds, by omega, by omega⟩, hgs, ?_, ?_, ?_⟩
          · intro m hm
            rcases hsplit m hm with h1 | h2
            · obtain ⟨hdesc, hb1, hb2⟩ := hchgv m h1
              obtain ⟨e1, e2⟩ := hka m h1
              rw [e1, e2]
              exact ⟨⟨n, List.mem_cons_self _ _, hdesc⟩, hb1, hb2⟩
            · obtain ⟨⟨r, hr, hdesc⟩, hb1, hb2⟩ := hchgs m h2
              exact ⟨⟨r, List.mem_cons_of_mem _ hr, hdesc⟩,
                by omega, by omega⟩
          · refine ⟨Lv ++ Ls, ?_, ?_, ?_⟩
            · refine List.Nodup.append hLvnd hLsnd ?_
              intro m hm1 hm2
              exact hdisj m ((hLvmem m).mp hm1) ((hLsmem m).mp hm2)
            · intro m
              rw [List.mem_append, hLvmem, hLsmem]
              constructor
              · intro hm
                rcases hm with hm | hm
                · exact hiffa m hm
                · exact hiffb m hm
              · exact hsplit m
            · rw [List.length_append]
              omega
          · intro a b hca hcb hab hpre hpost
            rcases hsplit a hca with ha1 | ha2
            · rcases hsplit b hcb with hb1 | hb2
              · obtain ⟨ea1, ea2⟩ := hka a ha1
                obtain ⟨eb1, eb2⟩ := hka b hb1
                rw [ea1, eb1] at hpre
                rw [ea2, eb2] at hpost
                exact hintv a b ha1 hb1 hab hpre hpost
              · obtain ⟨ea1, ea2⟩ := hka a ha1
                have hbb := (hchgs b hb2).2.2
                have haa := (hgv a).2
                rw [ea2] at hpost
                omega
            · rcases hsplit b hcb with hb1 | hb2
              · obtain ⟨eb1, eb2⟩ := hka b hb1
                have hba := (hchgs a ha2).2.1
                have hbb := (hgv b).1
                rw [eb1] at hpre
                omega
              · exact hints a b ha2 hb2 hab hpre hpost

/-- Descendants of forest nodes stay inside any universe list that
contains every child list member. -/
theorem kidsDesc_mem_universe (kids : Nat → List Nat) (allNums : List Nat)
    (hkidsub : ∀ p x, x ∈ kids p → x ∈ allNums)
    (r m : Nat) (hr : r ∈ allNums) (h : KidsDesc kids r m) :
    m ∈ allNums := by
  rcases Relation.ReflTransGen.cases_tail h with heq | ⟨w, _, hmw⟩
  · rw [heq]; exact hr
  · exact hkidsub w m hmw

/-- The initial numbering state: all recorded numbers zero and both
counters one, exactly as fgNumberDomTree starts. -/
def walkInit : NumberState :=
  { preMap := fun _ => 0, postMap := fun _ => 0, preNum := 1, postNum := 1 }

/-- Totality and interval soundness of a complete numbering walk: when
the sibling walk over the forest roots succeeds from the initial state
and the final preorder counter accounts for every node of the universe,
every universe node was renumbered, and the pre/post interval test
between two distinct universe nodes certifies forest descent. -/
theorem walk_total_interval (kids : Nat → List Nat) (roots : List Nat)
    (wf : Nat) (sF : NumberState) (allNums : List Nat)
    (hK1 : ∀ p q m, m ∈ kids p → m ∈ kids q → p = q)
    (hK2 : ∀ p, (kids p).Nodup)
    (hok : SibsOK kids roots)
    (hkidsub : ∀ p x, x ∈ kids p → x ∈ allNums)
    (hrootsub : ∀ r ∈ roots, r ∈ allNums)
    (h : numberSibs kids wf roots walkInit = some sF)
    (hguard : sF.preNum = allNums.length + 1) :
    ∀ a b, a ∈ allNums → b ∈ allNums → a ≠ b →
      sF.preMap a ≤ sF.preMap b → sF.postMap b ≤ sF.postMap a →
      KidsDesc kids a b := by
  have hg0 : WalkGood walkInit := by
    intro m
    exact ⟨Nat.zero_lt_one, Nat.zero_lt_one⟩
  have hspec := (walkSpec kids hK1 hK2 wf).2 roots _ sF hg0 hok h
  obtain ⟨_, _, hchg, ⟨L, hLnd, hLmem, hLlen⟩, hint⟩ := hspec
  have hLsub : L ⊆ allNums := by
    intro m hm
    obtain ⟨⟨r, hr, hdesc⟩, _, _⟩ := hchg m ((hLmem m).mp hm)
    exact kidsDesc_mem_universe kids allNums hkidsub r m (hrootsub r hr) hdesc
  have hLlen1 : L.length + 1 = sF.preNum := hLlen
  have hLlen2 : L.length = allNums.length := by omega
  have hperm : L.Perm allNums := by
    have hsp : L.Subperm allNums := List.subperm_of_subset hLnd hLsub
    exact hsp.perm_of_length_le (le_of_eq hLlen2.symm)
  intro a b ha hb hab hpre hpost
  have hca := (hLmem a).mp (hperm.mem_iff.mpr ha)
  have hcb := (hLmem b).mp (hperm.mem_iff.mpr hb)
  exact hint a b hca hcb hab hpre hpost

/-!
## Claim C3: dominance implies reachability
-/

/-- A flow edge recorded in the predecessor lists, with a nonzero
source: `u` is a listed predecessor of a block numbered `v`. -/
def EdgeNZ (c : Compiler) (u v : Nat) : Prop :=
  u ≠ 0 ∧ ∃ bv ∈ c.blocks, bv.bbNum = v ∧ u ∈ bv.bbPreds

/-- Reachability along recorded predecessor edges with nonzero
sources. -/
def PredReachNZ (c : Compiler) (u v : Nat) : Prop :=
  Relation.ReflTransGen (EdgeNZ c) u v

/-- The reflexive-transitive climb along stored immediate dominators, as
`fgIntersectDom` walks them. -/
def IdomCl (c : Compiler) (x r : Nat) : Prop :=
  Relation.ReflTransGen (fun u v => bbIDomOf c u = some v) x r

/-- The dominator-edge soundness invariant of the `fgComputeDoms`
fixpoint: every stored nonzero immediate dominator reaches its block
along predecessor edges. -/
def Jinv (c : Compiler) : Prop :=
  ∀ b ∈ c.blocks, ∀ y, b.bbIDom = some y → y ≠ 0 →
    PredReachNZ c y b.bbNum

/-- The dominator fields right after initialization: nothing but `none`
or the imaginary super-root. -/
def IdomInit (c : Compiler) : Prop :=
  ∀ b ∈ c.blocks, b.bbIDom = none ∨ b.bbIDom = some 0

/-- The cached reach set of the block with a given number. -/
def reachOf (c : Compiler) (n : Nat) : List Nat :=
  ((c.findBlock n).map BasicBlock.bbReach).getD []

/-- The predecessor list of the block with a given number. -/
def predsOfNum (c : Compiler) (n : Nat) : List Nat :=
  ((c.findBlock n).map BasicBlock.bbPreds).getD []

/-- The fixpoint exit condition of `fgComputeReachabilitySets` at one
block: its reach set absorbs every predecessor reach set. -/
def ClosedAt (c : Compiler) (i : Nat) : Prop :=
  ∀ p ∈ predsOfNum c i, ∀ x ∈ reachOf c p, x ∈ reachOf c i

/-- Every block sees itself in its reach set. -/
def SelfReach (c : Compiler) : Prop :=
  ∀ b ∈ c.blocks, b.bbNum ∈ b.bbReach

/-- The meeting point of `fgIntersectDom` lies on the stored
immediate-dominator chain of both fingers. -/
theorem fgIntersectDom_closure (c : Compiler) :
    ∀ f f1 f2 r, fgIntersectDom c f f1 f2 = some r →
      IdomCl c f1 r ∧ IdomCl c f2 r := by
  intro f
  induction f with
  | zero =>
    intro f1 f2 r h
    simp [fgIntersectDom] at h
  | succ f ih =>
    intro f1 f2 r h
    unfold fgIntersectDom at h
    by_cases h12 : f1 = f2
    · rw [if_pos h12] at h
      subst h12
      cases h
      exact ⟨Relation.ReflTransGen.refl, Relation.ReflTransGen.refl⟩
    · rw [if_neg h12] at h
      by_cases hlt : bbPostorderOf c f1 < bbPostorderOf c f2
      · rw [if_pos hlt] at h
        cases hg : bbIDomOf c f1 with
        | none => rw [hg] at h; exact absurd h (by simp)
        | some g =>
          rw [hg] at h
          obtain ⟨h1, h2⟩ := ih g f2 r h
          exact ⟨Relation.ReflTransGen.head hg h1, h2⟩
      · rw [if_neg hlt] at h
        by_cases hlt2 : bbPostorderOf c f2 < bbPostorderOf c f1
        · rw [if_pos hlt2] at h
          cases hg : bbIDomOf c f2 with
          | none => rw [hg] at h; exact absurd h (by simp)
          | some g =>
            rw [hg] at h
            obtain ⟨h1, h2⟩ := ih f1 g r h
            exact ⟨h1, Relation.ReflTransGen.head hg h2⟩
        · rw [if_neg hlt2] at h
          exact absurd h (by simp)

/-- The super-root dominator chain never leaves the super-root. -/
theorem idomCl_zero (c : Compiler) {r : Nat} (h : IdomCl c 0 r) : r = 0 := by
  induction h with
  | refl => rfl
  | tail hsub hstep ih =>
    subst ih
    simp [bbIDomOf] at hstep
    omega

/-- Climbing the dominator chain inside the invariant: the chain
endpoint reaches the chain start along predecessor edges, when both are
real blocks. -/
theorem jinv_climb (c : Compiler) (hJ : Jinv c) :
    ∀ x r, IdomCl c x r → r ≠ 0 → x ≠ 0 → PredReachNZ c r x := by
  intro x r h hr
  induction h using Relation.ReflTransGen.head_induction_on with
  | refl =>
    intro _
    exact Relation.ReflTransGen.refl
  | head hstep hsub ih =>
    intro hx
    rename_i u w
    unfold bbIDomOf at hstep
    rw [if_neg hx] at hstep
    cases hfb : c.findBlock u with
    | none => rw [hfb] at hstep; exact absurd hstep (by simp)
    | some bu =>
      rw [hfb] at hstep
      have hw0 : w ≠ 0 := by
        intro hcon
        subst hcon
        exact hr (idomCl_zero c hsub)
      have hnum : bu.bbNum = u := findBlock_some_num c u bu hfb
      have hmem : bu ∈ c.blocks := findBlock_mem c u bu hfb
      have hedge : PredReachNZ c w u := by
        rw [← hnum]
        exact hJ bu hmem w hstep hw0
      exact Relation.ReflTransGen.trans (ih hw0) hedge

/-- Block correspondence across two states with the same predecessor
projections: every block of one has a partner with the same number and
predecessor list in the other. -/
theorem mem_of_proj_eq (c c' : Compiler)
    (h : c'.blocks.map predsProj = c.blocks.map predsProj)
    (b' : BasicBlock) (hb' : b' ∈ c'.blocks) :
    ∃ b0 ∈ c.blocks, b0.bbNum = b'.bbNum ∧ b0.bbPreds = b'.bbPreds := by
  have hm : predsProj b' ∈ c.blocks.map predsProj := by
    rw [← h]
    exact List.mem_map_of_mem predsProj hb'
  obtain ⟨b0, hb0, heq⟩ := List.mem_map.mp hm
  have h1 : b0.bbNum = b'.bbNum := congrArg Prod.fst heq
  have h2 : b0.bbPreds = b'.bbPreds := congrArg Prod.snd heq
  exact ⟨b0, hb0, h1, h2⟩

/-- The nonzero predecessor-edge relation depends only on the
predecessor projections. -/
theorem edgeNZ_congr (c c' : Compiler)
    (h : c'.blocks.map predsProj = c.blocks.map predsProj) (u v : Nat) :
    EdgeNZ c' u v ↔ EdgeNZ c u v := by
  constructor
  · rintro ⟨hu, bv, hbv, hnum, hpred⟩
    obtain ⟨b0, hb0, h1, h2⟩ := mem_of_proj_eq c c' h bv hbv
    exact ⟨hu, b0, hb0, h1.trans hnum, h2 ▸ hpred⟩
  · rintro ⟨hu, bv, hbv, hnum, hpred⟩
    obtain ⟨b0, hb0, h1, h2⟩ := mem_of_proj_eq c' c h.symm bv hbv
    exact ⟨hu, b0, hb0, h1.trans hnum, h2 ▸ hpred⟩

/-- Predecessor-edge reachability depends only on the predecessor
projections. -/
theorem predReachNZ_congr (c c' : Compiler)
    (h : c'.blocks.map predsProj = c.blocks.map predsProj) (u v : Nat) :
    PredReachNZ c' u v ↔ PredReachNZ c u v := by
  constructor
  · exact Relation.ReflTransGen.mono
      (fun a b hab => (edgeNZ_congr c c' h a b).mp hab)
  · exact Relation.ReflTransGen.mono
      (fun a b hab => (edgeNZ_congr c c' h a b).mpr hab)

/-- Installing a sound immediate dominator keeps the invariant. -/
theorem jinv_updateIdom (c : Compiler) (i ni : Nat)
    (hJ : Jinv c)
    (hni : ni ≠ 0 → PredReachNZ c ni i) :
    Jinv (c.updateBlock i (fun x => { x with bbIDom := some ni })) := by
  intro b' hb' y hy hy0
  have hpp : (c.updateBlock i
        (fun x => { x with bbIDom := some ni })).blocks.map predsProj =
      c.blocks.map predsProj :=
    map_predsProj_updateBlock c i _ (fun b => rfl)
  have hb'2 : b' ∈ c.blocks.map (fun b =>
      if b.bbNum = i then { b with bbIDom := some ni } else b) := hb'
  obtain ⟨b0, hb0, hbeq⟩ := List.mem_map.mp hb'2
  by_cases hbn : b0.bbNum = i
  · rw [if_pos hbn] at hbeq
    have hyni : y = ni := by
      rw [← hbeq] at hy
      exact (Option.some.inj hy).symm
    have hnum : b'.bbNum = i := by rw [← hbeq]; exact hbn
    rw [hnum]
    refine (predReachNZ_congr c _ hpp y i).mpr ?_
    rw [hyni]
    exact hni (hyni ▸ hy0)
  · rw [if_neg hbn] at hbeq
    have hidom : b0.bbIDom = some y := by rw [hbeq]; exact hy
    have hnum : b'.bbNum = b0.bbNum := by rw [← hbeq]
    rw [hnum]
    exact (predReachNZ_congr c _ hpp y b0.bbNum).mpr
      (hJ b0 hb0 y hidom hy0)

/-- The accumulator of the `domsNewIdom` fold stays sound: every
intermediate candidate, when nonzero, reaches the block. -/
theorem foldNewIdom_reach (c : Compiler) (ifuel : Nat) (i : Nat)
    (hJ : Jinv c) (p0 : Nat) :
    ∀ (l : List Nat) (o : Option Nat),
      (∀ cur, o = some cur → cur ≠ 0 → PredReachNZ c cur i) →
      ∀ res,
        l.foldl (fun acc p =>
          match acc with
          | none => none
          | some cur =>
            if p = p0 then some cur
            else
              match bbIDomOf c p with
              | some _ => fgIntersectDom c ifuel p cur
              | none => some cur) o = some res →
        res ≠ 0 → PredReachNZ c res i := by
  intro l
  induction l with
  | nil =>
    intro o hINV res h hres
    exact hINV res h hres
  | cons p rest ih =>
    intro o hINV res h hres
    rw [List.foldl_cons] at h
    refine ih _ ?_ res h hres
    intro cur hcur hcur0
    cases o with
    | none => exact absurd hcur (by simp)
    | some a =>
      dsimp only at hcur
      by_cases hpp0 : p = p0
      · rw [if_pos hpp0] at hcur
        exact hINV cur hcur hcur0
      · rw [if_neg hpp0] at hcur
        cases hid : bbIDomOf c p with
        | none =>
          rw [hid] at hcur
          exact hINV cur hcur hcur0
        | some g =>
          rw [hid] at hcur
          obtain ⟨_, hcl⟩ := fgIntersectDom_closure c ifuel p a cur hcur
          have ha0 : a ≠ 0 := by
            intro hcon
            subst hcon
            exact hcur0 (idomCl_zero c hcl)
          exact Relation.ReflTransGen.trans
            (jinv_climb c hJ a cur hcl hcur0 ha0) (hINV a rfl ha0)

/-- The new immediate-dominator candidate of one fixpoint step, when
nonzero, reaches its block along predecessor edges. -/
theorem domsNewIdom_reach (c : Compiler) (ifuel : Nat) (i : Nat)
    (preds : List Nat) (p0 ni : Nat) (hJ : Jinv c)
    (hp0 : p0 = 0 ∨ EdgeNZ c p0 i)
    (h : domsNewIdom c ifuel preds p0 = some ni) :
    ni ≠ 0 → PredReachNZ c ni i := by
  unfold domsNewIdom at h
  refine foldNewIdom_reach c ifuel i hJ p0 preds (some p0) ?_ ni h
  intro cur hcur hcur0
  have hc : cur = p0 := (Option.some.inj hcur).symm
  subst hc
  rcases hp0 with h0 | hedge
  · exact absurd h0 hcur0
  · exact Relation.ReflTransGen.single hedge

/-- One fixpoint sweep preserves the dominator-edge soundness
invariant. -/
theorem jinv_sweep (ifuel : Nat) :
    ∀ (l : List Nat) (c : Compiler) (pr : List Nat) (ch : Bool)
      (out : Compiler × List Nat × Bool),
      Jinv c → domsSweep ifuel l c pr ch = some out →
      Jinv out.1 := by
  intro l
  induction l with
  | nil =>
    intro c pr ch out hJ h
    cases h
    exact hJ
  | cons i rest ih =>
    intro c pr ch out hJ h
    unfold domsSweep at h
    cases hfb : c.findBlock i with
    | none => rw [hfb] at h; exact absurd h (by simp)
    | some b =>
      rw [hfb] at h
      dsimp only at h
      by_cases hskip : b.bbIDom = some 0
      · rw [if_pos hskip] at h
        exact ih c pr ch out hJ h
      · rw [if_neg hskip] at h
        cases hfp : b.bbPreds.find? (fun p => pr.contains p) with
        | none => rw [hfp] at h; exact absurd h (by simp)
        | some p0 =>
          rw [hfp] at h
          dsimp only at h
          cases hni : domsNewIdom c ifuel b.bbPreds p0 with
          | none => rw [hni] at h; exact absurd h (by simp)
          | some ni =>
            rw [hni] at h
            dsimp only at h
            have hbnum : b.bbNum = i := findBlock_some_num c i b hfb
            have hbmem : b ∈ c.blocks := findBlock_mem c i b hfb
            have hp0mem : p0 ∈ b.bbPreds := List.mem_of_find?_eq_some hfp
            have hp0 : p0 = 0 ∨ EdgeNZ c p0 i := by
              by_cases hz : p0 = 0
              · exact Or.inl hz
              · exact Or.inr ⟨hz, b, hbmem, hbnum, hp0mem⟩
            have hreach := domsNewIdom_reach c ifuel i b.bbPreds p0 ni hJ
              hp0 hni
            by_cases heq : b.bbIDom = some ni
            · rw [if_pos heq] at h
              exact ih _ _ _ out hJ h
            · rw [if_neg heq] at h
              exact ih _ _ _ out
                (jinv_updateIdom c i ni hJ hreach) h

/-- The full fixpoint loop preserves the soundness invariant. -/
theorem jinv_domsLoop (ifuel : Nat) (rpo : List Nat) :
    ∀ (fuel : Nat) (c : Compiler) (pr : List Nat) (c' : Compiler),
      Jinv c → domsLoop ifuel rpo fuel c pr = some c' → Jinv c' := by
  intro fuel
  induction fuel with
  | zero =>
    intro c pr c' _ h
    simp [domsLoop] at h
  | succ f ih =>
    intro c pr c' hJ h
    unfold domsLoop at h
    cases hsw : domsSweep ifuel rpo c pr false with
    | none => rw [hsw] at h; exact absurd h (by simp)
    | some out =>
      obtain ⟨c1, pr1, chg⟩ := out
      rw [hsw] at h
      dsimp only at h
      have hJ1 := jinv_sweep ifuel rpo c pr false (c1, pr1, chg) hJ hsw
      by_cases hc : chg = true
      · rw [if_pos hc] at h
        exact ih c1 pr1 c' hJ1 h
      · rw [if_neg hc] at h
        cases h
        exact hJ1

/-- The entry initialization yields only `none` or super-root
dominators. -/
theorem idomInit_initBlocks (c : Compiler) :
    IdomInit (domsInitBlocks c) := by
  intro b hb
  unfold domsInitBlocks at hb
  dsimp only at hb
  cases hcb : c.blocks with
  | nil => rw [hcb] at hb; simp at hb
  | cons first rest =>
    rw [hcb] at hb
    rcases List.mem_cons.mp hb with rfl | hmem
    · exact Or.inr rfl
    · obtain ⟨b0, _, hbeq⟩ := List.mem_map.mp hmem
      by_cases he : b0.bbPreds.isEmpty
      · rw [← hbeq]; simp [he]
      · rw [← hbeq]; simp [he]

/-- Resetting a dominator to the super-root keeps the initialization
shape. -/
theorem idomInit_updateIdom0 (c : Compiler) (n : Nat)
    (h : IdomInit c) :
    IdomInit (c.updateBlock n (fun b => { b with bbIDom := some 0 })) := by
  intro b' hb'
  have hb'2 : b' ∈ c.blocks.map (fun b =>
      if b.bbNum = n then { b with bbIDom := some 0 } else b) := hb'
  obtain ⟨b0, hb0, hbeq⟩ := List.mem_map.mp hb'2
  by_cases hbn : b0.bbNum = n
  · rw [if_pos hbn] at hbeq
    rw [← hbeq]
    exact Or.inr rfl
  · rw [if_neg hbn] at hbeq
    rw [← hbeq]
    exact h b0 hb0

/-- The EH entry marking keeps the initialization shape. -/
theorem idomInit_markEH :
    ∀ (tab : List EHblkDsc) (acc : Compiler × List Nat),
      IdomInit acc.1 → IdomInit (domsMarkEHGo tab acc).1 := by
  intro tab
  induction tab with
  | nil => intro acc h; exact h
  | cons d rest ih =>
    intro acc h
    unfold domsMarkEHGo
    cases hf : d.ebdFilter with
    | none =>
      dsimp only
      exact ih _ (idomInit_updateIdom0 acc.1 d.ebdHndBeg h)
    | some fb =>
      dsimp only
      exact ih _ (idomInit_updateIdom0 _ d.ebdHndBeg
        (idomInit_updateIdom0 acc.1 fb h))

/-- In the initialization shape the soundness invariant is vacuous. -/
theorem jinv_of_idomInit (c : Compiler) (h : IdomInit c) : Jinv c := by
  intro b hb y hy hy0
  rcases h b hb with hn | h0
  · rw [hn] at hy
    exact absurd hy (by simp)
  · rw [h0] at hy
    exact absurd (Option.some.inj hy).symm hy0

/-- The predecessor restoration neither adds nor removes nonzero-source
edges. -/
theorem edgeNZ_restore (c : Compiler) (u v : Nat) :
    EdgeNZ (domsRestorePreds c) u v ↔ EdgeNZ c u v := by
  constructor
  · rintro ⟨hu, b', hb', hnum, hpred⟩
    have hb'2 : b' ∈ c.blocks.map (fun b =>
        if b.bbPreds = [0] then { b with bbPreds := [] } else b) := hb'
    obtain ⟨b0, hb0, hbeq⟩ := List.mem_map.mp hb'2
    by_cases hp : b0.bbPreds = [0]
    · rw [if_pos hp] at hbeq
      rw [← hbeq] at hpred
      simp at hpred
    · rw [if_neg hp] at hbeq
      rw [← hbeq] at hpred hnum
      exact ⟨hu, b0, hb0, hnum, hpred⟩
  · rintro ⟨hu, b0, hb0, hnum, hpred⟩
    have hp : b0.bbPreds ≠ [0] := by
      intro hcon
      rw [hcon] at hpred
      simp at hpred
      exact hu hpred
    refine ⟨hu, if b0.bbPreds = [0] then { b0 with bbPreds := [] } else b0,
      ?_, ?_, ?_⟩
    · exact List.mem_map_of_mem _ hb0
    · rw [if_neg hp]; exact hnum
    · rw [if_neg hp]; exact hpred

/-- Predecessor-edge reachability survives the restoration. -/
theorem predReachNZ_restore (c : Compiler) (u v : Nat) :
    PredReachNZ (domsRestorePreds c) u v ↔ PredReachNZ c u v := by
  constructor
  · exact Relation.ReflTransGen.mono
      (fun a b hab => (edgeNZ_restore c a b).mp hab)
  · exact Relation.ReflTransGen.mono
      (fun a b hab => (edgeNZ_restore c a b).mpr hab)

/-- The soundness invariant survives the predecessor restoration. -/
theorem jinv_restore (c : Compiler) (hJ : Jinv c) :
    Jinv (domsRestorePreds c) := by
  intro b' hb' y hy hy0
  have hb'2 : b' ∈ c.blocks.map (fun b =>
      if b.bbPreds = [0] then { b with bbPreds := [] } else b) := hb'
  obtain ⟨b0, hb0, hbeq⟩ := List.mem_map.mp hb'2
  have hsame : b'.bbIDom = b0.bbIDom ∧ b'.bbNum = b0.bbNum := by
    by_cases hp : b0.bbPreds = [0]
    · rw [if_pos hp] at hbeq
      rw [← hbeq]
      exact ⟨rfl, rfl⟩
    · rw [if_neg hp] at hbeq
      rw [← hbeq]
      exact ⟨rfl, rfl⟩
  rw [hsame.2]
  rw [hsame.1] at hy
  exact (predReachNZ_restore c y b0.bbNum).mpr (hJ b0 hb0 y hy hy0)

/-- Two member blocks with the same number are the same block, given
duplicate-free numbering. -/
theorem mem_bbNum_inj (l : List BasicBlock)
    (hnd : (l.map BasicBlock.bbNum).Nodup)
    (b1 b2 : BasicBlock) (h1 : b1 ∈ l) (h2 : b2 ∈ l)
    (he : b1.bbNum = b2.bbNum) : b1 = b2 :=
  List.inj_on_of_nodup_map hnd h1 h2 he

/-- Membership in a dominator-tree child list, decoded. -/
theorem domChildren_mem (c : Compiler) (p m : Nat) :
    m ∈ domChildren c p ↔
      ∃ bk ∈ c.blocks.drop 1, bk.bbNum = m ∧ bk.bbIDom = some p := by
  unfold domChildren
  rw [List.mem_reverse, List.mem_map]
  constructor
  · rintro ⟨bk, hbk, hnum⟩
    have hf := List.mem_filter.mp hbk
    exact ⟨bk, hf.1, hnum, by simpa using hf.2⟩
  · rintro ⟨bk, hbk, hnum, hid⟩
    exact ⟨bk, List.mem_filter.mpr ⟨hbk, by simpa using hid⟩, hnum⟩

/-- Child lists never mention the imaginary block 0 when no real block
is numbered 0. -/
theorem domChildren_ne_zero (c : Compiler)
    (hz0 : ∀ b ∈ c.blocks, b.bbNum ≠ 0) (p m : Nat)
    (h : m ∈ domChildren c p) : m ≠ 0 := by
  obtain ⟨bk, hbk, hnum, _⟩ := (domChildren_mem c p m).mp h
  rw [← hnum]
  exact hz0 bk (List.mem_of_mem_drop hbk)

/-- Child lists stay inside the block numbers. -/
theorem domChildren_mem_nums (c : Compiler) (p m : Nat)
    (h : m ∈ domChildren c p) : m ∈ c.blocks.map BasicBlock.bbNum := by
  obtain ⟨bk, hbk, hnum, _⟩ := (domChildren_mem c p m).mp h
  rw [← hnum]
  exact List.mem_map_of_mem _ (List.mem_of_mem_drop hbk)

/-- With duplicate-free numbering a node appears in at most one child
list: the immediate dominator is a function of the block. -/
theorem domChildren_parent_unique (c : Compiler)
    (hnd : (c.blocks.map BasicBlock.bbNum).Nodup) (p q m : Nat)
    (hp : m ∈ domChildren c p) (hq : m ∈ domChildren c q) : p = q := by
  obtain ⟨b1, hb1, hn1, hi1⟩ := (domChildren_mem c p m).mp hp
  obtain ⟨b2, hb2, hn2, hi2⟩ := (domChildren_mem c q m).mp hq
  have heq : b1 = b2 := mem_bbNum_inj c.blocks hnd b1 b2
    (List.mem_of_mem_drop hb1) (List.mem_of_mem_drop hb2)
    (hn1.trans hn2.symm)
  rw [heq] at hi1
  rw [hi1] at hi2
  exact Option.some.inj hi2

/-- Each child list is duplicate-free. -/
theorem domChildren_nodup (c : Compiler)
    (hnd : (c.blocks.map BasicBlock.bbNum).Nodup) (p : Nat) :
    (domChildren c p).Nodup := by
  unfold domChildren
  rw [List.nodup_reverse]
  have hsub : List.Sublist
      (((c.blocks.drop 1).filter
        (fun b => b.bbIDom = some p)).map BasicBlock.bbNum)
      (c.blocks.map BasicBlock.bbNum) :=
    List.Sublist.map _
      ((List.filter_sublist _).trans (List.drop_sublist 1 c.blocks))
  exact List.Nodup.sublist hsub hnd

/-- Membership in the dominator-forest root list, decoded. -/
theorem domRoots_mem_iff (c : Compiler) (first : BasicBlock)
    (rest : List BasicBlock) (hbl : c.blocks = first :: rest) (r : Nat) :
    r ∈ domRoots c ↔ r = first.bbNum ∨
      ∃ br ∈ rest, br.bbIDom = some 0 ∧ br.bbNum = r := by
  unfold domRoots
  rw [hbl]
  dsimp only
  rw [List.mem_cons, List.mem_map]
  constructor
  · rintro (h | ⟨br, hbr, hnum⟩)
    · exact Or.inl h
    · have hf := List.mem_filter.mp hbr
      exact Or.inr ⟨br, hf.1, by simpa using hf.2, hnum⟩
  · rintro (h | ⟨br, hbr, hid, hnum⟩)
    · exact Or.inl h
    · exact Or.inr ⟨br, List.mem_filter.mpr ⟨hbr, by simpa using hid⟩, hnum⟩

/-- Forest roots are nonzero real block numbers. -/
theorem domRoots_ne_zero (c : Compiler) (first : BasicBlock)
    (rest : List BasicBlock) (hbl : c.blocks = first :: rest)
    (hz0 : ∀ b ∈ c.blocks, b.bbNum ≠ 0) :
    ∀ r ∈ domRoots c, r ≠ 0 := by
  intro r hr
  rcases (domRoots_mem_iff c first rest hbl r).mp hr with h | ⟨br, hbr, _, hnum⟩
  · rw [h]
    exact hz0 first (hbl ▸ List.mem_cons_self first rest)
  · rw [← hnum]
    exact hz0 br (hbl ▸ List.mem_cons_of_mem first hbr)

/-- Forest roots live inside the block numbers. -/
theorem domRoots_mem_nums (c : Compiler) (first : BasicBlock)
    (rest : List BasicBlock) (hbl : c.blocks = first :: rest) :
    ∀ r ∈ domRoots c, r ∈ c.blocks.map BasicBlock.bbNum := by
  intro r hr
  rcases (domRoots_mem_iff c first rest hbl r).mp hr with h | ⟨br, hbr, _, hnum⟩
  · rw [h, hbl]
    exact List.mem_map_of_mem _ (List.mem_cons_self first rest)
  · rw [← hnum, hbl]
    exact List.mem_map_of_mem _ (List.mem_cons_of_mem first hbr)

/-- The root list is duplicate-free. -/
theorem domRoots_nodup (c : Compiler) (first : BasicBlock)
    (rest : List BasicBlock) (hbl : c.blocks = first :: rest)
    (hnd : (c.blocks.map BasicBlock.bbNum).Nodup) :
    (domRoots c).Nodup := by
  unfold domRoots
  rw [hbl]
  dsimp only
  rw [hbl, List.map_cons] at hnd
  have hsub : List.Sublist
      ((rest.filter (fun b => b.bbIDom = some 0)).map BasicBlock.bbNum)
      (rest.map BasicBlock.bbNum) :=
    List.Sublist.map _ (List.filter_sublist rest)
  exact List.Nodup.sublist (List.Sublist.cons₂ first.bbNum hsub) hnd

/-- A forest root is never the child of a nonzero parent. -/
theorem domRoots_nochild (c : Compiler) (first : BasicBlock)
    (rest : List BasicBlock) (hbl : c.blocks = first :: rest)
    (hnd : (c.blocks.map BasicBlock.bbNum).Nodup) :
    ∀ r ∈ domRoots c, ∀ p, p ≠ 0 → r ∉ domChildren c p := by
  intro r hr p hp hcon
  obtain ⟨bk, hbk, hnum, hid⟩ := (domChildren_mem c p r).mp hcon
  have hbk2 : bk ∈ rest := by
    rw [hbl] at hbk
    exact hbk
  rcases (domRoots_mem_iff c first rest hbl r).mp hr with h | ⟨br, hbr, hid0, hnum0⟩
  · rw [hbl, List.map_cons, List.nodup_cons] at hnd
    exact hnd.1 (h ▸ hnum ▸ List.mem_map_of_mem BasicBlock.bbNum hbk2)
  · have heq : bk = br := mem_bbNum_inj c.blocks
      (by exact hnd) bk br
      (hbl ▸ List.mem_cons_of_mem first hbk2)
      (hbl ▸ List.mem_cons_of_mem first hbr)
      (hnum.trans hnum0.symm)
    rw [heq, hid0] at hid
    exact hp (Option.some.inj hid).symm

/-- Forest descent from a real block implies predecessor-edge
reachability, inside the soundness invariant. -/
theorem kidsDesc_predReach (c : Compiler)
    (hJ : Jinv c)
    (hz0 : ∀ b ∈ c.blocks, b.bbNum ≠ 0) :
    ∀ a m, KidsDesc (domChildren c) a m → a ≠ 0 → PredReachNZ c a m := by
  intro a m h
  induction h with
  | refl =>
    intro _
    exact Relation.ReflTransGen.refl
  | tail hsub hstep ih =>
    intro ha
    rename_i w mm
    obtain ⟨bk, hbk, hnum, hid⟩ := (domChildren_mem c w mm).mp hstep
    have hw0 : w ≠ 0 :=
      kidsDesc_ne_zero (domChildren c)
        (fun p mq hmq => domChildren_ne_zero c hz0 p mq hmq) a w ha hsub
    have hbmem : bk ∈ c.blocks := List.mem_of_mem_drop hbk
    have hr : PredReachNZ c w mm := by
      rw [← hnum]
      exact hJ bk hbmem w hid hw0
    exact Relation.ReflTransGen.trans (ih ha) hr

/-- The EH marking only rewrites the block list: every other compiler
field is left alone. -/
theorem markEH_shape :
    ∀ (tab : List EHblkDsc) (acc : Compiler × List Nat),
      ∃ bl, (domsMarkEHGo tab acc).1 = { acc.1 with blocks := bl } := by
  intro tab
  induction tab with
  | nil =>
    intro acc
    exact ⟨acc.1.blocks, rfl⟩
  | cons d rest ih =>
    intro acc
    unfold domsMarkEHGo
    cases hf : d.ebdFilter with
    | none =>
      dsimp only
      obtain ⟨bl, hbl⟩ := ih
        ((acc.1.updateBlock d.ebdHndBeg
          (fun b => { b with bbIDom := some 0 })), acc.2 ++ [d.ebdHndBeg])
      exact ⟨bl, hbl⟩
    | some fb =>
      dsimp only
      obtain ⟨bl, hbl⟩ := ih
        (((acc.1.updateBlock fb (fun b => { b with bbIDom := some 0 })).updateBlock
            d.ebdHndBeg (fun b => { b with bbIDom := some 0 })),
          (acc.2 ++ [fb]) ++ [d.ebdHndBeg])
      exact ⟨bl, hbl⟩

/-- One dominator sweep only rewrites the block list. -/
theorem sweep_shape (ifuel : Nat) :
    ∀ (l : List Nat) (c : Compiler) (pr : List Nat) (ch : Bool)
      (out : Compiler × List Nat × Bool),
      domsSweep ifuel l c pr ch = some out →
      ∃ bl, out.1 = { c with blocks := bl } := by
  intro l
  induction l with
  | nil =>
    intro c pr ch out h
    cases h
    exact ⟨c.blocks, rfl⟩
  | cons i rest ih =>
    intro c pr ch out h
    unfold domsSweep at h
    cases hfb : c.findBlock i with
    | none => rw [hfb] at h; exact absurd h (by simp)
    | some b =>
      rw [hfb] at h
      dsimp only at h
      by_cases hskip : b.bbIDom = some 0
      · rw [if_pos hskip] at h
        exact ih c pr ch out h
      · rw [if_neg hskip] at h
        cases hfp : b.bbPreds.find? (fun p => pr.contains p) with
        | none => rw [hfp] at h; exact absurd h (by simp)
        | some p0 =>
          rw [hfp] at h
          dsimp only at h
          cases hni : domsNewIdom c ifuel b.bbPreds p0 with
          | none => rw [hni] at h; exact absurd h (by simp)
          | some ni =>
            rw [hni] at h
            dsimp only at h
            by_cases heq : b.bbIDom = some ni
            · rw [if_pos heq] at h
              exact ih _ _ _ out h
            · rw [if_neg heq] at h
              obtain ⟨bl, hbl⟩ := ih _ _ _ out h
              exact ⟨bl, hbl⟩

/-- The dominator fixpoint loop only rewrites the block list. -/
theorem loop_shape (ifuel : Nat) (rpo : List Nat) :
    ∀ (fuel : Nat) (c : Compiler) (pr : List Nat) (c' : Compiler),
      domsLoop ifuel rpo fuel c pr = some c' →
      ∃ bl, c' = { c with blocks := bl } := by
  intro fuel
  induction fuel with
  | zero =>
    intro c pr c' h
    simp [domsLoop] at h
  | succ f ih =>
    intro c pr c' h
    unfold domsLoop at h
    cases hsw : domsSweep ifuel rpo c pr false with
    | none => rw [hsw] at h; exact absurd h (by simp)
    | some out =>
      obtain ⟨c1, pr1, chg⟩ := out
      rw [hsw] at h
      dsimp only at h
      obtain ⟨bl1, hbl1⟩ := sweep_shape ifuel rpo c pr false (c1, pr1, chg) hsw
      dsimp only at hbl1
      by_cases hc : chg = true
      · rw [if_pos hc] at h
        obtain ⟨bl, hbl⟩ := ih c1 pr1 c' h
        rw [hbl1] at hbl
        exact ⟨bl, hbl⟩
      · rw [if_neg hc] at h
        cases h
        exact ⟨bl1, hbl1⟩

/-- One reachability sweep only rewrites the block list. -/
theorem reachSweep_shape :
    ∀ (l : List Nat) (c : Compiler) (ch : Bool),
      ∃ bl, (reachSweep l c ch).1 = { c with blocks := bl } := by
  intro l
  induction l with
  | nil =>
    intro c ch
    exact ⟨c.blocks, rfl⟩
  | cons i rest ih =>
    intro c ch
    unfold reachSweep
    cases hfb : c.findBlock i with
    | none =>
      dsimp only
      exact ih c ch
    | some b =>
      dsimp only
      by_cases hpe : b.bbPreds.isEmpty
      · rw [if_pos hpe]
        exact ih c ch
      · rw [if_neg hpe]
        exact ih _ _

/-- The reachability fixpoint loop only rewrites the block list. -/
theorem reachLoop_shape (rpoT : List Nat) :
    ∀ (fuel : Nat) (c c' : Compiler),
      reachLoop rpoT fuel c = some c' →
      ∃ bl, c' = { c with blocks := bl } := by
  intro fuel
  induction fuel with
  | zero =>
    intro c c' h
    simp [reachLoop] at h
  | succ f ih =>
    intro c c' h
    unfold reachLoop at h
    cases hsw : reachSweep rpoT c false with
    | mk c1 chg =>
      rw [hsw] at h
      obtain ⟨bl1, hbl1⟩ := reachSweep_shape rpoT c false
      rw [hsw] at hbl1
      dsimp only at hbl1
      cases chg with
      | true =>
        dsimp only at h
        obtain ⟨bl, hbl⟩ := ih c1 c' h
        rw [hbl1] at hbl
        exact ⟨bl, hbl⟩
      | false =>
        dsimp only at h
        cases h
        exact ⟨bl1, hbl1⟩

/-- The reachability initialization keeps the predecessor
projections. -/
theorem map_predsProj_reachInit (c : Compiler) :
    (reachInit c).blocks.map predsProj = c.blocks.map predsProj := by
  unfold reachInit
  dsimp only
  rw [List.map_map]
  apply List.map_congr_left
  intro b _
  rfl

/-- One reachability sweep keeps the predecessor projections. -/
theorem map_predsProj_reachSweep :
    ∀ (l : List Nat) (c : Compiler) (ch : Bool),
      (reachSweep l c ch).1.blocks.map predsProj =
        c.blocks.map predsProj := by
  intro l
  induction l with
  | nil =>
    intro c ch
    rfl
  | cons i rest ih =>
    intro c ch
    unfold reachSweep
    cases hfb : c.findBlock i with
    | none =>
      dsimp only
      exact ih c ch
    | some b =>
      dsimp only
      by_cases hpe : b.bbPreds.isEmpty
      · rw [if_pos hpe]
        exact ih c ch
      · rw [if_neg hpe]
        rw [ih]
        exact map_predsProj_updateBlock c i _ (fun x => rfl)

/-- The reachability fixpoint loop keeps the predecessor
projections. -/
theorem map_predsProj_reachLoop (rpoT : List Nat) :
    ∀ (fuel : Nat) (c c' : Compiler),
      reachLoop rpoT fuel c = some c' →
      c'.blocks.map predsProj = c.blocks.map predsProj := by
  intro fuel
  induction fuel with
  | zero =>
    intro c c' h
    simp [reachLoop] at h
  | succ f ih =>
    intro c c' h
    unfold reachLoop at h
    cases hsw : reachSweep rpoT c false with
    | mk c1 chg =>
      rw [hsw] at h
      have hs1 : c1.blocks.map predsProj = c.blocks.map predsProj := by
        have := map_predsProj_reachSweep rpoT c false
        rw [hsw] at this
        exact this
      cases chg with
      | true => exact (ih c1 c' h).trans hs1
      | false =>
        cases h
        exact hs1

/-- A settled union reports the set unchanged and every candidate
already present. -/
theorem unionReach_false (cur add : List Nat)
    (h : (unionReach cur add).2 = false) :
    (unionReach cur add).1 = cur ∧ ∀ x ∈ add, x ∈ cur := by
  unfold unionReach at h ⊢
  dsimp only at h ⊢
  have hemp : add.filter (fun x => !cur.contains x) = [] := by
    cases hx : add.filter (fun x => !cur.contains x) with
    | nil => rfl
    | cons a t =>
      rw [hx] at h
      simp at h
  constructor
  · rw [hemp, List.append_nil]
  · intro x hx
    by_contra hcon
    have hmem : x ∈ add.filter (fun y => !cur.contains y) := by
      rw [List.mem_filter]
      refine ⟨hx, ?_⟩
      simp only [Bool.not_eq_true']
      rw [← Bool.not_eq_true]
      intro hc
      exact hcon (by simpa using hc)
    rw [hemp] at hmem
    simp at hmem

/-- Every block sees itself right after reach initialization. -/
theorem selfReach_init (c : Compiler) : SelfReach (reachInit c) := by
  intro b hb
  have hb2 : b ∈ c.blocks.map (fun x => { x with bbReach := [x.bbNum] }) := hb
  obtain ⟨b0, _, hbeq⟩ := List.mem_map.mp hb2
  rw [← hbeq]
  simp

/-- A block update that keeps the target number inside the new reach set
preserves self-membership. -/
theorem selfReach_update (c : Compiler) (i : Nat) (f)
    (hf : ∀ x, (f x).bbNum = x.bbNum)
    (hri : ∀ x, x.bbNum = i → i ∈ (f x).bbReach)
    (h : SelfReach c) : SelfReach (c.updateBlock i f) := by
  intro b' hb'
  have hb'2 : b' ∈ c.blocks.map (fun x => if x.bbNum = i then f x else x) :=
    hb'
  obtain ⟨b0, hb0, hbeq⟩ := List.mem_map.mp hb'2
  by_cases hbn : b0.bbNum = i
  · rw [if_pos hbn] at hbeq
    rw [← hbeq, hf b0, hbn]
    exact hri b0 hbn
  · rw [if_neg hbn] at hbeq
    rw [← hbeq]
    exact h b0 hb0

/-- One reachability sweep preserves self-membership. -/
theorem selfReach_sweep :
    ∀ (l : List Nat) (c : Compiler) (ch : Bool),
      SelfReach c → SelfReach (reachSweep l c ch).1 := by
  intro l
  induction l with
  | nil =>
    intro c ch h
    exact h
  | cons i rest ih =>
    intro c ch h
    unfold reachSweep
    cases hfb : c.findBlock i with
    | none =>
      dsimp only
      exact ih c ch h
    | some b =>
      dsimp only
      by_cases hpe : b.bbPreds.isEmpty
      · rw [if_pos hpe]
        exact ih c ch h
      · rw [if_neg hpe]
        refine ih _ _ ?_
        apply selfReach_update
        · intro x
          rfl
        · intro x hx
          show i ∈ (unionReach b.bbReach _).1
          unfold unionReach
          dsimp only
          refine List.mem_append_left _ ?_
          have hbn : b.bbNum = i := findBlock_some_num c i b hfb
          rw [← hbn]
          exact h b (findBlock_mem c i b hfb)
        · exact h

/-- The number of a pending block never leaves its reach set during the
fixpoint loop. -/
theorem selfReach_reachLoop (rpoT : List Nat) :
    ∀ (fuel : Nat) (c c' : Compiler),
      reachLoop rpoT fuel c = some c' → SelfReach c → SelfReach c' := by
  intro fuel
  induction fuel with
  | zero =>
    intro c c' h
    simp [reachLoop] at h
  | succ f ih =>
    intro c c' h hS
    unfold reachLoop at h
    cases hsw : reachSweep rpoT c false with
    | mk c1 chg =>
      rw [hsw] at h
      have hS1 : SelfReach c1 := by
        have := selfReach_sweep rpoT c false hS
        rw [hsw] at this
        exact this
      cases chg with
      | true =>
        dsimp only at h
        exact ih c1 c' h hS1
      | false =>
        dsimp only at h
        cases h
        exact hS1

/-- Fold accumulators only grow under appending. -/
theorem foldl_append_sub (g : Nat → List Nat) :
    ∀ (ps : List Nat) (acc : List Nat) (x : Nat), x ∈ acc →
      x ∈ ps.foldl (fun a q => a ++ g q) acc := by
  intro ps
  induction ps with
  | nil =>
    intro acc x hx
    exact hx
  | cons q rest ih =>
    intro acc x hx
    rw [List.foldl_cons]
    exact ih _ x (List.mem_append_left _ hx)

/-- Everything contributed by a listed source ends up in the appending
fold. -/
theorem foldl_append_mem (g : Nat → List Nat) :
    ∀ (ps : List Nat) (acc : List Nat) (p : Nat), p ∈ ps → ∀ x ∈ g p,
      x ∈ ps.foldl (fun a q => a ++ g q) acc := by
  intro ps
  induction ps with
  | nil =>
    intro acc p hp
    simp at hp
  | cons q rest ih =>
    intro acc p hp x hx
    rw [List.foldl_cons]
    rcases List.mem_cons.mp hp with rfl | hp2
    · exact foldl_append_sub g rest _ x (List.mem_append_right acc hx)
    · exact ih _ p hp2 x hx

/-- Predecessor lists pass through predecessor-preserving block
updates. -/
theorem predsOfNum_updateBlock (c : Compiler) (n : Nat) (f)
    (hf : ∀ b, (f b).bbNum = b.bbNum) (hp : ∀ b, (f b).bbPreds = b.bbPreds)
    (m : Nat) :
    predsOfNum (c.updateBlock n f) m = predsOfNum c m := by
  unfold predsOfNum
  rw [findBlock_updateBlock c n f hf m]
  cases c.findBlock m with
  | none => rfl
  | some b =>
    show (if b.bbNum = n then f b else b).bbPreds = b.bbPreds
    by_cases h : b.bbNum = n
    · rw [if_pos h]
      exact hp b
    · rw [if_neg h]

/-- Reach sets pass through a block update that rewrites the updated
reach set to itself. -/
theorem reachOf_updateBlock_stable (c : Compiler) (i : Nat) (f)
    (hf : ∀ b, (f b).bbNum = b.bbNum)
    (hstab : ∀ x, c.findBlock i = some x → (f x).bbReach = x.bbReach)
    (m : Nat) : reachOf (c.updateBlock i f) m = reachOf c m := by
  unfold reachOf
  rw [findBlock_updateBlock c i f hf m]
  cases hfm : c.findBlock m with
  | none => rfl
  | some bm =>
    show (if bm.bbNum = i then f bm else bm).bbReach = bm.bbReach
    by_cases h : bm.bbNum = i
    · rw [if_pos h]
      have hmi : m = i := by
        rw [← findBlock_some_num c m bm hfm]
        exact h
      exact hstab bm (hmi ▸ hfm)
    · rw [if_neg h]

/-- The change flag of the reach sweep is monotone: a clean outcome
means a clean start. -/
theorem reachSweep_flag_mono :
    ∀ (l : List Nat) (c : Compiler) (ch : Bool),
      (reachSweep l c ch).2 = false → ch = false := by
  intro l
  induction l with
  | nil =>
    intro c ch h
    exact h
  | cons i rest ih =>
    intro c ch h
    unfold reachSweep at h
    cases hfb : c.findBlock i with
    | none =>
      rw [hfb] at h
      dsimp only at h
      exact ih c ch h
    | some b =>
      rw [hfb] at h
      dsimp only at h
      by_cases hpe : b.bbPreds.isEmpty
      · rw [if_pos hpe] at h
        exact ih c ch h
      · rw [if_neg hpe] at h
        have h2 := ih _ _ h
        cases ch with
        | false => rfl
        | true => simp at h2

/-- A sweep that reports no change left every reach set as it was, and
every swept block is closed under its predecessors. -/
theorem reachSweep_stable :
    ∀ (l : List Nat) (c : Compiler) (ch : Bool) (out : Compiler × Bool),
      reachSweep l c ch = out → out.2 = false →
      (∀ n, reachOf out.1 n = reachOf c n) ∧
      (∀ n, predsOfNum out.1 n = predsOfNum c n) ∧
      (∀ i ∈ l, ClosedAt out.1 i) := by
  intro l
  induction l with
  | nil =>
    intro c ch out h hfalse
    cases h
    exact ⟨fun n => rfl, fun n => rfl, by simp⟩
  | cons i rest ih =>
    intro c ch out h hfalse
    unfold reachSweep at h
    cases hfb : c.findBlock i with
    | none =>
      rw [hfb] at h
      dsimp only at h
      obtain ⟨hv, hpn, hcl⟩ := ih c ch out h hfalse
      refine ⟨hv, hpn, ?_⟩
      intro j hj
      rcases List.mem_cons.mp hj with rfl | hj2
      · intro p hp
        rw [hpn j] at hp
        unfold predsOfNum at hp
        rw [hfb] at hp
        simp at hp
      · exact hcl j hj2
    | some b =>
      rw [hfb] at h
      dsimp only at h
      by_cases hpe : b.bbPreds.isEmpty
      · rw [if_pos hpe] at h
        obtain ⟨hv, hpn, hcl⟩ := ih c ch out h hfalse
        refine ⟨hv, hpn, ?_⟩
        intro j hj
        rcases List.mem_cons.mp hj with rfl | hj2
        · intro p hp
          rw [hpn j] at hp
          unfold predsOfNum at hp
          rw [hfb] at hp
          have hpe2 : b.bbPreds = [] := List.isEmpty_iff.mp hpe
          simp [hpe2] at hp
        · exact hcl j hj2
      · rw [if_neg hpe] at h
        have h2 := congrArg Prod.snd h
        rw [hfalse] at h2
        have hch := reachSweep_flag_mono rest _ _ h2
        have hu2 : (unionReach b.bbReach
            (b.bbPreds.foldl (fun acc p =>
              acc ++ (((c.findBlock p).map BasicBlock.bbReach).getD []))
              [])).2 = false := by
          cases hcc : (unionReach b.bbReach
              (b.bbPreds.foldl (fun acc p =>
                acc ++ (((c.findBlock p).map BasicBlock.bbReach).getD []))
                [])).2
          · rfl
          · rw [hcc] at hch
            simp at hch
        obtain ⟨hkeep, habs⟩ := unionReach_false _ _ hu2
        have hv1 : ∀ n, reachOf (c.updateBlock i (fun x =>
            { x with
                bbReach := (unionReach b.bbReach
                  (b.bbPreds.foldl (fun acc p =>
                    acc ++ (((c.findBlock p).map BasicBlock.bbReach).getD []))
                    [])).1,
                flags := { x.flags with
                  gcSafePoint := x.flags.gcSafePoint ||
                    b.bbPreds.all (fun p =>
                      (((c.findBlock p).map
                        (fun y => y.flags.gcSafePoint)).getD false)) } }))
            n = reachOf c n := by
          intro n
          apply reachOf_updateBlock_stable
          · intro x
            rfl
          · intro x hx
            have hxb : x = b := (Option.some.inj (hfb.symm.trans hx)).symm
            rw [hxb]
            exact hkeep
        have hpn1 : ∀ n, predsOfNum (c.updateBlock i (fun x =>
            { x with
                bbReach := (unionReach b.bbReach
                  (b.bbPreds.foldl (fun acc p =>
                    acc ++ (((c.findBlock p).map BasicBlock.bbReach).getD []))
                    [])).1,
                flags := { x.flags with
                  gcSafePoint := x.flags.gcSafePoint ||
                    b.bbPreds.all (fun p =>
                      (((c.findBlock p).map
                        (fun y => y.flags.gcSafePoint)).getD false)) } }))
            n = predsOfNum c n := by
          intro n
          apply predsOfNum_updateBlock
          · intro x
            rfl
          · intro x
            rfl
        obtain ⟨hv, hpn, hcl⟩ := ih _ _ out h hfalse
        have hvT : ∀ n, reachOf out.1 n = reachOf c n := fun n =>
          (hv n).trans (hv1 n)
        have hpnT : ∀ n, predsOfNum out.1 n = predsOfNum c n := fun n =>
          (hpn n).trans (hpn1 n)
        refine ⟨hvT, hpnT, ?_⟩
        intro j hj
        rcases List.mem_cons.mp hj with rfl | hj2
        · intro p hp x hx
          have hpredsi : predsOfNum c j = b.bbPreds := by
            unfold predsOfNum
            rw [hfb]
            rfl
          have hri : reachOf c j = b.bbReach := by
            unfold reachOf
            rw [hfb]
            rfl
          rw [hpnT j, hpredsi] at hp
          rw [hvT p] at hx
          rw [hvT j, hri]
          refine habs x ?_
          exact foldl_append_mem _ b.bbPreds [] p hp x hx
        · exact hcl j hj2

/-- At loop exit every swept block is closed under its predecessors and
self-membership survives. -/
theorem reachLoop_closed (rpoT : List Nat) :
    ∀ (fuel : Nat) (c c' : Compiler),
      reachLoop rpoT fuel c = some c' → SelfReach c →
      SelfReach c' ∧ ∀ i ∈ rpoT, ClosedAt c' i := by
  intro fuel
  induction fuel with
  | zero =>
    intro c c' h
    simp [reachLoop] at h
  | succ f ih =>
    intro c c' h hS
    unfold reachLoop at h
    cases hsw : reachSweep rpoT c false with
    | mk c1 chg =>
      rw [hsw] at h
      have hS1 : SelfReach c1 := by
        have := selfReach_sweep rpoT c false hS
        rw [hsw] at this
        exact this
      cases chg with
      | true =>
        dsimp only at h
        exact ih c1 c' h hS1
      | false =>
        dsimp only at h
        cases h
        obtain ⟨_, _, hcl⟩ :=
          reachSweep_stable rpoT c false (c', false) hsw rfl
        exact ⟨hS1, hcl⟩

/-- Completeness of the reach sets: a predecessor-edge path from a real
block lands in the reach set of its endpoint, once every block with
predecessors is closed. -/
theorem predReach_mem_reach (c : Compiler)
    (hnd : (c.blocks.map BasicBlock.bbNum).Nodup)
    (hself : SelfReach c)
    (rpoT : List Nat)
    (hcl : ∀ i ∈ rpoT, ClosedAt c i)
    (hcov : ∀ b ∈ c.blocks, b.bbPreds ≠ [] → b.bbNum ∈ rpoT)
    (a : Nat) (ba : BasicBlock) (hba : ba ∈ c.blocks) (han : ba.bbNum = a) :
    ∀ v, PredReachNZ c a v → a ∈ reachOf c v := by
  intro v h
  induction h with
  | refl =>
    have hfb : c.findBlock a = some ba := by
      rw [← han]
      exact findBlock_eq_of_mem c hnd ba hba
    have hra : reachOf c a = ba.bbReach := by
      unfold reachOf
      rw [hfb]
      rfl
    rw [hra, ← han]
    exact hself ba hba
  | tail hsub hstep ih =>
    rename_i w v2
    obtain ⟨hw0, bv, hbv, hbvnum, hwpred⟩ := hstep
    have hfbv : c.findBlock v2 = some bv := by
      rw [← hbvnum]
      exact findBlock_eq_of_mem c hnd bv hbv
    have hvrpo : v2 ∈ rpoT := by
      rw [← hbvnum]
      exact hcov bv hbv (List.ne_nil_of_mem hwpred)
    have hpn : predsOfNum c v2 = bv.bbPreds := by
      unfold predsOfNum
      rw [hfbv]
      rfl
    exact hcl v2 hvrpo w (by rw [hpn]; exact hwpred) a ih

/-- Equal predecessor projections give equal block-number lists. -/
theorem map_bbNum_of_proj (l l' : List BasicBlock)
    (h : l.map predsProj = l'.map predsProj) :
    l.map BasicBlock.bbNum = l'.map BasicBlock.bbNum := by
  have h1 : (l.map predsProj).map Prod.fst =
      (l'.map predsProj).map Prod.fst := by rw [h]
  rw [List.map_map, List.map_map] at h1
  exact h1

/-- After the restoration the predecessor projections of the whole
dominator pipeline collapse back to the input, provided no input list
mentions the imaginary block 0. -/
theorem proj_roundtrip (c : Compiler) (c3 : Compiler)
    (ifuel sf : Nat)
    (hz : ∀ bk ∈ c.blocks, 0 ∉ bk.bbPreds)
    (hlp : domsLoop ifuel (c.fgBBReversePostorder.drop 1) sf
      (domsMarkEHGo c.compHndBBtab
        (domsInitBlocks c, domsInitProcessed c)).1
      (domsMarkEHGo c.compHndBBtab
        (domsInitBlocks c, domsInitProcessed c)).2 = some c3) :
    (domsRestorePreds c3).blocks.map predsProj =
      c.blocks.map predsProj := by
  rw [map_predsProj_restore,
    map_predsProj_domsLoop ifuel _ sf _ _ c3 hlp,
    map_predsProj_markEH, map_predsProj_init]
  cases hbl : c.blocks with
  | nil => rfl
  | cons first rest =>
    dsimp only
    rw [List.map_cons, List.map_cons, List.map_map]
    have hzf : first.bbPreds ≠ [0] := by
      intro hcon
      exact hz first (hbl ▸ List.mem_cons_self first rest)
        (hcon ▸ List.mem_singleton_self 0)
    have h1 : restoreP (predsProj first) = predsProj first := by
      unfold restoreP predsProj
      rw [if_neg hzf]
    refine congrArg₂ List.cons h1 ?_
    apply List.map_congr_left
    intro b hb
    have hzb : 0 ∉ b.bbPreds :=
      hz b (hbl ▸ List.mem_cons_of_mem first hb)
    show restoreP (initP (predsProj b)) = predsProj b
    by_cases he : b.bbPreds.isEmpty
    · unfold initP predsProj
      dsimp only
      rw [if_pos he]
      unfold restoreP
      dsimp only
      rw [if_pos rfl]
      rw [List.isEmpty_iff.mp he]
    · unfold initP predsProj
      dsimp only
      rw [if_neg he]
      unfold restoreP
      dsimp only
      rw [if_neg (by
        intro hcon
        rw [hcon] at hzb
        exact hzb (List.mem_singleton_self 0))]

/-- What a successful `fgComputeReachabilitySets` run guarantees:
self-membership, closure at every swept block, preservation of every
non-blocks field, and preservation of the predecessor projections. -/
theorem computeReach_closed (c0 : Compiler) (fuel : Nat) (c' : Compiler)
    (h : fgComputeReachabilitySets c0 fuel = some c') :
    SelfReach c' ∧
    (∀ i ∈ c'.fgBBReversePostorder.drop 1, ClosedAt c' i) ∧
    (∃ bl, c' = { c0 with blocks := bl }) ∧
    c'.blocks.map predsProj = c0.blocks.map predsProj := by
  unfold fgComputeReachabilitySets at h
  obtain ⟨hself, hcl⟩ := reachLoop_closed _ fuel _ c' h (selfReach_init c0)
  obtain ⟨bl, hbl⟩ := reachLoop_shape _ fuel _ c' h
  have heq : c'.fgBBReversePostorder = c0.fgBBReversePostorder := by
    rw [hbl]
    rfl
  refine ⟨hself, ?_, ⟨bl, hbl⟩, ?_⟩
  · intro i hi
    rw [heq] at hi
    exact hcl i hi
  · exact (map_predsProj_reachLoop _ fuel _ c' h).trans
      (map_predsProj_reachInit c0)

/-- Claim C3: with dominators computed by `fgComputeDoms` and the reach
sets then computed by `fgComputeReachabilitySets`, dominance implies
reachability — whenever the dominator-tree interval test of
`fgDominate` answers true for two blocks of the numbering epoch, the
cached bit-set test of `fgReachable` answers true as well. The
hypotheses state the well-formedness the source maintains: distinct
nonzero block numbers not exceeding the block count, no recorded edge
from the imaginary block 0, and a reverse postorder that lists every
block with predecessors after its slot 0. -/
theorem claimC3_dominateImpliesReachable
    (c : Compiler) (sf ifuel wf rf qf : Nat) (c1 c2 : Compiler) (a b : Nat)
    (hnd : (c.blocks.map BasicBlock.bbNum).Nodup)
    (hz : ∀ bk ∈ c.blocks, 0 ∉ bk.bbPreds)
    (hz0 : ∀ bk ∈ c.blocks, bk.bbNum ≠ 0)
    (hdense : ∀ bk ∈ c.blocks, bk.bbNum ≤ c.blocks.length)
    (hrpo : ∀ bk ∈ c.blocks, bk.bbPreds ≠ [] →
      bk.bbNum ∈ c.fgBBReversePostorder.drop 1)
    (ha : ∃ bk ∈ c.blocks, bk.bbNum = a)
    (hb : ∃ bk ∈ c.blocks, bk.bbNum = b)
    (hdoms : fgComputeDoms c sf ifuel wf = some c1)
    (hreach : fgComputeReachabilitySets c1 rf = some c2)
    (hdom : fgDominate c2 (qf + 1) a b = some true) :
    fgReachable c2 (qf + 1) a b = some true := by
  unfold fgComputeDoms at hdoms
  cases hhd : c.blocks.head? with
  | none => rw [hhd] at hdoms; exact absurd hdoms (by simp)
  | some first0 =>
    rw [hhd] at hdoms
    dsimp only at hdoms
    cases hlp : domsLoop ifuel (c.fgBBReversePostorder.drop 1) sf
        (domsMarkEHGo c.compHndBBtab
          (domsInitBlocks c, domsInitProcessed c)).1
        (domsMarkEHGo c.compHndBBtab
          (domsInitBlocks c, domsInitProcessed c)).2 with
    | none => rw [hlp] at hdoms; exact absurd hdoms (by simp)
    | some c3 =>
      rw [hlp] at hdoms
      dsimp only at hdoms
      cases hns : numberSibs (domChildren (domsRestorePreds c3)) wf
          (domRoots (domsRestorePreds c3))
          { preMap := fun _ => 0, postMap := fun _ => 0,
            preNum := 1, postNum := 1 } with
      | none => rw [hns] at hdoms; exact absurd hdoms (by simp)
      | some sF =>
        rw [hns] at hdoms
        dsimp only at hdoms
        by_cases hguard :
            sF.preNum =
              (domClearRootIdoms (domsRestorePreds c3)).fgBBcount + 1 ∧
            sF.postNum =
              (domClearRootIdoms (domsRestorePreds c3)).fgBBcount + 1
        · rw [if_pos hguard] at hdoms
          cases hdoms
          have hproj4 : (domsRestorePreds c3).blocks.map predsProj =
              c.blocks.map predsProj := proj_roundtrip c c3 ifuel sf hz hlp
          have hnum4 : (domsRestorePreds c3).blocks.map BasicBlock.bbNum =
              c.blocks.map BasicBlock.bbNum := map_bbNum_of_proj _ _ hproj4
          have hnd4 : ((domsRestorePreds c3).blocks.map
              BasicBlock.bbNum).Nodup := by
            rw [hnum4]
            exact hnd
          have hz04 : ∀ bk ∈ (domsRestorePreds c3).blocks,
              bk.bbNum ≠ 0 := by
            intro bk hbk
            obtain ⟨b0, hb0, hbn, _⟩ := mem_of_proj_eq c _ hproj4 bk hbk
            rw [← hbn]
            exact hz0 b0 hb0
          have hlen4 : (domsRestorePreds c3).blocks.length =
              c.blocks.length := by
            have h1 := congrArg List.length hproj4
            rw [List.length_map, List.length_map] at h1
            exact h1
          have hpos : 0 < c.blocks.length := by
            cases hcb : c.blocks with
            | nil => rw [hcb] at hhd; simp at hhd
            | cons x t => simp [hcb]
          cases hbl4 : (domsRestorePreds c3).blocks with
          | nil =>
            rw [hbl4] at hlen4
            simp at hlen4
            omega
          | cons first4 rest4 =>
            have hJ4 : Jinv (domsRestorePreds c3) :=
              jinv_restore c3 (jinv_domsLoop ifuel _ sf _ _ c3
                (jinv_of_idomInit _ (idomInit_markEH c.compHndBBtab _
                  (idomInit_initBlocks c))) hlp)
            have hK1 : ∀ p q m, m ∈ domChildren (domsRestorePreds c3) p →
                m ∈ domChildren (domsRestorePreds c3) q → p = q :=
              fun p q m hp hq =>
                domChildren_parent_unique _ hnd4 p q m hp hq
            have hK2 : ∀ p, (domChildren (domsRestorePreds c3) p).Nodup :=
              fun p => domChildren_nodup _ hnd4 p
            have hok : SibsOK (domChildren (domsRestorePreds c3))
                (domRoots (domsRestorePreds c3)) := by
              refine ⟨domRoots_nodup _ first4 rest4 hbl4 hnd4, ?_⟩
              intro u hu v hv huv m h1 h2
              exact roots_disjoint _ _ hK1
                (fun p m2 hm2 => domChildren_ne_zero _ hz04 p m2 hm2)
                (domRoots_ne_zero _ first4 rest4 hbl4 hz04)
                (domRoots_nochild _ first4 rest4 hbl4 hnd4)
                u v hu hv huv m h1 h2
            have hguardlen : sF.preNum =
                ((domsRestorePreds c3).blocks.map BasicBlock.bbNum).length
                  + 1 := by
              have h1 := hguard.1
              have hlenc : (domClearRootIdoms
                  (domsRestorePreds c3)).fgBBcount =
                  (domsRestorePreds c3).blocks.length := by
                show (domClearRootIdoms
                  (domsRestorePreds c3)).blocks.length = _
                have h2 := congrArg List.length
                  (map_predsProj_clear (domsRestorePreds c3))
                rw [List.length_map, List.length_map] at h2
                exact h2
              rw [hlenc] at h1
              rw [List.length_map]
              exact h1
            have hwt := walk_total_interval
              (domChildren (domsRestorePreds c3))
              (domRoots (domsRestorePreds c3)) wf sF
              ((domsRestorePreds c3).blocks.map BasicBlock.bbNum)
              hK1 hK2 hok
              (fun p x hx => domChildren_mem_nums _ p x hx)
              (domRoots_mem_nums _ first4 rest4 hbl4)
              hns hguardlen
            obtain ⟨hself2, hcl2, ⟨bl2, hbl2⟩, hproj21⟩ :=
              computeReach_closed _ rf c2 hreach
            have hproj2 : c2.blocks.map predsProj =
                c.blocks.map predsProj := by
              rw [hproj21]
              show (domClearRootIdoms (domsRestorePreds c3)).blocks.map
                predsProj = _
              rw [map_predsProj_clear]
              exact hproj4
            have hnd2 : (c2.blocks.map BasicBlock.bbNum).Nodup := by
              rw [map_bbNum_of_proj _ _ hproj2]
              exact hnd
            have hpre2 : c2.fgDomTreePreOrder = sF.preMap := by
              rw [hbl2]
            have hpost2 : c2.fgDomTreePostOrder = sF.postMap := by
              rw [hbl2]
            have hcnt2 : c2.fgDomBBcount = c.blocks.length := by
              rw [hbl2]
              show (domClearRootIdoms (domsRestorePreds c3)).blocks.length
                = _
              have h2 := congrArg List.length
                (map_predsProj_clear (domsRestorePreds c3))
              rw [List.length_map, List.length_map] at h2
              rw [h2]
              exact hlen4
            have hc2rpo : c2.fgBBReversePostorder =
                c.fgBBReversePostorder := by
              rw [hbl2]
              show c3.fgBBReversePostorder = _
              obtain ⟨bl3, hbl3⟩ := loop_shape ifuel _ sf _ _ c3 hlp
              obtain ⟨blm, hblm⟩ := markEH_shape c.compHndBBtab
                (domsInitBlocks c, domsInitProcessed c)
              rw [hbl3]
              show (domsMarkEHGo c.compHndBBtab
                (domsInitBlocks c,
                  domsInitProcessed c)).1.fgBBReversePostorder = _
              rw [hblm]
              rfl
            have hale : a ≤ c.blocks.length := by
              obtain ⟨bk, hbk, hknum⟩ := ha
              rw [← hknum]
              exact hdense bk hbk
            have hble : b ≤ c.blocks.length := by
              obtain ⟨bk, hbk, hknum⟩ := hb
              rw [← hknum]
              exact hdense bk hbk
            unfold fgDominate at hdom
            rw [if_neg (by rw [hcnt2]; omega)] at hdom
            rw [if_neg (by rw [hcnt2]; omega)] at hdom
            have hbool := Option.some.inj hdom
            rw [Bool.and_eq_true, decide_eq_true_eq, decide_eq_true_eq]
              at hbool
            rw [hpre2, hpost2] at hbool
            obtain ⟨hpre, hpost⟩ := hbool
            obtain ⟨ba0, hba0, hban⟩ := ha
            obtain ⟨bb0, hbb0, hbbn⟩ := hb
            obtain ⟨ba2, hba2, hba2n, hba2p⟩ :=
              mem_of_proj_eq c2 c hproj2.symm ba0 hba0
            obtain ⟨bb2, hbb2, hbb2n, hbb2p⟩ :=
              mem_of_proj_eq c2 c hproj2.symm bb0 hbb0
            have hba2a : ba2.bbNum = a := hba2n.trans hban
            have hbb2b : bb2.bbNum = b := hbb2n.trans hbbn
            have hkey : a ∈ reachOf c2 b := by
              by_cases hab : a = b
              · subst hab
                have hfba : c2.findBlock a = some ba2 := by
                  rw [← hba2a]
                  exact findBlock_eq_of_mem c2 hnd2 ba2 hba2
                have hra : reachOf c2 a = ba2.bbReach := by
                  unfold reachOf
                  rw [hfba]
                  rfl
                rw [hra, ← hba2a]
                exact hself2 ba2 hba2
              · have hamem : a ∈ (domsRestorePreds c3).blocks.map
                    BasicBlock.bbNum := by
                  rw [hnum4, ← hban]
                  exact List.mem_map_of_mem _ hba0
                have hbmem : b ∈ (domsRestorePreds c3).blocks.map
                    BasicBlock.bbNum := by
                  rw [hnum4, ← hbbn]
                  exact List.mem_map_of_mem _ hbb0
                have hdesc := hwt a b hamem hbmem hab hpre hpost
                have ha0 : a ≠ 0 := by
                  rw [← hban]
                  exact hz0 ba0 hba0
                have hreach4 : PredReachNZ (domsRestorePreds c3) a b :=
                  kidsDesc_predReach _ hJ4 hz04 a b hdesc ha0
                have hreachC : PredReachNZ c a b :=
                  (predReachNZ_congr c _ hproj4 a b).mp hreach4
                have hreach2 : PredReachNZ c2 a b :=
                  (predReachNZ_congr c c2 hproj2 a b).mpr hreachC
                have hcov2 : ∀ bk ∈ c2.blocks, bk.bbPreds ≠ [] →
                    bk.bbNum ∈ c2.fgBBReversePostorder.drop 1 := by
                  intro bk hbk hbkp
                  obtain ⟨b0, hb0, hbn0, hbp0⟩ :=
                    mem_of_proj_eq c c2 hproj2 bk hbk
                  rw [hc2rpo, ← hbn0]
                  exact hrpo b0 hb0 (by rw [hbp0]; exact hbkp)
                exact predReach_mem_reach c2 hnd2 hself2 _ hcl2 hcov2
                  a ba2 hba2 hba2a b hreach2
            unfold fgReachable
            rw [if_neg (by rw [hcnt2]; omega)]
            rw [if_neg (by rw [hcnt2]; omega)]
            have hfbb : c2.findBlock b = some bb2 := by
              rw [← hbb2b]
              exact findBlock_eq_of_mem c2 hnd2 bb2 hbb2
            rw [hfbb]
            dsimp only
            have hrb : reachOf c2 b = bb2.bbReach := by
              unfold reachOf
              rw [hfbb]
              rfl
            rw [hrb] at hkey
            have hcont : bb2.bbReach.contains a = true := by
              simpa using hkey
            rw [hcont]
        · rw [if_neg hguard] at hdoms
          exact absurd hdoms (by simp)

/-- A two-block chain for the C3 witness: entry block 1 jumps to block
2; the reverse postorder lists both after the unused slot 0. -/
def cexC3w : Compiler :=
  { blocks :=
      [ { bbNum := 1, kind := .always 2, stmts := [],
          bbPreds := [], bbRefs := 0, bbWeight := 1, bbPostorderNum := 2 },
        { bbNum := 2, kind := .ret, stmts := [],
          bbPreds := [1], bbRefs := 1, bbWeight := 1,
          bbPostorderNum := 1 } ],
    fgBBReversePostorder := [0, 1, 2] }

/-- Witness for claim C3&apos;s theorem at the concrete state `cexC3w`:
after computing dominators and reach sets, block 1 dominates block 2 and
the cached reach set indeed answers that 1 reaches 2. -/
theorem claimC3_witness :
    ∃ c1 c2, fgComputeDoms cexC3w 3 5 6 = some c1 ∧
      fgComputeReachabilitySets c1 4 = some c2 ∧
      fgReachable c2 4 1 2 = some true := by
  cases hd : fgComputeDoms cexC3w 3 5 6 with
  | none =>
    have hs : (fgComputeDoms cexC3w 3 5 6).isSome = true := by decide
    rw [hd] at hs
    exact absurd hs (by decide)
  | some c1 =>
    cases hr : fgComputeReachabilitySets c1 4 with
    | none =>
      have hs : ((fgComputeDoms cexC3w 3 5 6).bind
          (fun x => fgComputeReachabilitySets x 4)).isSome = true := by
        decide
      rw [hd] at hs
      have hs2 : (fgComputeReachabilitySets c1 4).isSome = true := hs
      rw [hr] at hs2
      exact absurd hs2 (by decide)
    | some c2 =>
      have hcomp : (fgComputeDoms cexC3w 3 5 6).bind
          (fun x => (fgComputeReachabilitySets x 4).map
            (fun y => fgDominate y 4 1 2)) = some (some true) := by decide
      rw [hd] at hcomp
      have hcomp2 : (fgComputeReachabilitySets c1 4).map
          (fun y => fgDominate y 4 1 2) = some (some true) := hcomp
      rw [hr] at hcomp2
      have hdomv : fgDominate c2 4 1 2 = some true :=
        Option.some.inj hcomp2
      refine ⟨c1, c2, rfl, hr, ?_⟩
      exact claimC3_dominateImpliesReachable cexC3w 3 5 6 4 3 c1 c2 1 2
        (by decide) (by decide) (by decide) (by decide) (by decide)
        (by decide) (by decide) hd hr hdomv

end FgOpt
